import Mathlib

/-!
Verification of KDP_Binder (Rust): a shallow embedding of the document
object-graph engine (`src/main.rs`, `src/process_pages.rs`,
`src/binding_params.rs`) and proofs of the spec's testable properties.

Rust `f64` arithmetic is modelled over `ℚ` (exact field arithmetic, the
intended real-number semantics of the geometry code); machine integers are
`Nat`/`Int`.
-/

namespace KDPBinder

/-! ### Geometry: `binding_params.rs` -/

/-- `Rect` from binding_params.rs. -/
structure BRect where
  x : ℚ
  y : ℚ
  width : ℚ
  height : ℚ
deriving DecidableEq, Repr

/-- `Size` from binding_params.rs. -/
structure BSize where
  width : ℚ
  height : ℚ
deriving DecidableEq, Repr

/-- `BookParams` from binding_params.rs (the `unit_system` field plays no
role in the safe-area arithmetic and is omitted). -/
structure BookParams where
  width : ℚ
  height : ℚ
  pages : Int
deriving DecidableEq, Repr

/-- `BookBindingConstant` from binding_params.rs. -/
structure BookBindingConstant where
  bleed_cover : ℚ
  margin_cover : ℚ
  thickness : ℚ
  gutter : ℚ
  margin_inner : ℚ
deriving DecidableEq, Repr

/-- `Book` from binding_params.rs. -/
structure Book where
  params : BookParams
  binding : BookBindingConstant
deriving DecidableEq, Repr

/-- `Book::get_safe_area_size` from binding_params.rs. -/
def Book.get_safe_area_size (b : Book) : BSize :=
  { width := b.params.width - (b.binding.gutter + b.binding.margin_inner)
    height := b.params.height - (2 * b.binding.margin_inner) }

/-- `Book::get_safe_area` from binding_params.rs
(`is_left = true` is the left/verso page, `false` the right/recto page). -/
def Book.get_safe_area (b : Book) (is_left : Bool) : BRect :=
  let safe := b.get_safe_area_size
  let x := if is_left then b.binding.margin_inner else b.binding.gutter
  let y := b.binding.margin_inner
  { x := x, y := y, width := safe.width, height := safe.height }

/-! ### Geometry: fitting (`process_pages.rs`, lines 453-491) -/

/-- `AxisAnchor` from process_pages.rs. -/
inductive AxisAnchor where
  | start
  | center
  | stop
deriving DecidableEq, Repr

/-- `FitMode` from process_pages.rs. -/
inductive FitMode where
  | contain
  | cover
deriving DecidableEq, Repr

/-- `anchor_value` from process_pages.rs (the Rust parameters `start`/`end`;
`end` is a Lean keyword, so the second parameter is named `stop`). -/
def anchor_value (start stop : ℚ) : AxisAnchor → ℚ
  | .start => start
  | .center => (1 / 2) * (start + stop)
  | .stop => stop

/-- `fit_with_anchor` from process_pages.rs.  The scale cap `s_max` is
`Option ℚ`: `some m` models a finite cap, `none` models `f64::INFINITY`
(for finite `s0`, `s0.min(INFINITY) = s0`, so the cap is a no-op). -/
def fit_with_anchor (ux0 uy0 ux1 uy1 sx0 sy0 sx1 sy1 : ℚ)
    (ax ay : AxisAnchor) (mode : FitMode) (s_max : Option ℚ) : ℚ × ℚ × ℚ :=
  let uw := ux1 - ux0
  let uh := uy1 - uy0
  let sw := sx1 - sx0
  let sh := sy1 - sy0
  let s0 := match mode with
    | .contain => min (sw / uw) (sh / uh)
    | .cover => max (sw / uw) (sh / uh)
  let s := match s_max with
    | some m => min s0 m
    | none => s0
  let u_px := anchor_value ux0 ux1 ax
  let u_py := anchor_value uy0 uy1 ay
  let s_px := anchor_value sx0 sx1 ax
  let s_py := anchor_value sy0 sy1 ay
  (s, s_px - s * u_px, s_py - s * u_py)

/-! ### `apply_inner_margin` per-page policy (`process_pages.rs`, 543-569) -/

/-- The sparsity test and anchor/cap/mode selection of `apply_inner_margin`
(steps 2-3 and 2-4): ratio of the ink box U's area to the safe box S's area,
sparse below 0.12. -/
def inner_area_ratio (ux0 uy0 ux1 uy1 sx0 sy0 sx1 sy1 : ℚ) : ℚ :=
  let u_area := max (ux1 - ux0) 0 * max (uy1 - uy0) 0
  let s_area := max (sx1 - sx0) 0 * max (sy1 - sy0) 0
  if 0 < s_area then u_area / s_area else 1

/-- Step 2-4 of `apply_inner_margin`: sparse pages are anchored
bottom-center (Center x Start) with the scale capped at 1.0; other pages are
anchored dead-center (Center x Center) with no cap (`f64::INFINITY`,
modelled `none`). -/
def inner_fit_params (area_ratio : ℚ) :
    AxisAnchor × AxisAnchor × Option ℚ × FitMode :=
  if area_ratio < 0.12 then
    (.center, .start, some 1, .contain)
  else
    (.center, .center, none, .contain)

/-- Steps 2-3 to 2-5 of `apply_inner_margin`: the full per-page transform
computation from the ink box U and the (already shrunken) safe box S. -/
def inner_fit (ux0 uy0 ux1 uy1 sx0 sy0 sx1 sy1 : ℚ) : ℚ × ℚ × ℚ :=
  let r := inner_area_ratio ux0 uy0 ux1 uy1 sx0 sy0 sx1 sy1
  let p := inner_fit_params r
  fit_with_anchor ux0 uy0 ux1 uy1 sx0 sy0 sx1 sy1 p.1 p.2.1 p.2.2.2 p.2.2.1

/-! ### `apply_inner_margin` safe-rectangle selection (lines 513-541) -/

/-- The in→pt conversion applied to both safe rectangles at the top of
`apply_inner_margin` (`*= 72.0` on all four fields). -/
def scale72 (r : BRect) : BRect :=
  { x := r.x * 72, y := r.y * 72, width := r.width * 72, height := r.height * 72 }

/-- Step 2-1 of `apply_inner_margin`: page `i` (0-based loop index) uses the
right/recto safe rectangle when the 1-based position `i+1` is odd, else the
left/verso one. -/
def select_safe (safe_left safe_right : BRect) (i : Nat) : BRect :=
  if (i + 1) % 2 = 1 then safe_right else safe_left

/-- Step 2-1 of `apply_inner_margin`: the chosen safe rectangle, pulled
inward by `epsilon = 0.001` on every edge, as `(sx0, sy0, sx1, sy1)`. -/
def shrink_safe (safe : BRect) : ℚ × ℚ × ℚ × ℚ :=
  (safe.x + 0.001, safe.y + 0.001,
   safe.x + safe.width - 0.001, safe.y + safe.height - 0.001)

/-! ### The document object graph (lopdf substrate)

The document codec/object store is the external `lopdf` library; it is
modelled here at its interface: a map from object identifiers to object
values plus a trailer dictionary and a running maximum identifier.
Content-stream payloads are modelled post-`Content::decode`, i.e. as the
decoded operation list (operator byte-string plus operand list); the
byte-level parser is out of scope. -/

/-- lopdf `ObjectId` = (object number, generation number). -/
abbrev ObjectId := Nat × Nat

/-- lopdf `Object` (the variants the core code touches).  Dictionaries are
ordered name→value association lists; a stream is its dictionary plus its
decoded content program. -/
inductive Object where
  | null
  | boolean (b : Bool)
  | integer (i : Int)
  | real (r : ℚ)
  | name (s : String)
  | str (s : String)
  | array (xs : List Object)
  | dict (d : List (String × Object))
  | stream (sd : List (String × Object)) (ops : List (String × List Object))
  | reference (id : ObjectId)

/-- A dictionary: ordered mapping of names to objects. -/
abbrev Dict := List (String × Object)

/-- A decoded content operation: operator and operands
(lopdf `content::Operation`). -/
abbrev Op := String × List Object

/-- First-match dictionary lookup (lopdf `Dictionary::get`). -/
def lookupDict : Dict → String → Option Object
  | [], _ => none
  | (k, v) :: rest, key => if k = key then some v else lookupDict rest key

/-- In-place replace-or-append (lopdf `Dictionary::set`). -/
def setDict : Dict → String → Object → Dict
  | [], key, v => [(key, v)]
  | (k, w) :: rest, key, v =>
    if k = key then (key, v) :: rest else (k, w) :: setDict rest key v

/-- Lookup in the object store. -/
def lookupId : List (ObjectId × Object) → ObjectId → Option Object
  | [], _ => none
  | (k, v) :: rest, id => if k = id then some v else lookupId rest id

/-- Replace-or-append in the object store (BTreeMap insert). -/
def setIdEntry : List (ObjectId × Object) → ObjectId → Object → List (ObjectId × Object)
  | [], id, v => [(id, v)]
  | (k, w) :: rest, id, v =>
    if k = id then (id, v) :: rest else (k, w) :: setIdEntry rest id v

/-- Removal from the object store (BTreeMap remove). -/
def removeIdEntry (l : List (ObjectId × Object)) (id : ObjectId) : List (ObjectId × Object) :=
  l.filter (fun p => p.1 ≠ id)

/-- lopdf `Document`: object store, trailer, running maximum id. -/
structure Document where
  objects : List (ObjectId × Object)
  trailer : Dict
  maxId : Nat

/-- The store's key list. -/
def keysOf (doc : Document) : List ObjectId := doc.objects.map (·.1)

/-- Models lopdf `Document::get_object`. -/
def Document.getObject (doc : Document) (id : ObjectId) : Option Object :=
  lookupId doc.objects id

/-- `get_object` + `as_dict` (fails on anything but a dictionary). -/
def Document.getDict (doc : Document) (id : ObjectId) : Option Dict :=
  match doc.getObject id with
  | some (.dict d) => some d
  | _ => none

/-- `get_object` + `as_stream` (fails on anything but a stream). -/
def Document.getStream (doc : Document) (id : ObjectId) : Option (Dict × List Op) :=
  match doc.getObject id with
  | some (.stream sd ops) => some (sd, ops)
  | _ => none

/-- Functional update standing in for `get_object_mut` writes. -/
def Document.setObject (doc : Document) (id : ObjectId) (o : Object) : Document :=
  { doc with objects := setIdEntry doc.objects id o }

/-- Models lopdf `Document::new_object_id` (`max_id += 1`, generation 0). -/
def Document.newObjectId (doc : Document) : ObjectId × Document :=
  ((doc.maxId + 1, 0), { doc with maxId := doc.maxId + 1 })

/-- Models lopdf `Document::catalog`: trailer `Root` reference resolved to a
dictionary. -/
def Document.catalog (doc : Document) : Option Dict :=
  match lookupDict doc.trailer "Root" with
  | some (.reference id) => doc.getDict id
  | _ => none

/-- `pages_root_id` from main.rs: the catalog's `Pages` entry as a
reference (`none` models the `?` error paths). -/
def pages_root_id (doc : Document) : Option ObjectId :=
  match doc.catalog with
  | some cat =>
    match lookupDict cat "Pages" with
    | some (.reference id) => some id
    | _ => none
  | none => none

/-- The `Kids` entry of a tree node as a list (empty when absent or not an
array). -/
def kidsList (d : Dict) : List Object :=
  match lookupDict d "Kids" with
  | some (.array xs) => xs
  | _ => []

/-- Models lopdf's page-tree iterator: depth-first walk of `Kids`,
descending through `Type /Pages` nodes and yielding `Type /Page` leaves.
The fuel bounds the descent depth (the object count suffices on any
tree-shaped graph). -/
def pageIterFuel (doc : Document) : Nat → ObjectId → List ObjectId
  | 0, _ => []
  | fuel + 1, id =>
    match doc.getDict id with
    | none => []
    | some d =>
      match lookupDict d "Type" with
      | some (.name ty) =>
        if ty = "Pages" then
          (kidsList d).flatMap (fun o =>
            match o with
            | .reference kid => pageIterFuel doc fuel kid
            | _ => [])
        else if ty = "Page" then [id]
        else []
      | _ => []

/-- Models lopdf `Document::get_pages` (page number → id, in page order):
the in-order list of page leaves below the catalog's page-tree root. -/
def Document.getPages (doc : Document) : List ObjectId :=
  match pages_root_id doc with
  | some root => pageIterFuel doc (doc.objects.length + 1) root
  | none => []

/-! ### Renumbering (lopdf `renumber_objects`/`renumber_objects_with`) -/

/-- Lexicographic order on object ids (the BTreeMap key order). -/
def idLeb (a b : ObjectId) : Bool :=
  a.1 < b.1 || (a.1 = b.1 && a.2 ≤ b.2)

/-- Ordered insert for `sortIds`. -/
def insertSortedId (x : ObjectId) : List ObjectId → List ObjectId
  | [] => [x]
  | y :: rest => if idLeb x y then x :: y :: rest else y :: insertSortedId x rest

/-- Sorted key list (insertion sort by id order). -/
def sortIds (l : List ObjectId) : List ObjectId :=
  l.foldr insertSortedId []

/-- Position of an id in a list. -/
def idxOfId (id : ObjectId) : List ObjectId → Option Nat
  | [] => none
  | k :: rest => if k = id then some 0 else (idxOfId id rest).map (· + 1)

/-- The replacement map of `renumber_objects_with(start)`: the k-th key in
ascending id order becomes `(start + k, generation)`; other ids are
untouched. -/
def renumberMap (keys : List ObjectId) (start : Nat) (id : ObjectId) : ObjectId :=
  match idxOfId id (sortIds keys) with
  | some k => (start + k, id.2)
  | none => id

mutual

/-- Apply an id substitution to every reference inside an object.  Stream
byte payloads hold no object references, so decoded content is untouched
(as in lopdf). -/
def renObj (σ : ObjectId → ObjectId) : Object → Object
  | .reference id => .reference (σ id)
  | .array xs => .array (renObjList σ xs)
  | .dict d => .dict (renKVs σ d)
  | .stream sd ops => .stream (renKVs σ sd) ops
  | .null => .null
  | .boolean b => .boolean b
  | .integer i => .integer i
  | .real r => .real r
  | .name s => .name s
  | .str s => .str s

/-- `renObj` over an object list. -/
def renObjList (σ : ObjectId → ObjectId) : List Object → List Object
  | [] => []
  | x :: xs => renObj σ x :: renObjList σ xs

/-- `renObj` over dictionary values. -/
def renKVs (σ : ObjectId → ObjectId) : List (String × Object) → List (String × Object)
  | [] => []
  | (k, v) :: rest => (k, renObj σ v) :: renKVs σ rest

end

/-- Apply an id substitution to the whole document: store keys, every
reference, and the trailer. -/
def renDoc (σ : ObjectId → ObjectId) (doc : Document) : Document :=
  { objects := doc.objects.map (fun p => (σ p.1, renObj σ p.2))
    trailer := renKVs σ doc.trailer
    maxId := doc.maxId }

/-- Models lopdf `renumber_objects_with(start)`: simultaneous rename of all
keys to the dense range starting at `start` (in ascending id order), all
references rewritten, `max_id` set past the new range. -/
def Document.renumberObjectsWith (doc : Document) (start : Nat) : Document :=
  let σ := renumberMap (keysOf doc) start
  { renDoc σ doc with maxId := start + doc.objects.length - 1 }

/-- Models lopdf `renumber_objects` (= `renumber_objects_with 1`). -/
def Document.renumberObjects (doc : Document) : Document :=
  doc.renumberObjectsWith 1

/-! ### `append_doc` (main.rs, lines 78-107) -/

/-- The `for pid in &add_page_ids` loop of `append_doc`: repoint every
appended page's `Parent` to the base page-tree root
(`get_object_mut`/`as_dict_mut` errors become `none`). -/
def setParentAll (root : ObjectId) : Document → List ObjectId → Option Document
  | doc, [] => some doc
  | doc, pid :: rest =>
    match doc.getObject pid with
    | some (.dict d) =>
      setParentAll root (doc.setObject pid (.dict (setDict d "Parent" (.reference root)))) rest
    | _ => none

/-- `base.objects.extend(add.objects)` (BTreeMap extend: later entries
override on key collision). -/
def extendObjs (a b : List (ObjectId × Object)) : List (ObjectId × Object) :=
  b.foldl (fun acc p => setIdEntry acc p.1 p.2) a

/-- The tail of `append_doc` after the stores are spliced: push the
appended page references onto the root's `Kids`, set the root's `Count` to
the combined page count, densely renumber
(`get_object_mut`/`as_dict_mut`/`get_mut`/`as_array_mut` errors become
`none`). -/
def append_finish (base_pages_id : ObjectId) (base_page_count : Int)
    (add_page_ids : List ObjectId) (merged : Document) : Option Document :=
  match merged.getObject base_pages_id with
  | some (.dict pd) =>
    match lookupDict pd "Kids" with
    | some (.array kids) =>
      some ((merged.setObject base_pages_id
        (.dict (setDict (setDict pd "Kids"
          (.array (kids ++ add_page_ids.map Object.reference))) "Count"
          (.integer (base_page_count + add_page_ids.length))))).renumberObjects)
    | _ => none
  | _ => none

/-- `append_doc` from main.rs: renumber `add` past `base.max_id`, repoint
its pages' parents, splice the stores, push the page references onto the
root's `Kids`, refresh the root's `Count`, then densely renumber.  (The
renumbered addition is written out twice rather than `let`-bound; the
expression is pure.) -/
def append_doc (base add : Document) : Option Document :=
  match pages_root_id base with
  | none => none
  | some base_pages_id =>
    match setParentAll base_pages_id (add.renumberObjectsWith (base.maxId + 1))
        (add.renumberObjectsWith (base.maxId + 1)).getPages with
    | none => none
    | some add3 =>
      append_finish base_pages_id base.getPages.length
        (add.renumberObjectsWith (base.maxId + 1)).getPages
        { base with objects := extendObjs base.objects add3.objects }

/-! ### `enforce_page_size` and `blank_page_doc` (main.rs, 110-157) -/

/-- The caller-supplied box `[0 0 w h]` (`box_obj` in `enforce_page_size`). -/
def boxArray (w h : ℚ) : Object :=
  .array [.real 0, .real 0, .real w, .real h]

/-- One iteration of `enforce_page_size`: overwrite `MediaBox` and
`CropBox` on a page dictionary. -/
def setPageBoxes (d : Dict) (box : Object) : Dict :=
  setDict (setDict d "MediaBox" box) "CropBox" box

/-- The page loop of `enforce_page_size`. -/
def enforceLoop (box : Object) : Document → List ObjectId → Option Document
  | doc, [] => some doc
  | doc, pid :: rest =>
    match doc.getObject pid with
    | some (.dict d) => enforceLoop box (doc.setObject pid (.dict (setPageBoxes d box))) rest
    | _ => none

/-- `enforce_page_size` from main.rs: set every page's `MediaBox` and
`CropBox` to `[0 0 w h]`. -/
def enforce_page_size (doc : Document) (w_pt h_pt : ℚ) : Option Document :=
  enforceLoop (boxArray w_pt h_pt) doc doc.getPages

/-- `blank_page_doc` from main.rs: a fresh document holding one empty page
of the given size. -/
def blank_page_doc (w_pt h_pt : ℚ) : Document :=
  let pages_id : ObjectId := (1, 0)
  let page_id : ObjectId := (2, 0)
  let contents_id : ObjectId := (3, 0)
  let catalog_id : ObjectId := (4, 0)
  { objects :=
      [(contents_id, .stream [] []),
       (page_id, .dict
         [("Type", .name "Page"),
          ("Parent", .reference pages_id),
          ("MediaBox", boxArray w_pt h_pt),
          ("CropBox", boxArray w_pt h_pt),
          ("Resources", .dict []),
          ("Contents", .reference contents_id)]),
       (pages_id, .dict
         [("Type", .name "Pages"),
          ("Kids", .array [.reference page_id]),
          ("Count", .integer 1)]),
       (catalog_id, .dict
         [("Type", .name "Catalog"),
          ("Pages", .reference pages_id)])]
    trailer := [("Root", .reference catalog_id)]
    maxId := 4 }

/-! ### Blank detection (`process_pages.rs`, lines 43-159) -/

/-- `obj_as_dict_owned` from process_pages.rs: an owned dictionary from a
direct dictionary or a reference to one. -/
def obj_as_dict_owned (o : Object) (doc : Document) : Option Dict :=
  match o with
  | .dict d => some d
  | .reference id => doc.getDict id
  | _ => none

/-- `page_content_streams` over a `Contents` array: references must resolve
to streams (`none` models the `?` error), other elements are skipped. -/
def streamsOfArr (doc : Document) : List Object → Option (List (Dict × List Op))
  | [] => some []
  | .reference id :: rest =>
    match doc.getStream id with
    | none => none
    | some s => (streamsOfArr doc rest).map (s :: ·)
  | _ :: rest => streamsOfArr doc rest

/-- `page_content_streams` from process_pages.rs: the page's content
streams, in order (`none` models the error paths). -/
def page_content_streams (doc : Document) (page_id : ObjectId) : Option (List (Dict × List Op)) :=
  match doc.getDict page_id with
  | none => none
  | some page =>
    match lookupDict page "Contents" with
    | some (.reference cid) => (doc.getStream cid).map (fun s => [s])
    | some (.array arr) => streamsOfArr doc arr
    | some (.stream sd ops) => some [(sd, ops)]
    | some _ => some []
    | none => some []

/-- The `Parent`-chain search of `effective_resources` (the source loop is
unbounded; exhausted fuel is conflated with the chain ending without a
`Resources` entry, which no claim distinguishes). -/
def resourcesChain (doc : Document) : Nat → Dict → Option Dict
  | 0, _ => none
  | fuel + 1, cur =>
    match lookupDict cur "Parent" with
    | some (.reference pid) =>
      match doc.getDict pid with
      | none => none
      | some parent =>
        match lookupDict parent "Resources" with
        | some obj => obj_as_dict_owned obj doc
        | none => resourcesChain doc fuel parent
    | _ => none

/-- `effective_resources` from process_pages.rs: the page's own
`Resources` if the key is present, else the nearest ancestor's. -/
def effective_resources (doc : Document) (page_id : ObjectId) : Option Dict :=
  match doc.getDict page_id with
  | none => none
  | some page =>
    match lookupDict page "Resources" with
    | some obj => obj_as_dict_owned obj doc
    | none => resourcesChain doc (doc.objects.length + 1) page

/-- The drawing operators of `draws_something`: text-showing,
path-painting, shading, inline image (`\x27` is the quote operator). -/
def drawingOps : List String :=
  ["Tj", "TJ", "\x27", "\"", "S", "s", "f", "F", "f*", "B", "B*", "b", "b*", "sh", "BI"]

/-- Result of evaluating a fallible, possibly nonterminating recursion:
`outOfFuel` marks an execution whose call depth exceeds the fuel. -/
inductive EvalResult (α : Type) where
  | ok (a : α)
  | err
  | outOfFuel
deriving DecidableEq, Repr

/-- Outcome of the `Do`-operator cascade in `draws_something`. -/
inductive DoStep where
  | skip
  | fail
  | image
  | form (ops : List Op) (res : Option Dict)

/-- The `Do` branch of `draws_something`: resolve the first operand through
the effective resource table's `XObject` entry.  `skip` models every
fall-through (`if let` miss), `fail` the `get_object?`/`as_stream?`
errors, `form` carries the Form's content and its own resource table if
declared, else the caller's. -/
def doLookup (doc : Document) (res : Option Dict) (operands : List Object) : DoStep :=
  match operands.head? with
  | none => .skip
  | some first =>
    match res with
    | none => .skip
    | some r =>
      match lookupDict r "XObject" with
      | none => .skip
      | some xobjs_obj =>
        let xdict := (obj_as_dict_owned xobjs_obj doc).getD []
        match first with
        | .name nm =>
          match lookupDict xdict nm with
          | some (.reference oid) =>
            match doc.getObject oid with
            | some (.stream sd ops) =>
              match lookupDict sd "Subtype" with
              | some (.name sub) =>
                if sub = "Image" then .image
                else if sub = "Form" then
                  .form ops
                    (match lookupDict sd "Resources" with
                     | some r2 => obj_as_dict_owned r2 doc
                     | none => res)
                else .skip
              | _ => .skip
            | _ => .fail
          | _ => .skip
        | _ => .skip

/-- The operator scan of `draws_something` at one call depth: `rec` is the
recursive evaluation of an invoked Form's content one level deeper. -/
def drawsOpsLoop (doc : Document) (rec : List Op → Option Dict → EvalResult Bool) :
    List Op → Option Dict → EvalResult Bool
  | [], _ => .ok false
  | op :: rest, res =>
    if op.1 ∈ drawingOps then .ok true
    else if op.1 = "Do" then
      match doLookup doc res op.2 with
      | .skip => drawsOpsLoop doc rec rest res
      | .fail => .err
      | .image => .ok true
      | .form ops2 res2 =>
        match rec ops2 res2 with
        | .ok true => .ok true
        | .ok false => drawsOpsLoop doc rec rest res
        | .err => .err
        | .outOfFuel => .outOfFuel
    else drawsOpsLoop doc rec rest res

/-- `draws_something` from process_pages.rs: scan the operation list for a
drawing operator, descending into invoked Form XObjects.  The source
recursion carries no depth bound or visited set; the fuel counts the
remaining call depth, so a call at fuel 0 — a stack frame the real program
would still happily push — is reported as `outOfFuel`. -/
def draws_something (doc : Document) : Nat → List Op → Option Dict → EvalResult Bool
  | 0, _, _ => .outOfFuel
  | fuel + 1, ops, res => drawsOpsLoop doc (draws_something doc fuel) ops res

/-- The stream loop of `page_is_blank`. -/
def blankLoop (doc : Document) (fuel : Nat) (res : Option Dict) :
    List (Dict × List Op) → EvalResult Bool
  | [] => .ok true
  | s :: rest =>
    match draws_something doc fuel s.2 res with
    | .ok true => .ok false
    | .ok false => blankLoop doc fuel res rest
    | .err => .err
    | .outOfFuel => .outOfFuel

/-- `page_is_blank` from process_pages.rs: no content streams ⇒ blank;
otherwise blank iff no stream draws anything (under the page's effective
resources). -/
def page_is_blank (fuel : Nat) (doc : Document) (page_id : ObjectId) : EvalResult Bool :=
  match page_content_streams doc page_id with
  | none => .err
  | some [] => .ok true
  | some streams => blankLoop doc fuel (effective_resources doc page_id) streams

/-! ### `delete_page` (process_pages.rs, lines 162-230) -/

/-- Step 3's per-ancestor body: decrement a cached integer `Count` if one
is present. -/
def decCount (d : Dict) : Dict :=
  match lookupDict d "Count" with
  | some (.integer c) => setDict d "Count" (.integer (c - 1))
  | _ => d

/-- Step 3 of `delete_page`: walk up the `Parent` chain decrementing every
cached `Count`.  The source loop is unbounded (a cyclic chain loops
forever); exhausted fuel returns `none`. -/
def ancestorWalk (doc : Document) : Nat → ObjectId → Option Document
  | 0, _ => none
  | fuel + 1, pid =>
    match doc.getObject pid with
    | some (.dict d) =>
      let d2 := decCount d
      let doc2 := doc.setObject pid (.dict d2)
      match lookupDict d2 "Parent" with
      | some (.reference pp) => ancestorWalk doc2 fuel pp
      | _ => some doc2
    | _ => none

/-- Step 2's retain predicate: keep every `Kids` entry that is not a
reference to the deleted page. -/
def keepKid (page_id : ObjectId) (o : Object) : Bool :=
  match o with
  | .reference id => id ≠ page_id
  | _ => true

/-- Step 4 of `delete_page`: collect the page's content-stream references. -/
def contentIds (pd : Dict) : List ObjectId :=
  match lookupDict pd "Contents" with
  | some (.reference cid) => [cid]
  | some (.array arr) =>
    arr.filterMap (fun o =>
      match o with
      | .reference cid => some cid
      | _ => none)
  | _ => []

/-- `delete_page` from process_pages.rs: read the parent (error if the page
has none), drop the page's reference from the parent's `Kids`, decrement
every ancestor's cached `Count`, then remove the page's content streams and
the page object itself. -/
def delete_page (doc : Document) (page_id : ObjectId) : Option Document :=
  match doc.getDict page_id with
  | none => none
  | some page_dict =>
    match lookupDict page_dict "Parent" with
    | some (.reference parent_id) =>
      match doc.getObject parent_id with
      | some (.dict pdict) =>
        let pdict2 :=
          match lookupDict pdict "Kids" with
          | some (.array kids) => setDict pdict "Kids" (.array (kids.filter (keepKid page_id)))
          | _ => pdict
        let doc2 := doc.setObject parent_id (.dict pdict2)
        match ancestorWalk doc2 (doc2.objects.length + 1) parent_id with
        | none => none
        | some doc3 =>
          match doc3.getDict page_id with
          | none => none
          | some pd =>
            let objs := (contentIds pd).foldl removeIdEntry doc3.objects
            some { doc3 with objects := removeIdEntry objs page_id }
      | _ => none
    | _ => none

/-! ### Page boxes and `apply_inner_margin` (process_pages.rs, 420-636) -/

/-- `as_f64` from process_pages.rs. -/
def as_f64 (o : Object) : Option ℚ :=
  match o with
  | .integer i => some (i : ℚ)
  | .real r => some r
  | _ => none

/-- Outcome of inspecting one dictionary in `effective_mediabox`: a
well-formed box returns, a length-4 array with a non-numeric entry aborts
the whole search (the `as_f64(..)?` early return), anything else falls
through to the parent. -/
inductive BoxStep where
  | found (b : ℚ × ℚ × ℚ × ℚ)
  | bad
  | next

/-- One dictionary's `MediaBox` inspection in `effective_mediabox`. -/
def mediaboxLook (d : Dict) : BoxStep :=
  match lookupDict d "MediaBox" with
  | some (.array [a0, a1, a2, a3]) =>
    match as_f64 a0, as_f64 a1, as_f64 a2, as_f64 a3 with
    | some llx, some lly, some urx, some ury => .found (llx, lly, urx, ury)
    | _, _, _, _ => .bad
  | _ => .next

/-- The `Parent` chain walk of `effective_mediabox` (unbounded in the
source; fuel-bounded here). -/
def mediaboxChain (doc : Document) : Nat → Dict → Option (ℚ × ℚ × ℚ × ℚ)
  | 0, _ => none
  | fuel + 1, cur =>
    match mediaboxLook cur with
    | .found b => some b
    | .bad => none
    | .next =>
      match lookupDict cur "Parent" with
      | some (.reference pid) =>
        match doc.getDict pid with
        | some parent => mediaboxChain doc fuel parent
        | none => none
      | _ => none

/-- `effective_mediabox` from process_pages.rs. -/
def effective_mediabox (doc : Document) (page_id : ObjectId) : Option (ℚ × ℚ × ℚ × ℚ) :=
  match doc.getDict page_id with
  | none => none
  | some d => mediaboxChain doc (doc.objects.length + 1) d

/-- The `try_box` closure of `effective_page_box` (any failure yields
`none`, falling through to the next box). -/
def try_box (page : Dict) (key : String) : Option (ℚ × ℚ × ℚ × ℚ) :=
  match lookupDict page key with
  | some (.array [a0, a1, a2, a3]) =>
    match as_f64 a0, as_f64 a1, as_f64 a2, as_f64 a3 with
    | some llx, some lly, some urx, some ury => some (llx, lly, urx, ury)
    | _, _, _, _ => none
  | _ => none

/-- `effective_page_box` from process_pages.rs: CropBox, else TrimBox, else
the inherited MediaBox. -/
def effective_page_box (doc : Document) (page_id : ObjectId) : Option (ℚ × ℚ × ℚ × ℚ) :=
  match doc.getDict page_id with
  | none => none
  | some page =>
    ((try_box page "CropBox").orElse (fun _ => try_box page "TrimBox")).orElse
      (fun _ => effective_mediabox doc page_id)

/-- `page_ink_bbox` from process_pages.rs: the documented placeholder —
currently just the page box. -/
def page_ink_bbox (doc : Document) (page_id : ObjectId) : Option (ℚ × ℚ × ℚ × ℚ) :=
  effective_page_box doc page_id

/-- Steps 2-6/2-7 of `apply_inner_margin` for one page with old content:
wrap the concatenated content in a Form XObject `CNT` carrying the page's
old resources, give the page a minimal `XObject`-only resource table, and
replace its content with the single transform-and-invoke program
`q / s 0 0 s tx ty cm / CNT Do / Q`. -/
def wrapPage (doc : Document) (pid : ObjectId) (pb : ℚ × ℚ × ℚ × ℚ)
    (fit : ℚ × ℚ × ℚ) (old_streams : List (Dict × List Op)) : Option Document :=
  let concat := old_streams.flatMap (·.2)
  let form_dict0 : Dict :=
    [("Type", .name "XObject"), ("Subtype", .name "Form"), ("FormType", .integer 1),
     ("BBox", .array [.real pb.1, .real pb.2.1, .real pb.2.2.1, .real pb.2.2.2])]
  match doc.getDict pid with
  | none => none
  | some page_ro =>
    let form_dict :=
      match lookupDict page_ro "Resources" with
      | some obj =>
        match obj_as_dict_owned obj doc with
        | some res => setDict form_dict0 "Resources" (.dict res)
        | none => form_dict0
      | none => form_dict0
    let (form_id, doc1) := doc.newObjectId
    let doc2 := { doc1 with objects := setIdEntry doc1.objects form_id (.stream form_dict concat) }
    let new_res : Dict := [("XObject", .dict [("CNT", .reference form_id)])]
    let draw : List Op :=
      [("q", []),
       ("cm", [.real fit.1, .real 0, .real 0, .real fit.1, .real fit.2.1, .real fit.2.2]),
       ("Do", [.name "CNT"]),
       ("Q", [])]
    let (draw_id, doc3) := doc2.newObjectId
    let doc4 := { doc3 with objects := setIdEntry doc3.objects draw_id (.stream [] draw) }
    match doc4.getObject pid with
    | some (.dict pd) =>
      some (doc4.setObject pid
        (.dict (setDict (setDict pd "Resources" (.dict new_res)) "Contents" (.reference draw_id))))
    | _ => none

/-- One iteration of the page loop of `apply_inner_margin` (steps 2-1 to
2-7): resolve the page box (error if absent), pick and shrink the safe
rectangle by 1-based parity, compute the fit, and — unless the page has no
content streams, which skips it untouched — wrap its content. -/
def apply_inner_margin_step (safe_left safe_right : BRect) (i : Nat)
    (doc : Document) (pid : ObjectId) : Option Document :=
  match effective_page_box doc pid with
  | none => none
  | some pb =>
    let safe := select_safe safe_left safe_right i
    let sbox := shrink_safe safe
    let ubox := (page_ink_bbox doc pid).getD pb
    let fit := inner_fit ubox.1 ubox.2.1 ubox.2.2.1 ubox.2.2.2 sbox.1 sbox.2.1 sbox.2.2.1 sbox.2.2.2
    match page_content_streams doc pid with
    | none => none
    | some [] => some doc
    | some old_streams => wrapPage doc pid pb fit old_streams

/-- The page loop of `apply_inner_margin` over `(index, id)` pairs. -/
def applyInnerMarginLoop (safe_left safe_right : BRect) :
    Document → List (Nat × ObjectId) → Option Document
  | doc, [] => some doc
  | doc, (i, pid) :: rest =>
    match apply_inner_margin_step safe_left safe_right i doc pid with
    | none => none
    | some doc2 => applyInnerMarginLoop safe_left safe_right doc2 rest

/-- `apply_inner_margin` from process_pages.rs.  The trailing
`prune_objects` call (lopdf's best-effort orphan sweep, invoked with
`let _ =`) is modelled as the identity: no claim concerns reclamation. -/
def apply_inner_margin (doc : Document) (book : Book) : Option Document :=
  let safe_left := scale72 (book.get_safe_area true)
  let safe_right := scale72 (book.get_safe_area false)
  match applyInnerMarginLoop safe_left safe_right doc doc.getPages.enum with
  | none => none
  | some doc2 => some doc2.renumberObjects

/-! ### Specification devices

`PTree` describes the shape of a well-formed page tree inside a document:
internal `/Pages` nodes with reference `Kids`, `/Page` leaves.
`Represents` ties a shape to a document; the page-order and page-count
claims are stated through it. -/

/-- The shape of a page tree: leaves are pages, nodes are internal
`/Pages` nodes with an ordered child list. -/
inductive PTree where
  | leaf (id : ObjectId)
  | node (id : ObjectId) (kids : List PTree)

/-- The object id at the root of a shape. -/
def PTree.rootId : PTree → ObjectId
  | .leaf i => i
  | .node i _ => i

mutual

/-- The page leaves below a shape, left to right. -/
def PTree.leaves : PTree → List ObjectId
  | .leaf i => [i]
  | .node _ ks => leavesList ks

/-- `PTree.leaves` over a child list. -/
def leavesList : List PTree → List ObjectId
  | [] => []
  | t :: ts => t.leaves ++ leavesList ts

end

mutual

/-- Every object id in a shape. -/
def PTree.ids : PTree → List ObjectId
  | .leaf i => [i]
  | .node i ks => i :: idsList ks

/-- `PTree.ids` over a child list. -/
def idsList : List PTree → List ObjectId
  | [] => []
  | t :: ts => t.ids ++ idsList ts

end

mutual

/-- The ids of the internal nodes of a shape. -/
def PTree.innerIds : PTree → List ObjectId
  | .leaf _ => []
  | .node i ks => i :: innerIdsList ks

/-- `PTree.innerIds` over a child list. -/
def innerIdsList : List PTree → List ObjectId
  | [] => []
  | t :: ts => t.innerIds ++ innerIdsList ts

end

mutual

/-- The iterator fuel that suffices to traverse a shape. -/
def PTree.needFuel : PTree → Nat
  | .leaf _ => 1
  | .node _ ks => needFuelList ks + 1

/-- `PTree.needFuel` over a child list (maximum). -/
def needFuelList : List PTree → Nat
  | [] => 0
  | t :: ts => max t.needFuel (needFuelList ts)

end

mutual

/-- Rename every id in a shape. -/
def PTree.mapIds (σ : ObjectId → ObjectId) : PTree → PTree
  | .leaf i => .leaf (σ i)
  | .node i ks => .node (σ i) (mapIdsList σ ks)

/-- `PTree.mapIds` over a child list. -/
def mapIdsList (σ : ObjectId → ObjectId) : List PTree → List PTree
  | [] => []
  | t :: ts => t.mapIds σ :: mapIdsList σ ts

end

mutual

/-- Remove the leaf (or subtree) rooted at `pid` from every child list. -/
def PTree.removeLeaf (pid : ObjectId) : PTree → PTree
  | .leaf i => .leaf i
  | .node i ks => .node i (removeLeafList pid ks)

/-- `PTree.removeLeaf` over a child list. -/
def removeLeafList (pid : ObjectId) : List PTree → List PTree
  | [] => []
  | t :: ts =>
    if t.rootId = pid then removeLeafList pid ts
    else t.removeLeaf pid :: removeLeafList pid ts

end

mutual

/-- A document realises a shape: every leaf id resolves to a `/Page`
dictionary, every node id to a `/Pages` dictionary whose `Kids` array is
exactly the references to its children's roots. -/
inductive Represents (doc : Document) : PTree → Prop where
  | leaf : ∀ i d, doc.getDict i = some d →
      lookupDict d "Type" = some (.name "Page") →
      Represents doc (.leaf i)
  | node : ∀ i d ks, doc.getDict i = some d →
      lookupDict d "Type" = some (.name "Pages") →
      lookupDict d "Kids" = some (.array (ks.map (fun t => Object.reference t.rootId))) →
      RepKids doc ks →
      Represents doc (.node i ks)

/-- `Represents` over a child list. -/
inductive RepKids (doc : Document) : List PTree → Prop where
  | nil : RepKids doc []
  | cons : ∀ t ts, Represents doc t → RepKids doc ts → RepKids doc (t :: ts)

end

/-- The structural view of a tree node that `Represents` reads: existence
of the dictionary plus its `Type` and `Kids` entries. -/
def nodeView (doc : Document) (i : ObjectId) : Option (Option Object × Option Object) :=
  (doc.getDict i).map (fun d => (lookupDict d "Type", lookupDict d "Kids"))

/-- Well-formedness bundle for the merge and deletion theorems: the
document realises the page-tree shape `t`, the catalog's page-tree root is
`t`'s root, the shape's ids are distinct store keys, and the store's keys
are distinct and bounded by `maxId`. -/
structure WFDoc (doc : Document) (t : PTree) : Prop where
  rep : Represents doc t
  rootEq : pages_root_id doc = some t.rootId
  idsNodup : t.ids.Nodup
  idsSub : ∀ i ∈ t.ids, i ∈ keysOf doc
  keysNodup : (keysOf doc).Nodup
  keysLe : ∀ id ∈ keysOf doc, id.1 ≤ doc.maxId

/-- A drawing mark is reachable from an operation list under given
resources, through the exact resolution steps of `draws_something`: a
drawing operator in the list, a `Do` resolving to an image, or a `Do`
resolving to a Form from whose content (under the Form's own resources if
declared, else the caller's) a mark is reachable. -/
inductive ContainsDraw (doc : Document) : List Op → Option Dict → Prop where
  | drawOp : ∀ op ops res, op ∈ ops → op.1 ∈ drawingOps →
      ContainsDraw doc ops res
  | image : ∀ op ops res, op ∈ ops → op.1 = "Do" →
      doLookup doc res op.2 = .image →
      ContainsDraw doc ops res
  | form : ∀ op ops res ops2 res2, op ∈ ops → op.1 = "Do" →
      doLookup doc res op.2 = .form ops2 res2 →
      ContainsDraw doc ops2 res2 →
      ContainsDraw doc ops res

/-- The ancestor path of a page inside a shape: `LeafPath t pid anc` says
`pid` is a page leaf of `t` and `anc` lists the internal-node ids from the
page's immediate parent up to, and including, `t`'s root. -/
inductive LeafPath : PTree → ObjectId → List ObjectId → Prop where
  | child : ∀ i ks pid, PTree.leaf pid ∈ ks → LeafPath (.node i ks) pid [i]
  | deeper : ∀ i ks k pid anc, k ∈ ks → LeafPath k pid anc →
      LeafPath (.node i ks) pid (anc ++ [i])

/-- The document-level `Parent` chain that step 3 of `delete_page` walks:
starting at `start`, every listed object is a dictionary whose `Parent`
entry references the next one, and the last has no `Parent` reference. -/
inductive ParentChainUp (doc : Document) : ObjectId → List ObjectId → Prop where
  | root : ∀ i d, doc.getDict i = some d →
      (∀ p, lookupDict d "Parent" ≠ some (.reference p)) →
      ParentChainUp doc i [i]
  | step : ∀ i d p rest, doc.getDict i = some d →
      lookupDict d "Parent" = some (.reference p) →
      ParentChainUp doc p rest →
      ParentChainUp doc i (i :: rest)

/-! ### Concrete documents for counterexamples and witnesses -/

/-- A document whose trailer has no `Root`: no resolvable page-tree root. -/
def rootlessDoc : Document :=
  { objects := [], trailer := [], maxId := 0 }

/-- A one-page document whose page carries a `TrimBox` distinct from its
other boxes. -/
def trimBoxDoc : Document :=
  { objects :=
      [((1, 0), .dict
         [("Type", .name "Pages"),
          ("Kids", .array [.reference (2, 0)]),
          ("Count", .integer 1)]),
       ((2, 0), .dict
         [("Type", .name "Page"),
          ("Parent", .reference (1, 0)),
          ("MediaBox", boxArray 10 10),
          ("TrimBox", .array [.real 1, .real 1, .real 2, .real 2])]),
       ((3, 0), .dict
         [("Type", .name "Catalog"),
          ("Pages", .reference (1, 0))])]
    trailer := [("Root", .reference (3, 0))]
    maxId := 3 }

/-- The malformed, cyclic drawing-unit graph: the page's content invokes
Form `F`, whose own content again invokes `F`; the Form declares no
`Resources`, so the caller's table — in which `F` resolves to the Form
itself — stays in effect at every depth. -/
def cyclicFormDoc : Document :=
  { objects :=
      [((1, 0), .dict
         [("Type", .name "Pages"),
          ("Kids", .array [.reference (2, 0)]),
          ("Count", .integer 1)]),
       ((2, 0), .dict
         [("Type", .name "Page"),
          ("Parent", .reference (1, 0)),
          ("Resources", .dict [("XObject", .dict [("F", .reference (4, 0))])]),
          ("Contents", .reference (3, 0))]),
       ((3, 0), .stream [] [("Do", [.name "F"])]),
       ((4, 0), .stream [("Subtype", .name "Form")] [("Do", [.name "F"])]),
       ((5, 0), .dict
         [("Type", .name "Catalog"),
          ("Pages", .reference (1, 0))])]
    trailer := [("Root", .reference (5, 0))]
    maxId := 5 }


end KDPBinder

namespace KDPBinder

/-! ## Theorems -/

/-! ### Basic lemmas about dictionaries and the object store -/

theorem lookup_setDict_same (d : Dict) (k : String) (v : Object) :
    lookupDict (setDict d k v) k = some v := by
  induction d with
  | nil => simp [setDict, lookupDict]
  | cons p rest ih =>
    obtain ⟨pk, pv⟩ := p
    by_cases h : pk = k
    · simp [setDict, h, lookupDict]
    · simpa [setDict, h, lookupDict] using ih

theorem lookup_setDict_ne (d : Dict) (k k' : String) (v : Object) (h : k' ≠ k) :
    lookupDict (setDict d k v) k' = lookupDict d k' := by
  induction d with
  | nil => simp [setDict, lookupDict, Ne.symm h]
  | cons p rest ih =>
    obtain ⟨pk, pv⟩ := p
    by_cases hp : pk = k
    · subst hp
      simp [setDict, lookupDict, Ne.symm h]
    · by_cases hp' : pk = k'
      · simp [setDict, hp, lookupDict, hp', h]
      · simpa [setDict, hp, lookupDict, hp'] using ih

theorem lookupId_set_same (l : List (ObjectId × Object)) (id : ObjectId) (v : Object) :
    lookupId (setIdEntry l id v) id = some v := by
  induction l with
  | nil => simp [setIdEntry, lookupId]
  | cons p rest ih =>
    obtain ⟨pk, pv⟩ := p
    by_cases h : pk = id
    · simp [setIdEntry, h, lookupId]
    · simpa [setIdEntry, h, lookupId] using ih

theorem lookupId_set_ne (l : List (ObjectId × Object)) (id id' : ObjectId) (v : Object)
    (h : id' ≠ id) :
    lookupId (setIdEntry l id v) id' = lookupId l id' := by
  induction l with
  | nil => simp [setIdEntry, lookupId, Ne.symm h]
  | cons p rest ih =>
    obtain ⟨pk, pv⟩ := p
    by_cases hp : pk = id
    · subst hp
      simp [setIdEntry, lookupId, Ne.symm h]
    · by_cases hp' : pk = id'
      · simp [setIdEntry, hp, lookupId, hp', h]
      · simpa [setIdEntry, hp, lookupId, hp'] using ih

theorem getObject_setObject_same (doc : Document) (id : ObjectId) (v : Object) :
    (doc.setObject id v).getObject id = some v :=
  lookupId_set_same _ _ _

theorem getObject_setObject_ne (doc : Document) (id id' : ObjectId) (v : Object)
    (h : id' ≠ id) :
    (doc.setObject id v).getObject id' = doc.getObject id' :=
  lookupId_set_ne _ _ _ _ h

theorem lookupId_remove (l : List (ObjectId × Object)) (id id' : ObjectId) :
    lookupId (removeIdEntry l id) id' = if id' = id then none else lookupId l id' := by
  induction l with
  | nil => simp [removeIdEntry, lookupId]
  | cons p rest ih =>
    obtain ⟨pk, pv⟩ := p
    by_cases hp : pk = id
    · have hstep : removeIdEntry ((pk, pv) :: rest) id = removeIdEntry rest id := by
        simp [removeIdEntry, List.filter_cons, hp]
      rw [hstep, ih]
      by_cases h' : id' = id
      · simp [h']
      · have hpk : pk ≠ id' := by rw [hp]; exact fun hh => h' hh.symm
        simp [lookupId, h', hpk]
    · have hstep : removeIdEntry ((pk, pv) :: rest) id = (pk, pv) :: removeIdEntry rest id := by
        simp [removeIdEntry, List.filter_cons, hp]
      rw [hstep]
      by_cases hpk : pk = id'
      · have h' : ¬ id' = id := fun hh => hp (hpk.trans hh)
        simp [lookupId, hpk, h']
      · simp [lookupId, hpk, ih]

/-! ### C3: the blank-detection recursion is unbounded on cyclic graphs -/

theorem draws_cyclic_outOfFuel :
    ∀ n, draws_something cyclicFormDoc n [("Do", [Object.name "F"])]
      (some [("XObject", .dict [("F", .reference (4, 0))])]) = .outOfFuel := by
  intro n
  induction n with
  | zero => rfl
  | succ n ih =>
    show (match draws_something cyclicFormDoc n [("Do", [Object.name "F"])]
        (some [("XObject", .dict [("F", .reference (4, 0))])]) with
      | .ok true => EvalResult.ok true
      | .ok false => EvalResult.ok false
      | .err => .err
      | .outOfFuel => .outOfFuel) = .outOfFuel
    rw [ih]

/-- **C3.** Refuted as stated: `page_is_blank` does *not* terminate on
every input graph.  On the malformed cyclic graph `cyclicFormDoc` — a page
invoking Form `F` whose content again invokes `F` — the recursion of
`draws_something` exceeds every call-depth bound: no depth bound or
visited set exists in the code, so the real program recurses forever
(stack overflow). -/
theorem page_is_blank_cyclic_diverges :
    ∀ fuel, page_is_blank fuel cyclicFormDoc (2, 0) = .outOfFuel := by
  intro fuel
  show (match draws_something cyclicFormDoc fuel [("Do", [Object.name "F"])]
      (some [("XObject", .dict [("F", .reference (4, 0))])]) with
    | .ok true => EvalResult.ok false
    | .ok false => EvalResult.ok true
    | .err => .err
    | .outOfFuel => .outOfFuel) = .outOfFuel
  rw [draws_cyclic_outOfFuel fuel]

/-! ### C5: which missing page-tree root makes `append_doc` fail -/

/-- **C5 counterexample.** The claim "append_doc returns an error whenever
either input lacks a resolvable page-tree root" is false for the
*addition*: appending the rootless document to a one-page document
succeeds (the addition just contributes zero pages). -/
theorem append_doc_rootless_addition_succeeds :
    pages_root_id rootlessDoc = none ∧
    (append_doc (blank_page_doc 612 612) rootlessDoc).isSome = true :=
  ⟨rfl, rfl⟩

/-- **C5 (amended).** `append_doc` returns an error whenever the *base*
lacks a resolvable page-tree root; an addition without one is not an
error. -/
theorem append_doc_base_needs_root (base add : Document)
    (h : pages_root_id base = none) : append_doc base add = none := by
  rw [append_doc, h]

/-- Witness for C5 (amended) at the rootless base. -/
theorem append_doc_base_needs_root_wit :
    pages_root_id rootlessDoc = none ∧
    append_doc rootlessDoc (blank_page_doc 612 612) = none :=
  ⟨rfl, append_doc_base_needs_root rootlessDoc (blank_page_doc 612 612) rfl⟩

/-! ### C2: blank detection is conservative and complete -/

/-- If the tail of an operation list can never evaluate to `ok false`,
neither can the whole list: the head either answers `ok true`/`err`/
`outOfFuel` outright or defers to the tail. -/
theorem draws_tail_ne_false (doc : Document) (y : Op) (as : List Op) (res : Option Dict)
    (ih : ∀ fuel, draws_something doc fuel as res ≠ .ok false) :
    ∀ fuel, draws_something doc fuel (y :: as) res ≠ .ok false := by
  intro fuel
  cases fuel with
  | zero => simp [draws_something]
  | succ n =>
    show drawsOpsLoop doc (draws_something doc n) (y :: as) res ≠ .ok false
    rw [drawsOpsLoop]
    by_cases hy1 : y.1 ∈ drawingOps
    · rw [if_pos hy1]
      simp
    · rw [if_neg hy1]
      by_cases hy2 : y.1 = "Do"
      · rw [if_pos hy2]
        rcases hdl : doLookup doc res y.2 with _ | _ | _ | ⟨ops2, res2⟩
        · simp only [hdl]
          exact ih (n + 1)
        · simp [hdl]
        · simp [hdl]
        · simp only [hdl]
          rcases hr : draws_something doc n ops2 res2 with b | _ | _
          · cases b with
            | true => simp [hr]
            | false =>
              simp only [hr]
              exact ih (n + 1)
          · simp [hr]
          · simp [hr]
      · rw [if_neg hy2]
        exact ih (n + 1)

/-- A reachable drawing mark can never make `draws_something` answer
`ok false`, at any fuel: it answers `ok true`, or reports an error or fuel
exhaustion first. -/
theorem draws_ne_false (doc : Document) (ops : List Op) (res : Option Dict)
    (h : ContainsDraw doc ops res) :
    ∀ fuel, draws_something doc fuel ops res ≠ .ok false := by
  induction h with
  | drawOp op ops res hmem hdraw =>
    induction hmem with
    | head as =>
      intro fuel
      cases fuel with
      | zero => simp [draws_something]
      | succ n =>
        show drawsOpsLoop doc (draws_something doc n) (op :: as) res ≠ .ok false
        rw [drawsOpsLoop, if_pos hdraw]
        simp
    | tail y hmem2 ih2 =>
      exact draws_tail_ne_false doc y _ res ih2
  | image op ops res hmem hdo hlook =>
    induction hmem with
    | head as =>
      intro fuel
      cases fuel with
      | zero => simp [draws_something]
      | succ n =>
        show drawsOpsLoop doc (draws_something doc n) (op :: as) res ≠ .ok false
        have hnd : op.1 ∉ drawingOps := by
          rw [hdo]
          decide
        rw [drawsOpsLoop, if_neg hnd, if_pos hdo]
        simp [hlook]
    | tail y hmem2 ih2 =>
      exact draws_tail_ne_false doc y _ res ih2
  | form op ops res ops2 res2 hmem hdo hlook hcd ihform =>
    induction hmem with
    | head as =>
      intro fuel
      cases fuel with
      | zero => simp [draws_something]
      | succ n =>
        show drawsOpsLoop doc (draws_something doc n) (op :: as) res ≠ .ok false
        have hnd : op.1 ∉ drawingOps := by
          rw [hdo]
          decide
        rw [drawsOpsLoop, if_neg hnd, if_pos hdo]
        simp only [hlook]
        rcases hr : draws_something doc n ops2 res2 with b | _ | _
        · cases b with
          | true => simp
          | false => exact absurd hr (ihform n)
        · simp
        · simp
    | tail y hmem2 ih2 =>
      exact draws_tail_ne_false doc y _ res ih2

/-- An operation list holding only non-drawing, non-invoking operators
evaluates to `ok false` at any positive fuel. -/
theorem draws_all_safe (doc : Document) (res : Option Dict) (ops : List Op)
    (h : ∀ op ∈ ops, op.1 ∉ drawingOps ∧ op.1 ≠ "Do") (n : Nat) :
    draws_something doc (n + 1) ops res = .ok false := by
  induction ops with
  | nil => rfl
  | cons op rest ih =>
    obtain ⟨h1, h2⟩ := h op (List.mem_cons_self _ _)
    show drawsOpsLoop doc (draws_something doc n) (op :: rest) res = .ok false
    rw [drawsOpsLoop, if_neg h1, if_neg h2]
    exact ih fun o ho => h o (List.mem_cons_of_mem _ ho)

/-- If some stream in the list holds a reachable drawing mark, the stream
loop can only answer `ok false` ("non-blank"), never `ok true`. -/
theorem blankLoop_complete (doc : Document) (fuel : Nat) (res : Option Dict) :
    ∀ streams : List (Dict × List Op),
      (∃ s ∈ streams, ContainsDraw doc s.2 res) →
      ∀ b, blankLoop doc fuel res streams = .ok b → b = false := by
  intro streams
  induction streams with
  | nil =>
    rintro ⟨s, hs, _⟩
    exact absurd hs (List.not_mem_nil s)
  | cons s rest ih =>
    rintro ⟨t, ht, hcd⟩ b hb
    rw [blankLoop] at hb
    rcases hres : draws_something doc fuel s.2 res with b' | _ | _
    · rw [hres] at hb
      cases b' with
      | true =>
        cases hb
        rfl
      | false =>
        rcases List.mem_cons.mp ht with hcase | hcase
        · rw [hcase] at hcd
          exact absurd hres (draws_ne_false doc s.2 res hcd fuel)
        · exact ih ⟨t, hcase, hcd⟩ b hb
    · rw [hres] at hb
      cases hb
    · rw [hres] at hb
      cases hb

/-- **C2.** Blank classification is conservative and complete: a page
with zero content streams is blank; a page whose streams hold only
non-drawing operators is blank; and whenever evaluation completes, a
reachable text/path/shading/inline-image operator or invoked image
XObject — at any Form nesting depth, under the Form's own resources if
declared, else the caller's (`ContainsDraw`) — forces the answer
"non-blank". -/
theorem page_is_blank_conservative_complete (doc : Document) (page_id : ObjectId) :
    (page_content_streams doc page_id = some [] →
      ∀ fuel, page_is_blank fuel doc page_id = .ok true) ∧
    (∀ streams, page_content_streams doc page_id = some streams →
      (∀ s ∈ streams, ∀ op ∈ s.2, op.1 ∉ drawingOps ∧ op.1 ≠ "Do") →
      ∀ fuel, 1 ≤ fuel → page_is_blank fuel doc page_id = .ok true) ∧
    (∀ streams, page_content_streams doc page_id = some streams →
      (∃ s ∈ streams, ContainsDraw doc s.2 (effective_resources doc page_id)) →
      ∀ fuel b, page_is_blank fuel doc page_id = .ok b → b = false) := by
  refine ⟨fun h fuel => by simp [page_is_blank, h], ?_, ?_⟩
  · intro streams h hsafe fuel hfuel
    obtain ⟨n, rfl⟩ : ∃ n, fuel = n + 1 := ⟨fuel - 1, by omega⟩
    rw [page_is_blank, h]
    cases streams with
    | nil => rfl
    | cons s rest =>
      have hloop : ∀ l : List (Dict × List Op),
          (∀ s ∈ l, ∀ op ∈ s.2, op.1 ∉ drawingOps ∧ op.1 ≠ "Do") →
          blankLoop doc (n + 1) (effective_resources doc page_id) l = .ok true := by
        intro l hl
        induction l with
        | nil => rfl
        | cons u urest ihu =>
          rw [blankLoop, draws_all_safe doc _ u.2 (hl u (List.mem_cons_self _ _)) n]
          exact ihu fun v hv => hl v (List.mem_cons_of_mem _ hv)
      exact hloop (s :: rest) hsafe
  · intro streams h hex fuel b hb
    cases streams with
    | nil =>
      obtain ⟨s, hs, _⟩ := hex
      exact absurd hs (List.not_mem_nil s)
    | cons s rest =>
      rw [page_is_blank, h] at hb
      exact blankLoop_complete doc fuel _ (s :: rest) hex b hb

/-- Witness for C2: the zero-streams direction at `trimBoxDoc`'s page (no
`Contents` entry) and the safe-operator direction at `blank_page_doc`'s
page (one stream with no operators). -/
theorem page_is_blank_conservative_complete_wit :
    (page_content_streams trimBoxDoc (2, 0) = some [] ∧
      page_is_blank 0 trimBoxDoc (2, 0) = .ok true) ∧
    page_is_blank 3 (blank_page_doc 612 612) (2, 0) = .ok true := by
  refine ⟨⟨rfl, (page_is_blank_conservative_complete trimBoxDoc (2, 0)).1 rfl 0⟩, ?_⟩
  refine (page_is_blank_conservative_complete (blank_page_doc 612 612) (2, 0)).2.1
    [([], [])] rfl ?_ 3 (by norm_num)
  intro s hs op hop
  rw [List.mem_singleton.mp hs] at hop
  exact absurd hop (List.not_mem_nil op)

theorem enforceLoop_spec (box : Object) :
    ∀ (l : List ObjectId) (doc : Document), l.Nodup →
      (∀ pid ∈ l, ∃ d, doc.getObject pid = some (.dict d)) →
      ∃ doc', enforceLoop box doc l = some doc' ∧
        (∀ pid ∈ l, ∃ d, doc.getObject pid = some (.dict d) ∧
          doc'.getObject pid = some (.dict (setPageBoxes d box))) ∧
        (∀ id, id ∉ l → doc'.getObject id = doc.getObject id) := by
  intro l
  induction l with
  | nil =>
    intro doc _ _
    exact ⟨doc, rfl, by simp, fun _ _ => rfl⟩
  | cons pid rest ih =>
    intro doc hnd hdict
    obtain ⟨d, hd⟩ := hdict pid (List.mem_cons_self _ _)
    obtain ⟨hnotin, hndrest⟩ := List.nodup_cons.mp hnd
    have hrest : ∀ p ∈ rest, ∃ d2,
        (doc.setObject pid (.dict (setPageBoxes d box))).getObject p = some (.dict d2) := by
      intro p hp
      have hne : p ≠ pid := fun hh => hnotin (hh ▸ hp)
      rw [getObject_setObject_ne _ _ _ _ hne]
      exact hdict p (List.mem_cons_of_mem _ hp)
    obtain ⟨doc', hloop, hmem, hos⟩ :=
      ih (doc.setObject pid (.dict (setPageBoxes d box))) hndrest hrest
    refine ⟨doc', ?_, ?_, ?_⟩
    · simpa [enforceLoop, hd] using hloop
    · intro p hp
      rcases List.mem_cons.mp hp with hcase | hcase
      · subst hcase
        refine ⟨d, hd, ?_⟩
        rw [hos p hnotin]
        exact getObject_setObject_same _ _ _
      · obtain ⟨d2, hd2, hd2'⟩ := hmem p hcase
        have hne : p ≠ pid := fun hh => hnotin (hh ▸ hcase)
        rw [getObject_setObject_ne _ _ _ _ hne] at hd2
        exact ⟨d2, hd2, hd2'⟩
    · intro id hid
      have h1 : id ∉ rest := fun hh => hid (List.mem_cons_of_mem _ hh)
      have h2 : id ≠ pid := fun hh => hid (hh ▸ List.mem_cons_self _ _)
      rw [hos id h1, getObject_setObject_ne _ _ _ _ h2]

/-- **C9 counterexample.** The claim says `enforce_page_size` overwrites
"any trim box" with the caller rectangle; in fact a page's `TrimBox` is
left exactly as it was (only `MediaBox` and `CropBox` are set). -/
theorem enforce_page_size_keeps_trimbox :
    ∃ doc', enforce_page_size trimBoxDoc 612 612 = some doc' ∧
      ∃ d, doc'.getDict (2, 0) = some d ∧
        lookupDict d "TrimBox" = some (.array [.real 1, .real 1, .real 2, .real 2]) ∧
        lookupDict d "TrimBox" ≠ some (boxArray 612 612) := by
  refine ⟨_, rfl, _, rfl, rfl, ?_⟩
  have hne : (some (Object.array [.real 1, .real 1, .real 2, .real 2]) : Option Object)
      ≠ some (boxArray 612 612) := by
    norm_num [boxArray]
  exact hne

/-- **C9 (amended).** `enforce_page_size` overwrites, on every page leaf,
the page bounding box (`MediaBox`) and the visible box (`CropBox`) with the
caller-supplied rectangle; a `TrimBox`, if present, is left unchanged. -/
theorem enforce_page_size_overwrites_boxes (doc : Document) (w h : ℚ)
    (hnd : doc.getPages.Nodup)
    (hdict : ∀ pid ∈ doc.getPages, ∃ d, doc.getObject pid = some (.dict d)) :
    ∃ doc', enforce_page_size doc w h = some doc' ∧
      ∀ pid ∈ doc.getPages, ∃ d,
        doc.getObject pid = some (.dict d) ∧
        doc'.getObject pid = some (.dict (setPageBoxes d (boxArray w h))) ∧
        lookupDict (setPageBoxes d (boxArray w h)) "MediaBox" = some (boxArray w h) ∧
        lookupDict (setPageBoxes d (boxArray w h)) "CropBox" = some (boxArray w h) ∧
        lookupDict (setPageBoxes d (boxArray w h)) "TrimBox" = lookupDict d "TrimBox" := by
  obtain ⟨doc', hloop, hmem, _⟩ := enforceLoop_spec (boxArray w h) doc.getPages doc hnd hdict
  refine ⟨doc', hloop, ?_⟩
  intro pid hp
  obtain ⟨d, hd, hd'⟩ := hmem pid hp
  refine ⟨d, hd, hd', ?_, ?_, ?_⟩
  · rw [setPageBoxes, lookup_setDict_ne _ _ _ _ (by decide)]
    exact lookup_setDict_same _ _ _
  · rw [setPageBoxes]
    exact lookup_setDict_same _ _ _
  · rw [setPageBoxes, lookup_setDict_ne _ _ _ _ (by decide),
      lookup_setDict_ne _ _ _ _ (by decide)]

/-- Witness for C9 (amended) at the one-page `trimBoxDoc`. -/
theorem enforce_page_size_overwrites_boxes_wit :
    (trimBoxDoc.getPages.Nodup ∧
      ∀ pid ∈ trimBoxDoc.getPages, ∃ d, trimBoxDoc.getObject pid = some (.dict d)) ∧
    (∃ doc', enforce_page_size trimBoxDoc 612 792 = some doc' ∧
      ∀ pid ∈ trimBoxDoc.getPages, ∃ d,
        trimBoxDoc.getObject pid = some (.dict d) ∧
        doc'.getObject pid = some (.dict (setPageBoxes d (boxArray 612 792))) ∧
        lookupDict (setPageBoxes d (boxArray 612 792)) "MediaBox" = some (boxArray 612 792) ∧
        lookupDict (setPageBoxes d (boxArray 612 792)) "CropBox" = some (boxArray 612 792) ∧
        lookupDict (setPageBoxes d (boxArray 612 792)) "TrimBox" = lookupDict d "TrimBox") :=
  have hnd : trimBoxDoc.getPages.Nodup := by
    show List.Nodup [(2, 0)]
    simp
  have hdict : ∀ pid ∈ trimBoxDoc.getPages, ∃ d, trimBoxDoc.getObject pid = some (.dict d) := by
    intro pid hp
    rw [show trimBoxDoc.getPages = [((2 : Nat), (0 : Nat))] from rfl] at hp
    have hp2 := List.mem_singleton.mp hp
    subst hp2
    exact ⟨_, rfl⟩
  ⟨⟨hnd, hdict⟩, enforce_page_size_overwrites_boxes trimBoxDoc 612 792 hnd hdict⟩

/-- **C6.** `fit_with_anchor` is scale-correct: for every ink box U and safe
box S with positive extents and no scale cap, Contain mode computes
`scale = min (S.w/U.w) (S.h/U.h)` and Cover computes the max; and with
Center/Center anchors the image of U under the returned transform has its
center at S's center. -/
theorem fit_with_anchor_scale_correct
    (ux0 uy0 ux1 uy1 sx0 sy0 sx1 sy1 : ℚ)
    (hu : 0 < ux1 - ux0) (hv : 0 < uy1 - uy0)
    (hs : 0 < sx1 - sx0) (ht : 0 < sy1 - sy0) :
    (fit_with_anchor ux0 uy0 ux1 uy1 sx0 sy0 sx1 sy1
        .center .center .contain none).1
      = min ((sx1 - sx0) / (ux1 - ux0)) ((sy1 - sy0) / (uy1 - uy0)) ∧
    (fit_with_anchor ux0 uy0 ux1 uy1 sx0 sy0 sx1 sy1
        .center .center .cover none).1
      = max ((sx1 - sx0) / (ux1 - ux0)) ((sy1 - sy0) / (uy1 - uy0)) ∧
    (∀ mode : FitMode,
      let f := fit_with_anchor ux0 uy0 ux1 uy1 sx0 sy0 sx1 sy1
        .center .center mode none
      f.1 * ((ux0 + ux1) / 2) + f.2.1 = (sx0 + sx1) / 2 ∧
      f.1 * ((uy0 + uy1) / 2) + f.2.2 = (sy0 + sy1) / 2) := by
  refine ⟨rfl, rfl, fun mode => ?_⟩
  cases mode <;>
    constructor <;>
    simp only [fit_with_anchor, anchor_value] <;>
    ring

/-- Witness for C6 at U = [0,0]x[2,1], S = [4,6]x[10,9]. -/
theorem fit_with_anchor_scale_correct_wit :
    ((0:ℚ) < 2 - 0 ∧ (0:ℚ) < 1 - 0 ∧ (0:ℚ) < 10 - 4 ∧ (0:ℚ) < 9 - 6) ∧
    ((fit_with_anchor 0 0 2 1 4 6 10 9 .center .center .contain none).1
        = min (((10:ℚ) - 4) / (2 - 0)) (((9:ℚ) - 6) / (1 - 0)) ∧
      (fit_with_anchor 0 0 2 1 4 6 10 9 .center .center .cover none).1
        = max (((10:ℚ) - 4) / (2 - 0)) (((9:ℚ) - 6) / (1 - 0)) ∧
      (∀ mode : FitMode,
        let f := fit_with_anchor 0 0 2 1 4 6 10 9 .center .center mode none
        f.1 * (((0:ℚ) + 2) / 2) + f.2.1 = ((4:ℚ) + 10) / 2 ∧
        f.1 * (((0:ℚ) + 1) / 2) + f.2.2 = ((6:ℚ) + 9) / 2)) :=
  ⟨⟨by norm_num, by norm_num, by norm_num, by norm_num⟩,
    fit_with_anchor_scale_correct 0 0 2 1 4 6 10 9
      (by norm_num) (by norm_num) (by norm_num) (by norm_num)⟩

/-- **C7.** Sparse-content pages never upscale: when the ink-area /
safe-area ratio is below 0.12 the page is anchored bottom-center
(Center x Start) with a 1.0 scale cap and the computed scale is at most 1;
otherwise it is anchored dead-center (Center x Center) with no cap, the
scale being exactly the uncapped contain fit. -/
theorem inner_margin_sparse_no_upscale (ux0 uy0 ux1 uy1 sx0 sy0 sx1 sy1 : ℚ) :
    (inner_area_ratio ux0 uy0 ux1 uy1 sx0 sy0 sx1 sy1 < 0.12 →
      inner_fit_params (inner_area_ratio ux0 uy0 ux1 uy1 sx0 sy0 sx1 sy1)
        = (.center, .start, some 1, .contain) ∧
      (inner_fit ux0 uy0 ux1 uy1 sx0 sy0 sx1 sy1).1 ≤ 1) ∧
    (¬ inner_area_ratio ux0 uy0 ux1 uy1 sx0 sy0 sx1 sy1 < 0.12 →
      inner_fit_params (inner_area_ratio ux0 uy0 ux1 uy1 sx0 sy0 sx1 sy1)
        = (.center, .center, none, .contain) ∧
      (inner_fit ux0 uy0 ux1 uy1 sx0 sy0 sx1 sy1).1
        = min ((sx1 - sx0) / (ux1 - ux0)) ((sy1 - sy0) / (uy1 - uy0))) := by
  constructor
  · intro h
    refine ⟨by rw [inner_fit_params, if_pos h], ?_⟩
    simp only [inner_fit, inner_fit_params, if_pos h, fit_with_anchor]
    exact min_le_right _ _
  · intro h
    refine ⟨by rw [inner_fit_params, if_neg h], ?_⟩
    simp only [inner_fit, inner_fit_params, if_neg h, fit_with_anchor]

/-- Witness for C7: the sparse branch at U = [0,0]x[1,1], S = [0,0]x[10,10]
(ratio 0.01) and the non-sparse branch at U = [0,0]x[5,5], S = [0,0]x[6,6]
(ratio 25/36). -/
theorem inner_margin_sparse_no_upscale_wit :
    (inner_area_ratio 0 0 1 1 0 0 10 10 < 0.12 ∧
      (inner_fit_params (inner_area_ratio 0 0 1 1 0 0 10 10)
        = (.center, .start, some 1, .contain) ∧
       (inner_fit 0 0 1 1 0 0 10 10).1 ≤ 1)) ∧
    ((¬ inner_area_ratio 0 0 5 5 0 0 6 6 < 0.12) ∧
      (inner_fit_params (inner_area_ratio 0 0 5 5 0 0 6 6)
        = (.center, .center, none, .contain) ∧
       (inner_fit 0 0 5 5 0 0 6 6).1
        = min (((6:ℚ) - 0) / (5 - 0)) (((6:ℚ) - 0) / (5 - 0)))) :=
  ⟨⟨by norm_num [inner_area_ratio],
    (inner_margin_sparse_no_upscale 0 0 1 1 0 0 10 10).1
      (by norm_num [inner_area_ratio])⟩,
   ⟨by norm_num [inner_area_ratio],
    (inner_margin_sparse_no_upscale 0 0 5 5 0 0 6 6).2
      (by norm_num [inner_area_ratio])⟩⟩

/-- **C8.** `apply_inner_margin` selects the safe rectangle by 1-based page
position: an odd position gets the recto/right rectangle
(`get_safe_area false`), an even one the verso/left rectangle
(`get_safe_area true`), both converted in→pt; and the chosen rectangle is
shrunk inward by exactly 0.001 on every edge before fitting. -/
theorem inner_margin_safe_rect_selection (book : Book) (i : Nat) (r : BRect) :
    (Odd (i + 1) →
      select_safe (scale72 (book.get_safe_area true))
          (scale72 (book.get_safe_area false)) i
        = scale72 (book.get_safe_area false)) ∧
    (Even (i + 1) →
      select_safe (scale72 (book.get_safe_area true))
          (scale72 (book.get_safe_area false)) i
        = scale72 (book.get_safe_area true)) ∧
    ((shrink_safe r).1 - r.x = 0.001 ∧
     (shrink_safe r).2.1 - r.y = 0.001 ∧
     (r.x + r.width) - (shrink_safe r).2.2.1 = 0.001 ∧
     (r.y + r.height) - (shrink_safe r).2.2.2 = 0.001) := by
  refine ⟨fun h => ?_, fun h => ?_, ?_, ?_, ?_, ?_⟩
  · rw [select_safe, if_pos (Nat.odd_iff.mp h)]
  · have h2 := Nat.even_iff.mp h
    rw [select_safe, if_neg (by omega)]
  · simp only [shrink_safe]; ring
  · simp only [shrink_safe]; ring
  · simp only [shrink_safe]; ring
  · simp only [shrink_safe]; ring

/-- Witness for C8 at a concrete book, positions 1 (odd) and 2 (even), and
a concrete rectangle. -/
theorem inner_margin_safe_rect_selection_wit :
    (Odd (0 + 1) ∧
      select_safe
          (scale72 ((Book.mk ⟨8.5, 8.5, 120⟩ ⟨0.125, 0.125, 0.0025, 0.375, 0.25⟩).get_safe_area true))
          (scale72 ((Book.mk ⟨8.5, 8.5, 120⟩ ⟨0.125, 0.125, 0.0025, 0.375, 0.25⟩).get_safe_area false)) 0
        = scale72 ((Book.mk ⟨8.5, 8.5, 120⟩ ⟨0.125, 0.125, 0.0025, 0.375, 0.25⟩).get_safe_area false)) ∧
    (Even (1 + 1) ∧
      select_safe
          (scale72 ((Book.mk ⟨8.5, 8.5, 120⟩ ⟨0.125, 0.125, 0.0025, 0.375, 0.25⟩).get_safe_area true))
          (scale72 ((Book.mk ⟨8.5, 8.5, 120⟩ ⟨0.125, 0.125, 0.0025, 0.375, 0.25⟩).get_safe_area false)) 1
        = scale72 ((Book.mk ⟨8.5, 8.5, 120⟩ ⟨0.125, 0.125, 0.0025, 0.375, 0.25⟩).get_safe_area true)) ∧
    ((shrink_safe ⟨3, 4, 10, 20⟩).1 - (3 : ℚ) = 0.001 ∧
     (shrink_safe ⟨3, 4, 10, 20⟩).2.1 - (4 : ℚ) = 0.001 ∧
     ((3 : ℚ) + 10) - (shrink_safe ⟨3, 4, 10, 20⟩).2.2.1 = 0.001 ∧
     ((4 : ℚ) + 20) - (shrink_safe ⟨3, 4, 10, 20⟩).2.2.2 = 0.001) :=
  ⟨⟨by decide,
    (inner_margin_safe_rect_selection
      (Book.mk ⟨8.5, 8.5, 120⟩ ⟨0.125, 0.125, 0.0025, 0.375, 0.25⟩) 0 ⟨3, 4, 10, 20⟩).1
      (by decide)⟩,
   ⟨by decide,
    (inner_margin_safe_rect_selection
      (Book.mk ⟨8.5, 8.5, 120⟩ ⟨0.125, 0.125, 0.0025, 0.375, 0.25⟩) 1 ⟨3, 4, 10, 20⟩).2.1
      (by decide)⟩,
   (inner_margin_safe_rect_selection
      (Book.mk ⟨8.5, 8.5, 120⟩ ⟨0.125, 0.125, 0.0025, 0.375, 0.25⟩) 1 ⟨3, 4, 10, 20⟩).2.2⟩

/-! ### Page-tree machinery: list-level equations -/

theorem leavesList_eq (ks : List PTree) : leavesList ks = ks.flatMap PTree.leaves := by
  induction ks with
  | nil => rfl
  | cons t ts ih => simp [leavesList, ih]

theorem idsList_eq (ks : List PTree) : idsList ks = ks.flatMap PTree.ids := by
  induction ks with
  | nil => rfl
  | cons t ts ih => simp [idsList, ih]

theorem innerIdsList_eq (ks : List PTree) : innerIdsList ks = ks.flatMap PTree.innerIds := by
  induction ks with
  | nil => rfl
  | cons t ts ih => simp [innerIdsList, ih]

theorem mapIdsList_eq (σ : ObjectId → ObjectId) (ks : List PTree) :
    mapIdsList σ ks = ks.map (PTree.mapIds σ) := by
  induction ks with
  | nil => rfl
  | cons t ts ih => simp [mapIdsList, ih]

theorem rootId_mapIds (σ : ObjectId → ObjectId) (t : PTree) :
    (t.mapIds σ).rootId = σ t.rootId := by
  match t with
  | .leaf i => rfl
  | .node i ks => rfl

theorem repKids_mem (doc : Document) : ∀ ks, RepKids doc ks → ∀ t ∈ ks, Represents doc t := by
  intro ks
  induction ks with
  | nil =>
    intro _ t ht
    exact absurd ht (List.not_mem_nil t)
  | cons u us ih =>
    intro h t ht
    cases h with
    | cons _ _ hu hus =>
      rcases List.mem_cons.mp ht with rfl | hmem
      · exact hu
      · exact ih hus t hmem

theorem repKids_of_mem (doc : Document) : ∀ ks, (∀ t ∈ ks, Represents doc t) → RepKids doc ks := by
  intro ks
  induction ks with
  | nil => intro _; exact RepKids.nil
  | cons u us ih =>
    intro h
    exact RepKids.cons u us (h u (List.mem_cons_self _ _))
      (ih fun t ht => h t (List.mem_cons_of_mem _ ht))

theorem needFuelList_mem (ks : List PTree) (k : PTree) (hk : k ∈ ks) :
    k.needFuel ≤ needFuelList ks := by
  induction ks with
  | nil => exact absurd hk (List.not_mem_nil k)
  | cons t ts ih =>
    rw [needFuelList]
    rcases List.mem_cons.mp hk with rfl | hmem
    · exact le_max_left _ _
    · exact le_trans (ih hmem) (le_max_right _ _)

/-! ### Page-tree machinery: the iterator computes the leaves -/

theorem pageIterFuel_succ (doc : Document) (m : Nat) (id : ObjectId) :
    pageIterFuel doc (m + 1) id =
      match doc.getDict id with
      | none => []
      | some d =>
        match lookupDict d "Type" with
        | some (.name ty) =>
          if ty = "Pages" then
            (kidsList d).flatMap (fun o =>
              match o with
              | .reference kid => pageIterFuel doc m kid
              | _ => [])
          else if ty = "Page" then [id]
          else []
        | _ => [] := rfl

mutual

theorem pageIter_correct (doc : Document) (t : PTree) (hrep : Represents doc t) :
    ∀ fuel, t.needFuel ≤ fuel → pageIterFuel doc fuel t.rootId = t.leaves := by
  match t, hrep with
  | .leaf i, .leaf _ d hd hty =>
    intro fuel hfuel
    obtain ⟨m, rfl⟩ : ∃ m, fuel = m + 1 :=
      ⟨fuel - 1, by
        have h1 : 1 ≤ fuel := hfuel
        omega⟩
    show pageIterFuel doc (m + 1) i = [i]
    rw [pageIterFuel_succ]
    simp only [hd, hty]
    simp
  | .node i ks, .node _ d _ hd hty hkids hrk =>
    intro fuel hfuel
    have hf1 : needFuelList ks + 1 ≤ fuel := hfuel
    obtain ⟨m, rfl⟩ : ∃ m, fuel = m + 1 := ⟨fuel - 1, by omega⟩
    show pageIterFuel doc (m + 1) i = leavesList ks
    rw [pageIterFuel_succ]
    simp only [hd, hty]
    rw [if_pos trivial]
    rw [show kidsList d = ks.map (fun t => Object.reference t.rootId) from by
      rw [kidsList, hkids]]
    exact pageIterKids_correct doc ks hrk m (by omega)

theorem pageIterKids_correct (doc : Document) (ks : List PTree) (hrk : RepKids doc ks) :
    ∀ fuel, needFuelList ks ≤ fuel →
      (ks.map (fun t => Object.reference t.rootId)).flatMap
        (fun o => match o with
          | Object.reference kid => pageIterFuel doc fuel kid
          | _ => []) = leavesList ks := by
  match ks, hrk with
  | [], .nil =>
    intro fuel _
    rfl
  | k :: ks2, .cons _ _ hk hks2 =>
    intro fuel hfuel
    have h1 : k.needFuel ≤ fuel := le_trans (le_max_left _ _) hfuel
    have h2 : needFuelList ks2 ≤ fuel := le_trans (le_max_right _ _) hfuel
    show pageIterFuel doc fuel k.rootId ++
        (ks2.map (fun t => Object.reference t.rootId)).flatMap
          (fun o => match o with
            | Object.reference kid => pageIterFuel doc fuel kid
            | _ => []) = k.leaves ++ leavesList ks2
    rw [pageIter_correct doc k hk fuel h1, pageIterKids_correct doc ks2 hks2 fuel h2]

end

theorem getPages_of_represents (doc : Document) (t : PTree) (hrep : Represents doc t)
    (hroot : pages_root_id doc = some t.rootId)
    (hfuel : t.needFuel ≤ doc.objects.length + 1) :
    doc.getPages = t.leaves := by
  rw [Document.getPages, hroot]
  show pageIterFuel doc (doc.objects.length + 1) t.rootId = t.leaves
  exact pageIter_correct doc t hrep _ hfuel

/-! ### Fuel bounds, sublists, renaming of shapes -/

mutual

theorem needFuel_le_ids (t : PTree) : t.needFuel ≤ t.ids.length := by
  match t with
  | .leaf i => exact le_refl 1
  | .node i ks =>
    show needFuelList ks + 1 ≤ (idsList ks).length + 1
    exact Nat.add_le_add_right (needFuelList_le_ids ks) 1

theorem needFuelList_le_ids (ks : List PTree) : needFuelList ks ≤ (idsList ks).length := by
  match ks with
  | [] => exact le_refl 0
  | k :: ks2 =>
    show max k.needFuel (needFuelList ks2) ≤ (k.ids ++ idsList ks2).length
    rw [List.length_append]
    exact max_le (le_trans (needFuel_le_ids k) (Nat.le_add_right _ _))
      (le_trans (needFuelList_le_ids ks2) (Nat.le_add_left _ _))

end

mutual

theorem leaves_sublist_ids (t : PTree) : t.leaves.Sublist t.ids := by
  match t with
  | .leaf i => exact List.Sublist.refl [i]
  | .node i ks =>
    show (leavesList ks).Sublist (i :: idsList ks)
    exact (leavesList_sublist_ids ks).cons i

theorem leavesList_sublist_ids (ks : List PTree) : (leavesList ks).Sublist (idsList ks) := by
  match ks with
  | [] => exact List.Sublist.refl []
  | k :: ks2 =>
    show (k.leaves ++ leavesList ks2).Sublist (k.ids ++ idsList ks2)
    exact List.Sublist.append (leaves_sublist_ids k) (leavesList_sublist_ids ks2)

end

mutual

theorem leaves_mapIds (σ : ObjectId → ObjectId) (t : PTree) :
    (t.mapIds σ).leaves = t.leaves.map σ := by
  match t with
  | .leaf i => rfl
  | .node i ks =>
    show leavesList (mapIdsList σ ks) = (leavesList ks).map σ
    exact leavesList_mapIds σ ks

theorem leavesList_mapIds (σ : ObjectId → ObjectId) (ks : List PTree) :
    leavesList (mapIdsList σ ks) = (leavesList ks).map σ := by
  match ks with
  | [] => rfl
  | k :: ks2 =>
    show (k.mapIds σ).leaves ++ leavesList (mapIdsList σ ks2)
      = (k.leaves ++ leavesList ks2).map σ
    rw [leaves_mapIds σ k, leavesList_mapIds σ ks2, List.map_append]

end

mutual

theorem ids_mapIds (σ : ObjectId → ObjectId) (t : PTree) :
    (t.mapIds σ).ids = t.ids.map σ := by
  match t with
  | .leaf i => rfl
  | .node i ks =>
    show σ i :: idsList (mapIdsList σ ks) = (i :: idsList ks).map σ
    rw [idsList_mapIds σ ks, List.map_cons]

theorem idsList_mapIds (σ : ObjectId → ObjectId) (ks : List PTree) :
    idsList (mapIdsList σ ks) = (idsList ks).map σ := by
  match ks with
  | [] => rfl
  | k :: ks2 =>
    show (k.mapIds σ).ids ++ idsList (mapIdsList σ ks2)
      = (k.ids ++ idsList ks2).map σ
    rw [ids_mapIds σ k, idsList_mapIds σ ks2, List.map_append]

end

mutual

theorem needFuel_mapIds (σ : ObjectId → ObjectId) (t : PTree) :
    (t.mapIds σ).needFuel = t.needFuel := by
  match t with
  | .leaf i => rfl
  | .node i ks =>
    show needFuelList (mapIdsList σ ks) + 1 = needFuelList ks + 1
    rw [needFuelList_mapIds σ ks]

theorem needFuelList_mapIds (σ : ObjectId → ObjectId) (ks : List PTree) :
    needFuelList (mapIdsList σ ks) = needFuelList ks := by
  match ks with
  | [] => rfl
  | k :: ks2 =>
    show max (k.mapIds σ).needFuel (needFuelList (mapIdsList σ ks2))
      = max k.needFuel (needFuelList ks2)
    rw [needFuel_mapIds σ k, needFuelList_mapIds σ ks2]

end

theorem mem_ids_root (t : PTree) : t.rootId ∈ t.ids := by
  match t with
  | .leaf i => exact List.mem_singleton.mpr rfl
  | .node i ks => exact List.mem_cons_self _ _

theorem kid_ids_subset (i : ObjectId) (ks : List PTree) (k : PTree) (hk : k ∈ ks) :
    k.ids ⊆ (PTree.node i ks).ids := by
  intro x hx
  show x ∈ i :: idsList ks
  refine List.mem_cons_of_mem _ ?_
  rw [idsList_eq]
  exact List.mem_flatMap.mpr ⟨k, hk, hx⟩

mutual

theorem represents_congr (doc doc' : Document) (t : PTree)
    (h : ∀ i ∈ t.ids, doc'.getDict i = doc.getDict i)
    (hrep : Represents doc t) : Represents doc' t := by
  match t, hrep with
  | .leaf i, .leaf _ d hd hty =>
    exact Represents.leaf i d (by rw [h i (mem_ids_root _)]; exact hd) hty
  | .node i ks, .node _ d _ hd hty hkids hrk =>
    refine Represents.node i d ks (by rw [h i (mem_ids_root _)]; exact hd) hty hkids ?_
    exact repKids_congr doc doc' ks
      (fun j hj => h j (by
        show j ∈ i :: idsList ks
        exact List.mem_cons_of_mem _ hj)) hrk

theorem repKids_congr (doc doc' : Document) (ks : List PTree)
    (h : ∀ i ∈ idsList ks, doc'.getDict i = doc.getDict i)
    (hrk : RepKids doc ks) : RepKids doc' ks := by
  match ks, hrk with
  | [], .nil => exact RepKids.nil
  | k :: ks2, .cons _ _ hk hks2 =>
    refine RepKids.cons k ks2 ?_ ?_
    · exact represents_congr doc doc' k
        (fun j hj => h j (by
          show j ∈ k.ids ++ idsList ks2
          exact List.mem_append_left _ hj)) hk
    · exact repKids_congr doc doc' ks2
        (fun j hj => h j (by
          show j ∈ k.ids ++ idsList ks2
          exact List.mem_append_right _ hj)) hks2

end


/-! ### Renaming the whole document -/

theorem renObjList_eq (σ : ObjectId → ObjectId) (xs : List Object) :
    renObjList σ xs = xs.map (renObj σ) := by
  induction xs with
  | nil => rfl
  | cons x xs ih => simp [renObjList, ih]

theorem lookupDict_renKVs (σ : ObjectId → ObjectId) (d : Dict) (k : String) :
    lookupDict (renKVs σ d) k = (lookupDict d k).map (renObj σ) := by
  induction d with
  | nil => rfl
  | cons p rest ih =>
    obtain ⟨pk, pv⟩ := p
    by_cases h : pk = k
    · simp [renKVs, lookupDict, h]
    · simpa [renKVs, lookupDict, h] using ih

theorem mem_keys_of_lookupId (l : List (ObjectId × Object)) (id : ObjectId) (v : Object)
    (h : lookupId l id = some v) : id ∈ l.map (·.1) := by
  induction l with
  | nil => cases h
  | cons p rest ih =>
    obtain ⟨pk, pv⟩ := p
    by_cases hp : pk = id
    · simp [hp]
    · rw [lookupId, if_neg hp] at h
      exact List.mem_cons_of_mem _ (ih h)

theorem lookupId_none_of_not_mem (l : List (ObjectId × Object)) (id : ObjectId)
    (h : id ∉ l.map (·.1)) : lookupId l id = none := by
  induction l with
  | nil => rfl
  | cons p rest ih =>
    obtain ⟨pk, pv⟩ := p
    rw [lookupId, if_neg (fun hh : pk = id => h (by simp [hh]))]
    exact ih fun hh => h (List.mem_cons_of_mem _ hh)

theorem lookupId_renList (σ : ObjectId → ObjectId) (id : ObjectId) :
    ∀ l : List (ObjectId × Object),
      (∀ a ∈ l.map (·.1), ∀ b ∈ l.map (·.1), σ a = σ b → a = b) →
      id ∈ l.map (·.1) →
      lookupId (l.map (fun p => (σ p.1, renObj σ p.2))) (σ id)
        = (lookupId l id).map (renObj σ) := by
  intro l
  induction l with
  | nil =>
    intro _ hid
    exact absurd hid (List.not_mem_nil id)
  | cons p rest ih =>
    intro hinj hid
    obtain ⟨pk, pv⟩ := p
    by_cases hp : σ pk = σ id
    · have hpk : pk = id :=
        hinj pk (by simp) id hid hp
      simp [lookupId, hp, hpk]
    · have hpk : pk ≠ id := fun hh => hp (hh ▸ rfl)
      rw [List.map_cons, lookupId, if_neg hp, lookupId, if_neg hpk]
      refine ih (fun a ha b hb => hinj a (List.mem_cons_of_mem _ ha) b (List.mem_cons_of_mem _ hb)) ?_
      rcases List.mem_cons.mp hid with hh | hh
      · exact absurd hh.symm hpk
      · exact hh

theorem getObject_renDoc (σ : ObjectId → ObjectId) (doc : Document)
    (hinj : ∀ a ∈ keysOf doc, ∀ b ∈ keysOf doc, σ a = σ b → a = b)
    (id : ObjectId) (hid : id ∈ keysOf doc) :
    (renDoc σ doc).getObject (σ id) = (doc.getObject id).map (renObj σ) :=
  lookupId_renList σ id doc.objects hinj hid

theorem getDict_renDoc (σ : ObjectId → ObjectId) (doc : Document)
    (hinj : ∀ a ∈ keysOf doc, ∀ b ∈ keysOf doc, σ a = σ b → a = b)
    (id : ObjectId) (hid : id ∈ keysOf doc) :
    (renDoc σ doc).getDict (σ id) = (doc.getDict id).map (renKVs σ) := by
  rw [Document.getDict, getObject_renDoc σ doc hinj id hid, Document.getDict]
  cases hobj : doc.getObject id with
  | none => rfl
  | some o => cases o <;> simp [renObj]

theorem keysOf_renDoc (σ : ObjectId → ObjectId) (doc : Document) :
    keysOf (renDoc σ doc) = (keysOf doc).map σ := by
  simp [keysOf, renDoc]

mutual

theorem represents_ren (σ : ObjectId → ObjectId) (doc : Document)
    (hinj : ∀ a ∈ keysOf doc, ∀ b ∈ keysOf doc, σ a = σ b → a = b)
    (t : PTree) (hsub : ∀ i ∈ t.ids, i ∈ keysOf doc)
    (hrep : Represents doc t) : Represents (renDoc σ doc) (t.mapIds σ) := by
  match t, hrep with
  | .leaf i, .leaf _ d hd hty =>
    refine Represents.leaf (σ i) (renKVs σ d) ?_ ?_
    · rw [getDict_renDoc σ doc hinj i (hsub i (mem_ids_root _)), hd]
      rfl
    · rw [lookupDict_renKVs, hty]
      rfl
  | .node i ks, .node _ d _ hd hty hkids hrk =>
    refine Represents.node (σ i) (renKVs σ d) (mapIdsList σ ks) ?_ ?_ ?_ ?_
    · rw [getDict_renDoc σ doc hinj i (hsub i (mem_ids_root _)), hd]
      rfl
    · rw [lookupDict_renKVs, hty]
      rfl
    · rw [lookupDict_renKVs, hkids]
      show some (Object.array (renObjList σ (ks.map fun t => Object.reference t.rootId))) = _
      rw [renObjList_eq, List.map_map, mapIdsList_eq, List.map_map]
      refine congrArg (fun l => some (Object.array l)) ?_
      refine List.map_congr_left fun k _ => ?_
      show Object.reference (σ k.rootId) = Object.reference (k.mapIds σ).rootId
      rw [rootId_mapIds]
    · refine repKids_ren σ doc hinj ks (fun j hj => ?_) hrk
      rw [idsList_eq] at hj
      obtain ⟨k, hk, hjk⟩ := List.mem_flatMap.mp hj
      exact hsub j (kid_ids_subset i ks k hk hjk)

theorem repKids_ren (σ : ObjectId → ObjectId) (doc : Document)
    (hinj : ∀ a ∈ keysOf doc, ∀ b ∈ keysOf doc, σ a = σ b → a = b)
    (ks : List PTree) (hsub : ∀ i ∈ idsList ks, i ∈ keysOf doc)
    (hrk : RepKids doc ks) : RepKids (renDoc σ doc) (mapIdsList σ ks) := by
  match ks, hrk with
  | [], .nil => exact RepKids.nil
  | k :: ks2, .cons _ _ hk hks2 =>
    refine RepKids.cons (k.mapIds σ) (mapIdsList σ ks2) ?_ ?_
    · refine represents_ren σ doc hinj k (fun j hj => ?_) hk
      refine hsub j ?_
      show j ∈ k.ids ++ idsList ks2
      exact List.mem_append_left _ hj
    · refine repKids_ren σ doc hinj ks2 (fun j hj => ?_) hks2
      refine hsub j ?_
      show j ∈ k.ids ++ idsList ks2
      exact List.mem_append_right _ hj

end

theorem pages_root_id_some (doc : Document) (rid : ObjectId)
    (h : pages_root_id doc = some rid) :
    ∃ cid cat, lookupDict doc.trailer "Root" = some (.reference cid) ∧
      doc.getDict cid = some cat ∧ lookupDict cat "Pages" = some (.reference rid) := by
  rw [pages_root_id] at h
  cases hcat : doc.catalog with
  | none =>
    rw [hcat] at h
    cases h
  | some cat =>
    rw [hcat] at h
    have h2 : (match lookupDict cat "Pages" with
        | some (Object.reference id) => some id
        | _ => none) = some rid := h
    rw [Document.catalog] at hcat
    cases hroot : lookupDict doc.trailer "Root" with
    | none =>
      rw [hroot] at hcat
      cases hcat
    | some o =>
      rw [hroot] at hcat
      cases hp : lookupDict cat "Pages" with
      | none =>
        rw [hp] at h2
        cases h2
      | some po =>
        rw [hp] at h2
        cases o with
        | reference cid =>
          cases po with
          | reference rid2 =>
            have h3 : some rid2 = some rid := h2
            cases h3
            have hcat2 : doc.getDict cid = some cat := hcat
            exact ⟨cid, cat, rfl, hcat2, hp⟩
          | null => simp at h2
          | boolean b => simp at h2
          | integer i => simp at h2
          | real r => simp at h2
          | name s => simp at h2
          | str s => simp at h2
          | array xs => simp at h2
          | dict d => simp at h2
          | stream sd ops => simp at h2
        | null => simp at hcat
        | boolean b => simp at hcat
        | integer i => simp at hcat
        | real r => simp at hcat
        | name s => simp at hcat
        | str s => simp at hcat
        | array xs => simp at hcat
        | dict d => simp at hcat
        | stream sd ops => simp at hcat

theorem mem_keys_of_getDict (doc : Document) (id : ObjectId) (d : Dict)
    (h : doc.getDict id = some d) : id ∈ keysOf doc := by
  rw [Document.getDict] at h
  cases hobj : doc.getObject id with
  | none =>
    rw [hobj] at h
    cases h
  | some o => exact mem_keys_of_lookupId doc.objects id o hobj

theorem pages_root_id_renDoc (σ : ObjectId → ObjectId) (doc : Document)
    (hinj : ∀ a ∈ keysOf doc, ∀ b ∈ keysOf doc, σ a = σ b → a = b)
    (rid : ObjectId) (h : pages_root_id doc = some rid) :
    pages_root_id (renDoc σ doc) = some (σ rid) := by
  obtain ⟨cid, cat, hroot, hcat, hpages⟩ := pages_root_id_some doc rid h
  have hcatalog : (renDoc σ doc).catalog = some (renKVs σ cat) := by
    have htr : lookupDict (renDoc σ doc).trailer "Root" = some (.reference (σ cid)) := by
      show lookupDict (renKVs σ doc.trailer) "Root" = _
      rw [lookupDict_renKVs, hroot]
      rfl
    rw [Document.catalog, htr]
    show (renDoc σ doc).getDict (σ cid) = some (renKVs σ cat)
    rw [getDict_renDoc σ doc hinj cid (mem_keys_of_getDict doc cid cat hcat), hcat]
    rfl
  rw [pages_root_id, hcatalog]
  show (match lookupDict (renKVs σ cat) "Pages" with
    | some (Object.reference id) => some id
    | _ => none) = some (σ rid)
  rw [lookupDict_renKVs, hpages]
  rfl


/-! ### The renumber map is injective on store keys -/

theorem insertSortedId_perm (x : ObjectId) (l : List ObjectId) :
    (insertSortedId x l).Perm (x :: l) := by
  induction l with
  | nil => exact List.Perm.refl _
  | cons y rest ih =>
    rw [insertSortedId]
    by_cases h : idLeb x y
    · rw [if_pos h]
    · rw [if_neg h]
      exact List.Perm.trans (List.Perm.cons y ih) (List.Perm.swap x y rest)

theorem sortIds_perm (l : List ObjectId) : (sortIds l).Perm l := by
  induction l with
  | nil => exact List.Perm.refl _
  | cons x rest ih =>
    exact List.Perm.trans (insertSortedId_perm x (sortIds rest)) (List.Perm.cons x ih)

theorem idxOfId_isSome_of_mem (id : ObjectId) (l : List ObjectId) (h : id ∈ l) :
    ∃ k, idxOfId id l = some k := by
  induction l with
  | nil => exact absurd h (List.not_mem_nil id)
  | cons x rest ih =>
    by_cases hx : x = id
    · exact ⟨0, by rw [idxOfId, if_pos hx]⟩
    · obtain ⟨k, hk⟩ := ih (by
        rcases List.mem_cons.mp h with hh | hh
        · exact absurd hh.symm hx
        · exact hh)
      exact ⟨k + 1, by rw [idxOfId, if_neg hx, hk]; rfl⟩

theorem idxOfId_get (id : ObjectId) (l : List ObjectId) (k : Nat)
    (h : idxOfId id l = some k) : ∃ hlt : k < l.length, l.get ⟨k, hlt⟩ = id := by
  induction l generalizing k with
  | nil => cases h
  | cons x rest ih =>
    by_cases hx : x = id
    · rw [idxOfId, if_pos hx] at h
      cases h
      exact ⟨Nat.succ_pos _, hx⟩
    · rw [idxOfId, if_neg hx] at h
      cases hrest : idxOfId id rest with
      | none => rw [hrest] at h; cases h
      | some k2 =>
        rw [hrest] at h
        have hk : k = k2 + 1 := by
          have : some (k2 + 1) = some k := h
          cases this
          rfl
        subst hk
        obtain ⟨hlt, hget⟩ := ih k2 hrest
        exact ⟨Nat.succ_lt_succ hlt, hget⟩

theorem idxOfId_inj (l : List ObjectId) (a b : ObjectId) (k : Nat)
    (ha : idxOfId a l = some k) (hb : idxOfId b l = some k) : a = b := by
  obtain ⟨hlt1, hget1⟩ := idxOfId_get a l k ha
  obtain ⟨hlt2, hget2⟩ := idxOfId_get b l k hb
  rw [← hget1, ← hget2]

theorem renumberMap_injOn (keys : List ObjectId) (start : Nat) :
    ∀ a ∈ keys, ∀ b ∈ keys, renumberMap keys start a = renumberMap keys start b → a = b := by
  intro a ha b hb heq
  obtain ⟨ka, hka⟩ := idxOfId_isSome_of_mem a _ ((sortIds_perm keys).mem_iff.mpr ha)
  obtain ⟨kb, hkb⟩ := idxOfId_isSome_of_mem b _ ((sortIds_perm keys).mem_iff.mpr hb)
  rw [renumberMap, hka, renumberMap, hkb] at heq
  have h1 : start + ka = start + kb := congrArg Prod.fst heq
  have h2 : ka = kb := by omega
  subst h2
  exact idxOfId_inj (sortIds keys) a b ka hka hkb

theorem renumberMap_fst_ge (keys : List ObjectId) (start : Nat) (id : ObjectId)
    (h : id ∈ keys) : start ≤ (renumberMap keys start id).1 := by
  obtain ⟨k, hk⟩ := idxOfId_isSome_of_mem id _ ((sortIds_perm keys).mem_iff.mpr h)
  rw [renumberMap, hk]
  exact Nat.le_add_right _ _

/-! ### Splicing two stores with disjoint keys -/

theorem setIdEntry_append_of_not_mem (l : List (ObjectId × Object)) (id : ObjectId)
    (v : Object) (h : id ∉ l.map (·.1)) : setIdEntry l id v = l ++ [(id, v)] := by
  induction l with
  | nil => rfl
  | cons p rest ih =>
    obtain ⟨pk, pv⟩ := p
    rw [setIdEntry, if_neg (fun hh : pk = id => h (by simp [hh]))]
    rw [ih fun hh => h (List.mem_cons_of_mem _ hh)]
    rfl

theorem extendObjs_eq_append (b : List (ObjectId × Object)) :
    ∀ a, (∀ k ∈ b.map (·.1), k ∉ a.map (·.1)) → (b.map (·.1)).Nodup →
      extendObjs a b = a ++ b := by
  induction b with
  | nil =>
    intro a _ _
    simp [extendObjs]
  | cons p rest ih =>
    intro a hdisj hnd
    obtain ⟨pk, pv⟩ := p
    show extendObjs (setIdEntry a pk pv) rest = a ++ (pk, pv) :: rest
    rw [setIdEntry_append_of_not_mem a pk pv (hdisj pk (by simp))]
    rw [List.map_cons] at hnd
    have hnd2 := List.nodup_cons.mp hnd
    rw [ih (a ++ [(pk, pv)]) ?_ hnd2.2]
    · simp
    · intro k hk
      rw [List.map_append]
      intro hmem
      rcases List.mem_append.mp hmem with hh | hh
      · exact hdisj k (by simp [hk]) hh
      · have : k = pk := by simpa using hh
        exact hnd2.1 (this ▸ hk)

theorem lookupId_append (a b : List (ObjectId × Object)) (id : ObjectId) :
    lookupId (a ++ b) id =
      match lookupId a id with
      | some v => some v
      | none => lookupId b id := by
  induction a with
  | nil => rfl
  | cons p rest ih =>
    obtain ⟨pk, pv⟩ := p
    by_cases hp : pk = id
    · simp [lookupId, hp]
    · rw [List.cons_append, lookupId, if_neg hp, lookupId, if_neg hp, ih]

theorem keys_setIdEntry_mem (l : List (ObjectId × Object)) (id : ObjectId) (v : Object)
    (h : id ∈ l.map (·.1)) : (setIdEntry l id v).map (·.1) = l.map (·.1) := by
  induction l with
  | nil => exact absurd h (List.not_mem_nil id)
  | cons p rest ih =>
    obtain ⟨pk, pv⟩ := p
    by_cases hp : pk = id
    · rw [setIdEntry, if_pos hp, List.map_cons, List.map_cons, hp]
    · rw [setIdEntry, if_neg hp, List.map_cons, List.map_cons,
        ih (by
          rcases List.mem_cons.mp h with hh | hh
          · exact absurd hh.symm hp
          · exact hh)]

theorem length_setIdEntry_mem (l : List (ObjectId × Object)) (id : ObjectId) (v : Object)
    (h : id ∈ l.map (·.1)) : (setIdEntry l id v).length = l.length := by
  have := keys_setIdEntry_mem l id v h
  have h1 : ((setIdEntry l id v).map (·.1)).length = (l.map (·.1)).length := by rw [this]
  simpa using h1

/-! ### The parent-repointing pass of `append_doc` -/

theorem setParentAll_spec (root : ObjectId) :
    ∀ (pids : List ObjectId) (doc : Document), pids.Nodup →
      (∀ p ∈ pids, ∃ d, doc.getObject p = some (.dict d)) →
      ∃ doc', setParentAll root doc pids = some doc' ∧
        (∀ p ∈ pids, ∃ d, doc.getObject p = some (.dict d) ∧
          doc'.getObject p = some (.dict (setDict d "Parent" (.reference root)))) ∧
        (∀ id, id ∉ pids → doc'.getObject id = doc.getObject id) ∧
        doc'.trailer = doc.trailer ∧ doc'.maxId = doc.maxId ∧
        keysOf doc' = keysOf doc := by
  intro pids
  induction pids with
  | nil =>
    intro doc _ _
    exact ⟨doc, rfl, by simp, fun _ _ => rfl, rfl, rfl, rfl⟩
  | cons pid rest ih =>
    intro doc hnd hdict
    obtain ⟨d, hd⟩ := hdict pid (List.mem_cons_self _ _)
    obtain ⟨hnotin, hndrest⟩ := List.nodup_cons.mp hnd
    have hrest : ∀ p ∈ rest, ∃ d2,
        (doc.setObject pid (.dict (setDict d "Parent" (.reference root)))).getObject p
          = some (.dict d2) := by
      intro p hp
      have hne : p ≠ pid := fun hh => hnotin (hh ▸ hp)
      rw [getObject_setObject_ne _ _ _ _ hne]
      exact hdict p (List.mem_cons_of_mem _ hp)
    obtain ⟨doc', hloop, hmem, hos, htr, hmx, hks⟩ :=
      ih (doc.setObject pid (.dict (setDict d "Parent" (.reference root)))) hndrest hrest
    refine ⟨doc', ?_, ?_, ?_, htr, hmx, ?_⟩
    · simpa [setParentAll, hd] using hloop
    · intro p hp
      rcases List.mem_cons.mp hp with hcase | hcase
      · subst hcase
        refine ⟨d, hd, ?_⟩
        rw [hos p hnotin]
        exact getObject_setObject_same _ _ _
      · obtain ⟨d2, hd2, hd2'⟩ := hmem p hcase
        have hne : p ≠ pid := fun hh => hnotin (hh ▸ hcase)
        rw [getObject_setObject_ne _ _ _ _ hne] at hd2
        exact ⟨d2, hd2, hd2'⟩
    · intro id hid
      have h1 : id ∉ rest := fun hh => hid (List.mem_cons_of_mem _ hh)
      have h2 : id ≠ pid := fun hh => hid (hh ▸ List.mem_cons_self _ _)
      rw [hos id h1, getObject_setObject_ne _ _ _ _ h2]
    · rw [hks]
      show keysOf { doc with objects := setIdEntry doc.objects pid _ } = keysOf doc
      exact keys_setIdEntry_mem doc.objects pid _ (mem_keys_of_lookupId _ _ _ hd)


/-! ### More store and shape helpers -/

theorem lookupId_isSome_of_mem (l : List (ObjectId × Object)) (id : ObjectId)
    (h : id ∈ l.map (·.1)) : ∃ v, lookupId l id = some v := by
  induction l with
  | nil => simp at h
  | cons p rest ih =>
    obtain ⟨pk, pv⟩ := p
    by_cases hp : pk = id
    · exact ⟨pv, by rw [lookupId, if_pos hp]⟩
    · obtain ⟨v, hv⟩ := ih (by
        rcases List.mem_cons.mp h with hh | hh
        · exact absurd hh.symm hp
        · exact hh)
      exact ⟨v, by rw [lookupId, if_neg hp]; exact hv⟩

theorem getObject_of_getDict (doc : Document) (id : ObjectId) (d : Dict)
    (h : doc.getDict id = some d) : doc.getObject id = some (.dict d) := by
  rw [Document.getDict] at h
  cases hobj : doc.getObject id with
  | none => rw [hobj] at h; cases h
  | some o =>
    rw [hobj] at h
    cases o with
    | dict d2 =>
      have h2 : some d2 = some d := h
      cases h2
      rfl
    | null => cases h
    | boolean b => cases h
    | integer i => cases h
    | real r => cases h
    | name s => cases h
    | str s => cases h
    | array xs => cases h
    | stream sd ops => cases h
    | reference r => cases h

theorem nodeView_elim (doc doc' : Document) (i : ObjectId) (d : Dict)
    (hv : nodeView doc' i = nodeView doc i) (hd : doc.getDict i = some d) :
    ∃ d', doc'.getDict i = some d' ∧ lookupDict d' "Type" = lookupDict d "Type" ∧
      lookupDict d' "Kids" = lookupDict d "Kids" := by
  rw [nodeView, nodeView, hd] at hv
  cases hd' : doc'.getDict i with
  | none => rw [hd'] at hv; cases hv
  | some d' =>
    rw [hd'] at hv
    have h2 : (lookupDict d' "Type", lookupDict d' "Kids")
        = (lookupDict d "Type", lookupDict d "Kids") := Option.some.inj hv
    exact ⟨d', rfl, congrArg Prod.fst h2, congrArg Prod.snd h2⟩

mutual

theorem represents_nodeView (doc doc' : Document) (t : PTree)
    (h : ∀ i ∈ t.ids, nodeView doc' i = nodeView doc i)
    (hrep : Represents doc t) : Represents doc' t := by
  match t, hrep with
  | .leaf i, .leaf _ d hd hty =>
    obtain ⟨d', hd', hty', _⟩ := nodeView_elim doc doc' i d (h i (mem_ids_root _)) hd
    exact Represents.leaf i d' hd' (hty'.trans hty)
  | .node i ks, .node _ d _ hd hty hkids hrk =>
    obtain ⟨d', hd', hty', hkids'⟩ := nodeView_elim doc doc' i d (h i (mem_ids_root _)) hd
    refine Represents.node i d' ks hd' (hty'.trans hty) (hkids'.trans hkids) ?_
    refine repKids_nodeView doc doc' ks (fun j hj => h j ?_) hrk
    show j ∈ i :: idsList ks
    exact List.mem_cons_of_mem _ hj

theorem repKids_nodeView (doc doc' : Document) (ks : List PTree)
    (h : ∀ i ∈ idsList ks, nodeView doc' i = nodeView doc i)
    (hrk : RepKids doc ks) : RepKids doc' ks := by
  match ks, hrk with
  | [], .nil => exact RepKids.nil
  | k :: ks2, .cons _ _ hk hks2 =>
    refine RepKids.cons k ks2 ?_ ?_
    · refine represents_nodeView doc doc' k (fun j hj => h j ?_) hk
      show j ∈ k.ids ++ idsList ks2
      exact List.mem_append_left _ hj
    · refine repKids_nodeView doc doc' ks2 (fun j hj => h j ?_) hks2
      show j ∈ k.ids ++ idsList ks2
      exact List.mem_append_right _ hj

end

theorem pages_root_id_of_parts (doc : Document) (cid rid : ObjectId) (cat : Dict)
    (hroot : lookupDict doc.trailer "Root" = some (.reference cid))
    (hcat : doc.getDict cid = some cat)
    (hpages : lookupDict cat "Pages" = some (.reference rid)) :
    pages_root_id doc = some rid := by
  have hcatalog : doc.catalog = some cat := by
    rw [Document.catalog, hroot]
    show doc.getDict cid = some cat
    exact hcat
  rw [pages_root_id, hcatalog]
  show (match lookupDict cat "Pages" with
    | some (Object.reference id) => some id
    | _ => none) = some rid
  rw [hpages]

mutual

theorem represents_leaf_dict (doc : Document) (t : PTree) (hrep : Represents doc t) :
    ∀ ℓ ∈ t.leaves, ∃ d, doc.getDict ℓ = some d ∧
      lookupDict d "Type" = some (.name "Page") := by
  match t, hrep with
  | .leaf i, .leaf _ d hd hty =>
    intro ℓ hℓ
    have hli : ℓ = i := List.mem_singleton.mp hℓ
    subst hli
    exact ⟨d, hd, hty⟩
  | .node i ks, .node _ d _ hd hty hkids hrk =>
    intro ℓ hℓ
    exact repKids_leaf_dict doc ks hrk ℓ hℓ

theorem repKids_leaf_dict (doc : Document) (ks : List PTree) (hrk : RepKids doc ks) :
    ∀ ℓ ∈ leavesList ks, ∃ d, doc.getDict ℓ = some d ∧
      lookupDict d "Type" = some (.name "Page") := by
  match ks, hrk with
  | [], .nil =>
    intro ℓ hℓ
    exact absurd hℓ (List.not_mem_nil ℓ)
  | k :: ks2, .cons _ _ hk hks2 =>
    intro ℓ hℓ
    rcases List.mem_append.mp hℓ with hh | hh
    · exact represents_leaf_dict doc k hk ℓ hh
    · exact repKids_leaf_dict doc ks2 hks2 ℓ hh

end

mutual

theorem ids_perm_inner_leaves (t : PTree) :
    t.ids.Perm (t.innerIds ++ t.leaves) := by
  match t with
  | .leaf i => exact List.Perm.refl _
  | .node i ks =>
    show (i :: idsList ks).Perm ((i :: innerIdsList ks) ++ leavesList ks)
    exact List.Perm.cons i (idsList_perm_inner_leaves ks)

theorem idsList_perm_inner_leaves (ks : List PTree) :
    (idsList ks).Perm (innerIdsList ks ++ leavesList ks) := by
  match ks with
  | [] => exact List.Perm.refl _
  | k :: ks2 =>
    show (k.ids ++ idsList ks2).Perm
      ((k.innerIds ++ innerIdsList ks2) ++ (k.leaves ++ leavesList ks2))
    have p1 : (k.ids ++ idsList ks2).Perm
        ((k.innerIds ++ k.leaves) ++ (innerIdsList ks2 ++ leavesList ks2)) :=
      List.Perm.append (ids_perm_inner_leaves k) (idsList_perm_inner_leaves ks2)
    have p2 : ((k.innerIds ++ k.leaves) ++ (innerIdsList ks2 ++ leavesList ks2)).Perm
        ((k.innerIds ++ innerIdsList ks2) ++ (k.leaves ++ leavesList ks2)) := by
      rw [List.append_assoc, List.append_assoc]
      refine List.Perm.append_left _ ?_
      rw [← List.append_assoc, ← List.append_assoc]
      exact List.Perm.append_right _ List.perm_append_comm
    exact p1.trans p2

end

theorem inner_not_leaf (t : PTree) (hnd : t.ids.Nodup) :
    ∀ i ∈ t.innerIds, i ∉ t.leaves := by
  have h := (ids_perm_inner_leaves t).nodup hnd
  have h2 := List.nodup_append.mp h
  intro i hi hleaf
  exact h2.2.2 hi hleaf

theorem idsList_append (a b : List PTree) : idsList (a ++ b) = idsList a ++ idsList b := by
  rw [idsList_eq, List.flatMap_append, idsList_eq, idsList_eq]

theorem leavesList_append (a b : List PTree) :
    leavesList (a ++ b) = leavesList a ++ leavesList b := by
  rw [leavesList_eq, List.flatMap_append, leavesList_eq, leavesList_eq]

theorem needFuelList_append (a b : List PTree) :
    needFuelList (a ++ b) = max (needFuelList a) (needFuelList b) := by
  induction a with
  | nil => simp [needFuelList]
  | cons t ts ih =>
    show max t.needFuel (needFuelList (ts ++ b)) = max (max t.needFuel (needFuelList ts)) _
    rw [ih, max_assoc]

theorem idsList_map_leaf (l : List ObjectId) : idsList (l.map PTree.leaf) = l := by
  induction l with
  | nil => rfl
  | cons x xs ih =>
    show PTree.ids (.leaf x) ++ idsList (xs.map PTree.leaf) = x :: xs
    rw [ih]
    rfl

theorem leavesList_map_leaf (l : List ObjectId) : leavesList (l.map PTree.leaf) = l := by
  induction l with
  | nil => rfl
  | cons x xs ih =>
    show PTree.leaves (.leaf x) ++ leavesList (xs.map PTree.leaf) = x :: xs
    rw [ih]
    rfl

theorem length_keysOf (doc : Document) : (keysOf doc).length = doc.objects.length := by
  simp [keysOf]

theorem wf_fuel (doc : Document) (t : PTree) (hnd : t.ids.Nodup)
    (hsub : ∀ i ∈ t.ids, i ∈ keysOf doc) :
    t.needFuel ≤ doc.objects.length + 1 := by
  have h1 : t.ids.length ≤ (keysOf doc).length :=
    (List.Nodup.subperm hnd hsub).length_le
  have h2 := needFuel_le_ids t
  rw [length_keysOf] at h1
  omega


/-! ### C1: the merge is order-preserving and count-accurate -/

theorem getDict_congr_obj (doc doc' : Document) (i : ObjectId)
    (h : doc'.getObject i = doc.getObject i) : doc'.getDict i = doc.getDict i := by
  rw [Document.getDict, Document.getDict, h]

theorem getDict_eq_of_obj (doc : Document) (id : ObjectId) (d : Dict)
    (h : doc.getObject id = some (.dict d)) : doc.getDict id = some d := by
  rw [Document.getDict, h]

/-- **C1.** For all documents `base` (with a well-formed page tree rooted
at a `/Pages` node) and `add` (well-formed page tree), `append_doc`
succeeds and yields one merged document whose page list is `base`'s pages
followed by `add`'s pages (each side renamed by the final renumbering,
injectively — the result list has no duplicates), with exactly `n + m`
pages, and whose root page-tree node carries a cached `Count` equal to
`n + m`. -/
theorem append_doc_merge_correct (base add : Document) (rid : ObjectId) (ks : List PTree)
    (tA : PTree) (hB : WFDoc base (.node rid ks)) (hA : WFDoc add tA) :
    ∃ doc' σB σA,
      append_doc base add = some doc' ∧
      doc'.getPages = base.getPages.map σB ++ add.getPages.map σA ∧
      doc'.getPages.length = base.getPages.length + add.getPages.length ∧
      doc'.getPages.Nodup ∧
      ∃ rid2 d2, pages_root_id doc' = some rid2 ∧ doc'.getDict rid2 = some d2 ∧
        lookupDict d2 "Count"
          = some (.integer ((base.getPages.length : Int) + add.getPages.length)) := by
  classical
  obtain ⟨dB, hdB, htyB, hkidsB, hrkB⟩ :
      ∃ dB, base.getDict rid = some dB ∧
        lookupDict dB "Type" = some (.name "Pages") ∧
        lookupDict dB "Kids" = some (.array (ks.map fun t => Object.reference t.rootId)) ∧
        RepKids base ks := by
    cases hB.rep with
    | node _ d _ hd hty hkids hrk => exact ⟨d, hd, hty, hkids, hrk⟩
  have hrootB : pages_root_id base = some rid := hB.rootEq
  have hpagesB : base.getPages = leavesList ks :=
    getPages_of_represents base (.node rid ks) hB.rep hrootB
      (wf_fuel base _ hB.idsNodup hB.idsSub)
  have hpagesA : add.getPages = tA.leaves :=
    getPages_of_represents add tA hA.rep hA.rootEq (wf_fuel add _ hA.idsNodup hA.idsSub)
  -- the renamed addition
  set σ1 := renumberMap (keysOf add) (base.maxId + 1) with hsig1
  set add2 := add.renumberObjectsWith (base.maxId + 1) with hadd2
  set tA2 := tA.mapIds σ1 with htA2
  have hinj1 : ∀ a ∈ keysOf add, ∀ b ∈ keysOf add, σ1 a = σ1 b → a = b :=
    renumberMap_injOn (keysOf add) (base.maxId + 1)
  have hrepA2 : Represents add2 tA2 := by
    have h1 : Represents (renDoc σ1 add) tA2 :=
      represents_ren σ1 add hinj1 tA hA.idsSub hA.rep
    exact represents_congr (renDoc σ1 add) add2 tA2 (fun i _ => rfl) h1
  have hrootA2 : pages_root_id add2 = some (σ1 tA.rootId) := by
    have h1 : pages_root_id (renDoc σ1 add) = some (σ1 tA.rootId) :=
      pages_root_id_renDoc σ1 add hinj1 tA.rootId hA.rootEq
    exact h1
  have hkeysA2 : keysOf add2 = (keysOf add).map σ1 := keysOf_renDoc σ1 add
  have hidsA2 : tA2.ids = tA.ids.map σ1 := ids_mapIds σ1 tA
  have hidsA2nd : tA2.ids.Nodup := by
    rw [hidsA2]
    exact List.Nodup.map_on
      (fun x hx y hy hxy => hinj1 x (hA.idsSub x hx) y (hA.idsSub y hy) hxy) hA.idsNodup
  have hidsA2sub : ∀ i ∈ tA2.ids, i ∈ keysOf add2 := by
    intro i hi
    rw [hidsA2] at hi
    obtain ⟨j, hj, rfl⟩ := List.mem_map.mp hi
    rw [hkeysA2]
    exact List.mem_map_of_mem σ1 (hA.idsSub j hj)
  have hlenA2 : add2.objects.length = add.objects.length := by
    rw [hadd2]
    show ((renDoc σ1 add).objects).length = add.objects.length
    simp [renDoc]
  have hfuelA2 : tA2.needFuel ≤ add2.objects.length + 1 := wf_fuel add2 tA2 hidsA2nd hidsA2sub
  have hrootA2' : pages_root_id add2 = some tA2.rootId := by
    rw [hrootA2, htA2, rootId_mapIds]
  have hpagesA2 : add2.getPages = tA.leaves.map σ1 := by
    rw [getPages_of_represents add2 tA2 hrepA2 hrootA2' hfuelA2, htA2, leaves_mapIds]
  set apids := add2.getPages with hapids
  have hapidsEq : apids = tA.leaves.map σ1 := hpagesA2
  have hleavesA2 : tA2.leaves = apids := by
    rw [htA2, leaves_mapIds, hapidsEq]
  -- leaves are Nodup dictionaries
  have hleavesAnd : tA.leaves.Nodup :=
    List.Nodup.sublist (leaves_sublist_ids tA) hA.idsNodup
  have hleavessub : ∀ ℓ ∈ tA.leaves, ℓ ∈ tA.ids := (leaves_sublist_ids tA).subset
  have hapidsNodup : apids.Nodup := by
    rw [hapidsEq]
    exact List.Nodup.map_on
      (fun x hx y hy hxy =>
        hinj1 x (hA.idsSub x (hleavessub x hx)) y (hA.idsSub y (hleavessub y hy)) hxy)
      hleavesAnd
  have hapidsKeys : ∀ p ∈ apids, p ∈ keysOf add2 := by
    intro p hp
    rw [← hleavesA2] at hp
    exact hidsA2sub p ((leaves_sublist_ids tA2).subset hp)
  have hapidsDict : ∀ p ∈ apids, ∃ d, add2.getObject p = some (.dict d) := by
    intro p hp
    rw [← hleavesA2] at hp
    obtain ⟨d, hd, _⟩ := represents_leaf_dict add2 tA2 hrepA2 p hp
    exact ⟨d, getObject_of_getDict add2 p d hd⟩
  -- repoint parents
  obtain ⟨add3, hpar, hmem3, hos3, htr3, hmx3, hks3⟩ :=
    setParentAll_spec rid apids add2 hapidsNodup hapidsDict
  have hrepA3 : Represents add3 tA2 := by
    refine represents_nodeView add2 add3 tA2 (fun i hi => ?_) hrepA2
    by_cases hip : i ∈ apids
    · obtain ⟨d, hd, hd'⟩ := hmem3 i hip
      rw [nodeView, nodeView, getDict_eq_of_obj add2 i d hd,
        getDict_eq_of_obj add3 i _ hd']
      show some (lookupDict (setDict d "Parent" (.reference rid)) "Type",
          lookupDict (setDict d "Parent" (.reference rid)) "Kids")
        = some (lookupDict d "Type", lookupDict d "Kids")
      rw [lookup_setDict_ne _ _ _ _ (by decide), lookup_setDict_ne _ _ _ _ (by decide)]
    · rw [nodeView, nodeView, getDict_congr_obj add2 add3 i (hos3 i hip)]
  -- splice the stores
  have hkeysA3 : keysOf add3 = (keysOf add).map σ1 := by rw [hks3, hkeysA2]
  have hfstA3 : ∀ p ∈ keysOf add3, base.maxId + 1 ≤ p.1 := by
    intro p hp
    rw [hkeysA3] at hp
    obtain ⟨j, hj, rfl⟩ := List.mem_map.mp hp
    exact renumberMap_fst_ge (keysOf add) (base.maxId + 1) j hj
  have hdisj : ∀ k ∈ keysOf add3, k ∉ keysOf base := by
    intro k hk hkb
    have h1 := hfstA3 k hk
    have h2 := hB.keysLe k hkb
    omega
  have hndA3 : (keysOf add3).Nodup := by
    rw [hkeysA3]
    exact List.Nodup.map_on
      (fun x hx y hy hxy => hinj1 x hx y hy hxy) hA.keysNodup
  have hext : extendObjs base.objects add3.objects = base.objects ++ add3.objects :=
    extendObjs_eq_append add3.objects base.objects hdisj hndA3
  set merged : Document := { base with objects := extendObjs base.objects add3.objects }
    with hmerged
  have hkeysM : keysOf merged = keysOf base ++ keysOf add3 := by
    show (extendObjs base.objects add3.objects).map (·.1) = _
    rw [hext, List.map_append]
    rfl
  have hGOb : ∀ i ∈ keysOf base, merged.getObject i = base.getObject i := by
    intro i hi
    obtain ⟨v, hv⟩ := lookupId_isSome_of_mem base.objects i hi
    show lookupId (extendObjs base.objects add3.objects) i = base.getObject i
    rw [hext, lookupId_append, hv]
    exact hv.symm
  have hGOa : ∀ i, i ∉ keysOf base → merged.getObject i = add3.getObject i := by
    intro i hi
    show lookupId (extendObjs base.objects add3.objects) i = add3.getObject i
    rw [hext, lookupId_append, lookupId_none_of_not_mem base.objects i hi]
    rfl
  have hrepMk : ∀ k ∈ ks, Represents merged k := by
    intro k hk
    refine represents_congr base merged k (fun i hi => ?_) (repKids_mem base ks hrkB k hk)
    exact getDict_congr_obj base merged i
      (hGOb i (hB.idsSub i (kid_ids_subset rid ks k hk hi)))
  have hrepA3m : Represents merged tA2 := by
    refine represents_congr add3 merged tA2 (fun i hi => ?_) hrepA3
    have hia3 : i ∈ keysOf add3 := by
      rw [hks3]
      exact hidsA2sub i hi
    exact getDict_congr_obj add3 merged i (hGOa i (hdisj i hia3))
  have hridKeys : rid ∈ keysOf base := hB.idsSub rid (List.mem_cons_self _ _)
  have hObjRid : merged.getObject rid = some (.dict dB) := by
    rw [hGOb rid hridKeys]
    exact getObject_of_getDict base rid dB hdB
  -- run append_doc
  have happ1 : append_doc base add
      = match setParentAll rid add2 apids with
        | none => none
        | some a3 => append_finish rid base.getPages.length apids
            { base with objects := extendObjs base.objects a3.objects } := by
    unfold append_doc
    rw [hrootB]
  have happ : append_doc base add = append_finish rid base.getPages.length apids merged := by
    rw [happ1, hpar]
  set pd2 := setDict (setDict dB "Kids"
      (.array ((ks.map fun t => Object.reference t.rootId) ++ apids.map Object.reference)))
      "Count" (.integer ((base.getPages.length : Int) + apids.length)) with hpd2
  have hfin1 : append_finish rid base.getPages.length apids merged
      = match lookupDict dB "Kids" with
        | some (.array kids) =>
          some ((merged.setObject rid
            (.dict (setDict (setDict dB "Kids"
              (.array (kids ++ apids.map Object.reference))) "Count"
              (.integer ((base.getPages.length : Int) + apids.length))))).renumberObjects)
        | _ => none := by
    unfold append_finish
    rw [hObjRid]
  have hfin : append_finish rid base.getPages.length apids merged
      = some ((merged.setObject rid (.dict pd2)).renumberObjects) := by
    rw [hfin1, hkidsB]
  set mergedF := merged.setObject rid (.dict pd2) with hmergedF
  -- the combined tree
  set tC := PTree.node rid (ks ++ apids.map PTree.leaf) with htC
  have hidsC : tC.ids = rid :: (idsList ks ++ apids) := by
    rw [htC]
    show rid :: idsList (ks ++ apids.map PTree.leaf) = _
    rw [idsList_append, idsList_map_leaf]
  have hleavesC : tC.leaves = leavesList ks ++ apids := by
    rw [htC]
    show leavesList (ks ++ apids.map PTree.leaf) = _
    rw [leavesList_append, leavesList_map_leaf]
  have hkeysMF : keysOf mergedF = keysOf merged := by
    show (setIdEntry merged.objects rid (.dict pd2)).map (·.1) = _
    refine keys_setIdEntry_mem merged.objects rid _ ?_
    rw [show merged.objects.map (·.1) = keysOf merged from rfl, hkeysM]
    exact List.mem_append_left _ hridKeys
  have hidsKsKeys : ∀ i ∈ idsList ks, i ∈ keysOf base := by
    intro i hi
    refine hB.idsSub i ?_
    show i ∈ rid :: idsList ks
    exact List.mem_cons_of_mem _ hi
  have hridNotKs : rid ∉ idsList ks := (List.nodup_cons.mp hB.idsNodup).1
  have hapidsNotBase : ∀ p ∈ apids, p ∉ keysOf base := by
    intro p hp
    refine hdisj p ?_
    rw [hks3]
    exact hapidsKeys p hp
  have hGOF : ∀ i, i ≠ rid → mergedF.getObject i = merged.getObject i := by
    intro i hi
    exact getObject_setObject_ne merged rid i _ hi
  have hrepC : Represents mergedF tC := by
    rw [htC]
    refine Represents.node rid pd2 (ks ++ apids.map PTree.leaf) ?_ ?_ ?_ ?_
    · exact getDict_eq_of_obj mergedF rid pd2 (getObject_setObject_same merged rid _)
    · rw [hpd2, lookup_setDict_ne _ _ _ _ (by decide),
        lookup_setDict_ne _ _ _ _ (by decide)]
      exact htyB
    · rw [hpd2, lookup_setDict_ne _ _ _ _ (by decide), lookup_setDict_same]
      refine congrArg (fun l => some (Object.array l)) ?_
      rw [List.map_append, List.map_map]
      rfl
    · refine repKids_of_mem mergedF _ (fun t ht => ?_)
      rcases List.mem_append.mp ht with hh | hh
      · refine represents_congr merged mergedF t (fun i hi => ?_) (hrepMk t hh)
        have hiks : i ∈ idsList ks := by
          rw [idsList_eq]
          exact List.mem_flatMap.mpr ⟨t, hh, hi⟩
        have hne : i ≠ rid := fun hie => hridNotKs (hie ▸ hiks)
        exact getDict_congr_obj merged mergedF i (hGOF i hne)
      · obtain ⟨p, hp, rfl⟩ := List.mem_map.mp hh
        obtain ⟨d, hd, hdty⟩ := represents_leaf_dict merged tA2 hrepA3m p
          (by rw [hleavesA2]; exact hp)
        refine Represents.leaf p d ?_ hdty
        have hne : p ≠ rid := fun hie => hapidsNotBase p hp (hie ▸ hridKeys)
        rw [getDict_congr_obj merged mergedF p (hGOF p hne)]
        exact hd
  have hrootF : pages_root_id mergedF = some rid := by
    obtain ⟨cid, cat, hr1, hr2, hr3⟩ := pages_root_id_some base rid hrootB
    have htrF : lookupDict mergedF.trailer "Root" = some (.reference cid) := hr1
    by_cases hcr : cid = rid
    · subst hcr
      have hcat : cat = dB := by
        have := hr2.symm.trans hdB
        exact Option.some.inj this
      refine pages_root_id_of_parts mergedF cid cid pd2 htrF
        (getDict_eq_of_obj mergedF cid pd2 (getObject_setObject_same merged cid _)) ?_
      rw [hpd2, lookup_setDict_ne _ _ _ _ (by decide),
        lookup_setDict_ne _ _ _ _ (by decide)]
      rw [← hcat]
      exact hr3
    · refine pages_root_id_of_parts mergedF cid rid cat htrF ?_ hr3
      rw [getDict_congr_obj merged mergedF cid (hGOF cid hcr)]
      rw [getDict_congr_obj base merged cid
        (hGOb cid (mem_keys_of_getDict base cid cat hr2))]
      exact hr2
  -- Nodup and key bookkeeping for the final renumber
  have hidsCnd : tC.ids.Nodup := by
    rw [hidsC, List.nodup_cons, List.nodup_append]
    refine ⟨?_, (List.nodup_cons.mp hB.idsNodup).2, hapidsNodup, ?_⟩
    · intro hmem
      rcases List.mem_append.mp hmem with hh | hh
      · exact hridNotKs hh
      · exact hapidsNotBase rid hh hridKeys
    · intro i hi hip
      exact hapidsNotBase i hip (hidsKsKeys i hi)
  have hidsCsub : ∀ i ∈ tC.ids, i ∈ keysOf mergedF := by
    intro i hi
    rw [hkeysMF, hkeysM]
    rw [hidsC] at hi
    rcases List.mem_cons.mp hi with rfl | hh
    · exact List.mem_append_left _ hridKeys
    · rcases List.mem_append.mp hh with h1 | h1
      · exact List.mem_append_left _ (hidsKsKeys i h1)
      · refine List.mem_append_right _ ?_
        rw [hks3]
        exact hapidsKeys i h1
  -- the final renumber
  set σ2 := renumberMap (keysOf mergedF) 1 with hsig2
  have hinj2 : ∀ a ∈ keysOf mergedF, ∀ b ∈ keysOf mergedF, σ2 a = σ2 b → a = b :=
    renumberMap_injOn (keysOf mergedF) 1
  set tF := tC.mapIds σ2 with htF
  set docF := mergedF.renumberObjects with hdocF
  have hrepF : Represents docF tF := by
    have h1 : Represents (renDoc σ2 mergedF) tF :=
      represents_ren σ2 mergedF hinj2 tC hidsCsub hrepC
    exact represents_congr (renDoc σ2 mergedF) docF tF (fun i _ => rfl) h1
  have hrootDF : pages_root_id docF = some (σ2 rid) := by
    have h1 : pages_root_id (renDoc σ2 mergedF) = some (σ2 rid) :=
      pages_root_id_renDoc σ2 mergedF hinj2 rid hrootF
    exact h1
  have hrootDF' : pages_root_id docF = some tF.rootId := by
    rw [hrootDF, htF, htC, rootId_mapIds]
    rfl
  have hidsFnd : tF.ids.Nodup := by
    rw [htF, ids_mapIds]
    exact List.Nodup.map_on
      (fun x hx y hy hxy => hinj2 x (hidsCsub x hx) y (hidsCsub y hy) hxy) hidsCnd
  have hidsFsub : ∀ i ∈ tF.ids, i ∈ keysOf docF := by
    intro i hi
    rw [htF, ids_mapIds] at hi
    obtain ⟨j, hj, rfl⟩ := List.mem_map.mp hi
    show σ2 j ∈ keysOf (renDoc σ2 mergedF)
    rw [keysOf_renDoc]
    exact List.mem_map_of_mem σ2 (hidsCsub j hj)
  have hfuelF : tF.needFuel ≤ docF.objects.length + 1 := wf_fuel docF tF hidsFnd hidsFsub
  have hpagesF : docF.getPages = tC.leaves.map σ2 := by
    rw [getPages_of_represents docF tF hrepF hrootDF' hfuelF, htF, leaves_mapIds]
  -- assemble
  refine ⟨docF, σ2, σ2 ∘ σ1, ?_, ?_, ?_, ?_, σ2 rid, renKVs σ2 pd2, hrootDF, ?_, ?_⟩
  · rw [happ, hfin]
  · rw [hpagesF, hleavesC, List.map_append, hpagesB, hpagesA, hapidsEq, List.map_map]
  · rw [hpagesF, hleavesC, hpagesB, hpagesA, hapidsEq]
    simp
  · rw [hpagesF]
    refine List.Nodup.map_on ?_ (List.Nodup.sublist (leaves_sublist_ids tC) hidsCnd)
    intro x hx y hy hxy
    exact hinj2 x (hidsCsub x ((leaves_sublist_ids tC).subset hx))
      y (hidsCsub y ((leaves_sublist_ids tC).subset hy)) hxy
  · have h1 : docF.getDict (σ2 rid) = (mergedF.getDict rid).map (renKVs σ2) := by
      show (renDoc σ2 mergedF).getDict (σ2 rid) = _
      exact getDict_renDoc σ2 mergedF hinj2 rid (by rw [hkeysMF, hkeysM]; exact List.mem_append_left _ hridKeys)
    rw [h1, getDict_eq_of_obj mergedF rid pd2 (getObject_setObject_same merged rid _)]
    rfl
  · rw [lookupDict_renKVs, hpd2, lookup_setDict_same]
    have hlen : apids.length = add.getPages.length := by
      rw [hapidsEq, hpagesA, List.length_map]
    rw [hlen]
    rfl


/-- Witness for C1: merging two concrete one-page documents. -/
theorem append_doc_merge_correct_wit :
    (WFDoc (blank_page_doc 612 612) (.node (1, 0) [.leaf (2, 0)]) ∧
      WFDoc (blank_page_doc 100 200) (.node (1, 0) [.leaf (2, 0)])) ∧
    (∃ doc' σB σA,
      append_doc (blank_page_doc 612 612) (blank_page_doc 100 200) = some doc' ∧
      doc'.getPages = (blank_page_doc 612 612).getPages.map σB
        ++ (blank_page_doc 100 200).getPages.map σA ∧
      doc'.getPages.length
        = (blank_page_doc 612 612).getPages.length
          + (blank_page_doc 100 200).getPages.length ∧
      doc'.getPages.Nodup ∧
      ∃ rid2 d2, pages_root_id doc' = some rid2 ∧ doc'.getDict rid2 = some d2 ∧
        lookupDict d2 "Count" = some (.integer
          (((blank_page_doc 612 612).getPages.length : Int)
            + (blank_page_doc 100 200).getPages.length))) :=
  have wf1 : WFDoc (blank_page_doc 612 612) (.node (1, 0) [.leaf (2, 0)]) :=
    ⟨Represents.node (1, 0) _ [.leaf (2, 0)] rfl rfl rfl
        (RepKids.cons _ _ (Represents.leaf (2, 0) _ rfl rfl) RepKids.nil),
      rfl, by decide, by decide, by decide, by decide⟩
  have wf2 : WFDoc (blank_page_doc 100 200) (.node (1, 0) [.leaf (2, 0)]) :=
    ⟨Represents.node (1, 0) _ [.leaf (2, 0)] rfl rfl rfl
        (RepKids.cons _ _ (Represents.leaf (2, 0) _ rfl rfl) RepKids.nil),
      rfl, by decide, by decide, by decide, by decide⟩
  ⟨⟨wf1, wf2⟩,
    append_doc_merge_correct (blank_page_doc 612 612) (blank_page_doc 100 200)
      (1, 0) [.leaf (2, 0)] (.node (1, 0) [.leaf (2, 0)]) wf1 wf2⟩


/-! ### C4: `delete_page` — removing a leaf from a shape -/

theorem rootId_removeLeaf (pid : ObjectId) (t : PTree) :
    (t.removeLeaf pid).rootId = t.rootId := by
  cases t with
  | leaf i => rfl
  | node i ks => rfl

theorem removeLeafList_cons (pid : ObjectId) (t : PTree) (ts : List PTree) :
    removeLeafList pid (t :: ts) =
      if t.rootId = pid then removeLeafList pid ts
      else t.removeLeaf pid :: removeLeafList pid ts := rfl

mutual

theorem removeLeaf_of_not_mem (pid : ObjectId) (t : PTree) (h : pid ∉ t.ids) :
    t.removeLeaf pid = t := by
  match t with
  | .leaf i => rfl
  | .node i ks =>
    show PTree.node i (removeLeafList pid ks) = PTree.node i ks
    rw [removeLeafList_of_not_mem pid ks (fun hm => h (by
      show pid ∈ i :: idsList ks
      exact List.mem_cons_of_mem _ hm))]

theorem removeLeafList_of_not_mem (pid : ObjectId) (ks : List PTree)
    (h : pid ∉ idsList ks) : removeLeafList pid ks = ks := by
  match ks with
  | [] => rfl
  | t :: ts =>
    have hids : pid ∉ t.ids := fun hm => h (by
      show pid ∈ t.ids ++ idsList ts
      exact List.mem_append_left _ hm)
    have hts : pid ∉ idsList ts := fun hm => h (by
      show pid ∈ t.ids ++ idsList ts
      exact List.mem_append_right _ hm)
    have hroot : t.rootId ≠ pid := fun he => hids (he ▸ mem_ids_root t)
    rw [removeLeafList_cons, if_neg hroot, removeLeaf_of_not_mem pid t hids,
      removeLeafList_of_not_mem pid ts hts]

end

mutual

theorem ids_removeLeaf_sublist (pid : ObjectId) (t : PTree) :
    (t.removeLeaf pid).ids.Sublist t.ids := by
  match t with
  | .leaf i => exact List.Sublist.refl [i]
  | .node i ks =>
    show (i :: idsList (removeLeafList pid ks)).Sublist (i :: idsList ks)
    exact List.Sublist.cons₂ i (idsList_removeLeafList_sublist pid ks)

theorem idsList_removeLeafList_sublist (pid : ObjectId) (ks : List PTree) :
    (idsList (removeLeafList pid ks)).Sublist (idsList ks) := by
  match ks with
  | [] => exact List.Sublist.refl []
  | t :: ts =>
    rw [removeLeafList_cons]
    by_cases hr : t.rootId = pid
    · rw [if_pos hr]
      exact (idsList_removeLeafList_sublist pid ts).trans (List.sublist_append_right _ _)
    · rw [if_neg hr]
      show (PTree.ids (t.removeLeaf pid) ++ idsList (removeLeafList pid ts)).Sublist
        (t.ids ++ idsList ts)
      exact List.Sublist.append (ids_removeLeaf_sublist pid t)
        (idsList_removeLeafList_sublist pid ts)

end

theorem refs_removeLeafList (pid : ObjectId) (ks : List PTree) :
    (removeLeafList pid ks).map (fun t => Object.reference t.rootId)
      = (ks.map (fun t => Object.reference t.rootId)).filter (keepKid pid) := by
  induction ks with
  | nil => rfl
  | cons t ts ih =>
    rw [removeLeafList_cons, List.map_cons, List.filter_cons]
    by_cases hr : t.rootId = pid
    · have hk : keepKid pid (Object.reference t.rootId) = false := by
        rw [keepKid]
        simp [hr]
      rw [if_pos hr, hk]
      simp only [Bool.false_eq_true, if_false]
      exact ih
    · have hk : keepKid pid (Object.reference t.rootId) = true := by
        rw [keepKid]
        simp [hr]
      rw [if_neg hr, hk, List.map_cons, ih, rootId_removeLeaf]
      simp

theorem leavesList_removeLeaf (pid : ObjectId) :
    ∀ ks : List PTree, pid ∉ innerIdsList ks →
    leavesList (removeLeafList pid ks) = (leavesList ks).filter (fun x => x ≠ pid)
  | [], _ => rfl
  | PTree.leaf j :: ts, h => by
    have hts : pid ∉ innerIdsList ts := fun hm => h (by
      show pid ∈ PTree.innerIds (.leaf j) ++ innerIdsList ts
      exact List.mem_append_right _ hm)
    rw [removeLeafList_cons]
    by_cases hj : j = pid
    · rw [if_pos (show (PTree.leaf j).rootId = pid from hj)]
      rw [leavesList_removeLeaf pid ts hts]
      show (leavesList ts).filter (fun x => x ≠ pid)
        = (j :: leavesList ts).filter (fun x => x ≠ pid)
      rw [List.filter_cons]
      simp [hj]
    · rw [if_neg (show ¬ (PTree.leaf j).rootId = pid from hj)]
      show PTree.leaves (.leaf j) ++ leavesList (removeLeafList pid ts)
        = (j :: leavesList ts).filter (fun x => x ≠ pid)
      rw [leavesList_removeLeaf pid ts hts, List.filter_cons]
      simp [hj]
      rfl
  | PTree.node j ks2 :: ts, h => by
    have hj : ¬ (PTree.node j ks2).rootId = pid := by
      intro he
      exact h (by
        show pid ∈ (j :: innerIdsList ks2) ++ innerIdsList ts
        exact List.mem_append_left _ (he ▸ List.mem_cons_self j _))
    have hks2 : pid ∉ innerIdsList ks2 := fun hm => h (by
      show pid ∈ (j :: innerIdsList ks2) ++ innerIdsList ts
      exact List.mem_append_left _ (List.mem_cons_of_mem _ hm))
    have hts : pid ∉ innerIdsList ts := fun hm => h (by
      show pid ∈ (j :: innerIdsList ks2) ++ innerIdsList ts
      exact List.mem_append_right _ hm)
    rw [removeLeafList_cons, if_neg hj]
    show leavesList (removeLeafList pid ks2) ++ leavesList (removeLeafList pid ts)
      = (leavesList ks2 ++ leavesList ts).filter (fun x => x ≠ pid)
    rw [leavesList_removeLeaf pid ks2 hks2, leavesList_removeLeaf pid ts hts,
      List.filter_append]
  termination_by ks => sizeOf ks

theorem mem_idsList_of_mem (ks : List PTree) (k : PTree) (hk : k ∈ ks)
    (x : ObjectId) (hx : x ∈ k.ids) : x ∈ idsList ks := by
  rw [idsList_eq]
  exact List.mem_flatMap.mpr ⟨k, hk, hx⟩

theorem ids_nodup_of_mem (ks : List PTree) (hnd : (idsList ks).Nodup)
    (k : PTree) (hk : k ∈ ks) : k.ids.Nodup := by
  induction ks with
  | nil => cases hk
  | cons u us ih =>
    have hnd2 := hnd
    rw [show idsList (u :: us) = u.ids ++ idsList us from rfl, List.nodup_append] at hnd2
    rcases List.mem_cons.mp hk with h | h
    · subst h
      exact hnd2.1
    · exact ih hnd2.2.1 h

theorem flat_ids_disjoint (ks : List PTree) (hnd : (idsList ks).Nodup)
    (k0 : PTree) (hk0 : k0 ∈ ks) (a : ObjectId) (ha : a ∈ k0.ids) :
    ∀ k ∈ ks, k ≠ k0 → a ∉ k.ids := by
  induction ks with
  | nil => cases hk0
  | cons u us ih =>
    have hnd2 := hnd
    rw [show idsList (u :: us) = u.ids ++ idsList us from rfl, List.nodup_append] at hnd2
    obtain ⟨hu, hus, hdisj⟩ := hnd2
    intro k hk hne
    rcases List.mem_cons.mp hk0 with h0 | h0
    · subst h0
      rcases List.mem_cons.mp hk with hk1 | hk1
      · exact absurd hk1 hne
      · intro hak
        exact hdisj ha (mem_idsList_of_mem us k hk1 a hak)
    · rcases List.mem_cons.mp hk with hk1 | hk1
      · subst hk1
        intro hak
        exact hdisj hak (mem_idsList_of_mem us k0 h0 a ha)
      · exact ih hus h0 k hk1 hne

theorem mem_removeLeafList (pid : ObjectId) (ks : List PTree) (x : PTree)
    (hx : x ∈ removeLeafList pid ks) :
    ∃ k, k ∈ ks ∧ k.rootId ≠ pid ∧ x = k.removeLeaf pid := by
  induction ks with
  | nil => cases hx
  | cons t ts ih =>
    rw [removeLeafList_cons] at hx
    by_cases hr : t.rootId = pid
    · rw [if_pos hr] at hx
      obtain ⟨k, hk1, hk2, hk3⟩ := ih hx
      exact ⟨k, List.mem_cons_of_mem _ hk1, hk2, hk3⟩
    · rw [if_neg hr] at hx
      rcases List.mem_cons.mp hx with h | h
      · exact ⟨t, List.mem_cons_self t ts, hr, h⟩
      · obtain ⟨k, hk1, hk2, hk3⟩ := ih h
        exact ⟨k, List.mem_cons_of_mem _ hk1, hk2, hk3⟩

theorem leafPath_ne_nil (t : PTree) (pid : ObjectId) (anc : List ObjectId)
    (h : LeafPath t pid anc) : anc ≠ [] := by
  induction h with
  | child i ks p hk => exact List.cons_ne_nil i []
  | deeper i ks k p anc2 hk hlp ih =>
    intro he
    exact absurd (List.append_eq_nil.mp he).2 (List.cons_ne_nil i [])

theorem leafPath_anc_inner (t : PTree) (pid : ObjectId) (anc : List ObjectId)
    (h : LeafPath t pid anc) : ∀ a ∈ anc, a ∈ t.innerIds := by
  induction h with
  | child i ks p hk =>
    intro a ha
    have he : a = i := List.mem_singleton.mp ha
    subst he
    exact List.mem_cons_self _ _
  | deeper i ks k p anc2 hk hlp ih =>
    intro a ha
    rcases List.mem_append.mp ha with h1 | h1
    · show a ∈ i :: innerIdsList ks
      refine List.mem_cons_of_mem _ ?_
      rw [innerIdsList_eq]
      exact List.mem_flatMap.mpr ⟨k, hk, ih a h1⟩
    · have he : a = i := List.mem_singleton.mp h1
      subst he
      exact List.mem_cons_self _ _

theorem leafPath_pid_leaf (t : PTree) (pid : ObjectId) (anc : List ObjectId)
    (h : LeafPath t pid anc) : pid ∈ t.leaves := by
  induction h with
  | child i ks p hk =>
    show p ∈ leavesList ks
    rw [leavesList_eq]
    exact List.mem_flatMap.mpr ⟨.leaf p, hk, List.mem_singleton.mpr rfl⟩
  | deeper i ks k p anc2 hk hlp ih =>
    show p ∈ leavesList ks
    rw [leavesList_eq]
    exact List.mem_flatMap.mpr ⟨k, hk, ih⟩

theorem leafPath_nodup (t : PTree) (pid : ObjectId) (anc : List ObjectId)
    (h : LeafPath t pid anc) : t.ids.Nodup → anc.Nodup := by
  induction h with
  | child i ks p hk =>
    intro hnd
    exact List.nodup_singleton i
  | deeper i ks k p anc2 hk hlp ih =>
    intro hnd
    have hnd2 : i ∉ idsList ks ∧ (idsList ks).Nodup := by
      rw [show (PTree.node i ks).ids = i :: idsList ks from rfl, List.nodup_cons] at hnd
      exact hnd
    have hkids : k.ids.Nodup := ids_nodup_of_mem ks hnd2.2 k hk
    have h1 : anc2.Nodup := ih hkids
    have h2 : i ∉ anc2 := by
      intro hmem
      have ha : i ∈ k.innerIds := leafPath_anc_inner k p anc2 hlp i hmem
      have hin : i ∈ k.ids := (ids_perm_inner_leaves k).mem_iff.mpr
        (List.mem_append_left _ ha)
      exact hnd2.1 (mem_idsList_of_mem ks k hk i hin)
    rw [List.nodup_append]
    refine ⟨h1, List.nodup_singleton i, fun a ha1 ha2 => ?_⟩
    have he : a = i := List.mem_singleton.mp ha2
    subst he
    exact h2 ha1


theorem leafPath_root_ne (t : PTree) (pid : ObjectId) (anc : List ObjectId)
    (h : LeafPath t pid anc) : t.ids.Nodup → t.rootId ≠ pid := by
  induction h with
  | child i ks p hpm =>
    intro hnd he
    have hpl : p ∈ leavesList ks := by
      rw [leavesList_eq]
      exact List.mem_flatMap.mpr ⟨.leaf p, hpm, List.mem_singleton.mpr rfl⟩
    have hpi : p ∈ idsList ks := (leavesList_sublist_ids ks).subset hpl
    rw [show (PTree.node i ks).ids = i :: idsList ks from rfl, List.nodup_cons] at hnd
    refine hnd.1 ?_
    rw [show i = p from he]
    exact hpi
  | deeper i2 ks2 k2 p anc2 hk2 hlp2 ih =>
    intro hnd he
    have hpleaf : p ∈ k2.leaves := leafPath_pid_leaf k2 p anc2 hlp2
    have hpk : p ∈ k2.ids := (leaves_sublist_ids k2).subset hpleaf
    have hpi : p ∈ idsList ks2 := mem_idsList_of_mem ks2 k2 hk2 p hpk
    rw [show (PTree.node i2 ks2).ids = i2 :: idsList ks2 from rfl, List.nodup_cons] at hnd
    refine hnd.1 ?_
    rw [show i2 = p from he]
    exact hpi

/-- Removing the deleted page's leaf preserves representation, provided the
parent node's dictionary in the new document carries the filtered `Kids`
array and every other tree node is untouched (same `nodeView`). -/
theorem represents_removeLeaf (doc doc2 : Document) (p1 : ObjectId) (pid : ObjectId)
    (t : PTree) (anc : List ObjectId) (hlp : LeafPath t pid anc) :
    (∀ d, doc.getDict p1 = some d → ∃ d2, doc2.getDict p1 = some d2 ∧
        lookupDict d2 "Type" = lookupDict d "Type" ∧
        (∀ arr, lookupDict d "Kids" = some (.array arr) →
          lookupDict d2 "Kids" = some (.array (arr.filter (keepKid pid))))) →
    anc.head? = some p1 → t.ids.Nodup →
    (∀ i ∈ t.ids, i ≠ pid → i ≠ p1 → nodeView doc2 i = nodeView doc i) →
    Represents doc t → Represents doc2 (t.removeLeaf pid) := by
  induction hlp with
  | child i ks p hpm =>
    intro hp1d hh hnd hnv hrep
    have hp1 : i = p1 := Option.some.inj hh
    subst hp1
    have hndks : (idsList ks).Nodup := by
      rw [show (PTree.node i ks).ids = i :: idsList ks from rfl, List.nodup_cons] at hnd
      exact hnd.2
    have hiNot : i ∉ idsList ks := by
      rw [show (PTree.node i ks).ids = i :: idsList ks from rfl, List.nodup_cons] at hnd
      exact hnd.1
    cases hrep with
    | node a d b hd hty hkids hrk =>
      obtain ⟨d2, hd2, hty2, hkidsF⟩ := hp1d d hd
      show Represents doc2 (.node i (removeLeafList p ks))
      refine Represents.node i d2 (removeLeafList p ks) hd2 (hty2.trans hty) ?_ ?_
      · rw [hkidsF _ hkids, refs_removeLeafList]
      · refine repKids_of_mem doc2 _ ?_
        intro x hx
        obtain ⟨k, hkmem, hkroot, hxeq⟩ := mem_removeLeafList p ks x hx
        subst hxeq
        have hkne : k ≠ PTree.leaf p := fun he => hkroot (by rw [he]; rfl)
        have hpnotk : p ∉ k.ids :=
          flat_ids_disjoint ks hndks (PTree.leaf p) hpm p
            (List.mem_singleton.mpr rfl) k hkmem hkne
        rw [removeLeaf_of_not_mem p k hpnotk]
        refine represents_nodeView doc doc2 k (fun j hj => ?_)
          (repKids_mem doc ks hrk k hkmem)
        refine hnv j ?_ ?_ ?_
        · show j ∈ i :: idsList ks
          exact List.mem_cons_of_mem _ (mem_idsList_of_mem ks k hkmem j hj)
        · exact fun he => hpnotk (by rw [show p = j from he.symm]; exact hj)
        · intro he
          refine hiNot ?_
          rw [show i = j from he.symm]
          exact mem_idsList_of_mem ks k hkmem j hj
  | deeper i ks k p anc2 hk hlp0 ih =>
    intro hp1d hh hnd hnv hrep
    have hne : anc2 ≠ [] := leafPath_ne_nil k p anc2 hlp0
    have hh0 : anc2.head? = some p1 := by
      cases anc2 with
      | nil => exact absurd rfl hne
      | cons a rest => exact hh
    have hndks : (idsList ks).Nodup := by
      rw [show (PTree.node i ks).ids = i :: idsList ks from rfl, List.nodup_cons] at hnd
      exact hnd.2
    have hiNot : i ∉ idsList ks := by
      rw [show (PTree.node i ks).ids = i :: idsList ks from rfl, List.nodup_cons] at hnd
      exact hnd.1
    have hpleaf : p ∈ k.leaves := leafPath_pid_leaf k p anc2 hlp0
    have hpk : p ∈ k.ids := (leaves_sublist_ids k).subset hpleaf
    have hp1inner : p1 ∈ k.innerIds := by
      refine leafPath_anc_inner k p anc2 hlp0 p1 ?_
      cases anc2 with
      | nil => exact absurd rfl hne
      | cons a rest =>
        have ha : a = p1 := Option.some.inj hh0
        subst ha
        exact List.mem_cons_self _ _
    have hp1k : p1 ∈ k.ids := (ids_perm_inner_leaves k).mem_iff.mpr
      (List.mem_append_left _ hp1inner)
    have hine : i ≠ p := by
      intro he
      refine hiNot ?_
      rw [show i = p from he]
      exact mem_idsList_of_mem ks k hk p hpk
    have hinep1 : i ≠ p1 := by
      intro he
      refine hiNot ?_
      rw [show i = p1 from he]
      exact mem_idsList_of_mem ks k hk p1 hp1k
    cases hrep with
    | node a d b hd hty hkids hrk =>
      obtain ⟨d2, hd2, htyE, hkidsE⟩ :=
        nodeView_elim doc doc2 i d (hnv i (mem_ids_root _) hine hinep1) hd
      show Represents doc2 (.node i (removeLeafList p ks))
      have hallkeep : ∀ k2 ∈ ks, k2.rootId ≠ p := by
        intro k2 hk2m
        by_cases hk2e : k2 = k
        · subst hk2e
          exact leafPath_root_ne k2 p anc2 hlp0 (ids_nodup_of_mem ks hndks k2 hk2m)
        · intro hre
          refine flat_ids_disjoint ks hndks k hk p hpk k2 hk2m hk2e ?_
          rw [show p = k2.rootId from hre.symm]
          exact mem_ids_root k2
      have hkeep : ∀ o ∈ ks.map (fun t2 => Object.reference t2.rootId),
          keepKid p o = true := by
        intro o ho
        obtain ⟨k2, hk2m, hoe⟩ := List.mem_map.mp ho
        rw [show o = Object.reference k2.rootId from hoe.symm, keepKid]
        simp [hallkeep k2 hk2m]
      refine Represents.node i d2 (removeLeafList p ks) hd2 (htyE.trans hty) ?_ ?_
      · rw [hkidsE, hkids, refs_removeLeafList, List.filter_eq_self.mpr hkeep]
      · refine repKids_of_mem doc2 _ ?_
        intro x hx
        obtain ⟨k2, hk2mem, hk2root, hxeq⟩ := mem_removeLeafList p ks x hx
        subst hxeq
        by_cases hk2e : k2 = k
        · subst hk2e
          refine ih hp1d hh0 (ids_nodup_of_mem ks hndks k2 hk2mem) ?_
            (repKids_mem doc ks hrk k2 hk2mem)
          intro j hj hj1 hj2
          exact hnv j (List.mem_cons_of_mem _ (mem_idsList_of_mem ks k2 hk2mem j hj)) hj1 hj2
        · have hpnot : p ∉ k2.ids :=
            flat_ids_disjoint ks hndks k hk p hpk k2 hk2mem hk2e
          have hp1not : p1 ∉ k2.ids :=
            flat_ids_disjoint ks hndks k hk p1 hp1k k2 hk2mem hk2e
          rw [removeLeaf_of_not_mem p k2 hpnot]
          refine represents_nodeView doc doc2 k2 (fun j hj => ?_)
            (repKids_mem doc ks hrk k2 hk2mem)
          refine hnv j (List.mem_cons_of_mem _ (mem_idsList_of_mem ks k2 hk2mem j hj)) ?_ ?_
          · exact fun he => hpnot (by rw [show p = j from he.symm]; exact hj)
          · exact fun he => hp1not (by rw [show p1 = j from he.symm]; exact hj)


/-! ### C4: the ancestor walk of `delete_page` -/

theorem lookup_decCount_ne (d : Dict) (k : String) (hk : k ≠ "Count") :
    lookupDict (decCount d) k = lookupDict d k := by
  cases hc : lookupDict d "Count" with
  | none => rw [decCount, hc]
  | some o =>
    cases o with
    | integer c =>
      rw [decCount, hc]
      exact lookup_setDict_ne d "Count" k (.integer (c - 1)) hk
    | null => rw [decCount, hc]
    | boolean b => rw [decCount, hc]
    | real r => rw [decCount, hc]
    | name s => rw [decCount, hc]
    | str s => rw [decCount, hc]
    | array xs => rw [decCount, hc]
    | dict dd => rw [decCount, hc]
    | stream sd ops => rw [decCount, hc]
    | reference r => rw [decCount, hc]

theorem lookup_decCount_count (d : Dict) (c : Int)
    (hc : lookupDict d "Count" = some (.integer c)) :
    lookupDict (decCount d) "Count" = some (.integer (c - 1)) := by
  rw [decCount, hc]
  exact lookup_setDict_same d "Count" (.integer (c - 1))

theorem parentChain_congr (doc doc2 : Document) (p : ObjectId) (anc : List ObjectId)
    (h : ParentChainUp doc p anc) :
    (∀ i ∈ anc, ∀ d, doc.getDict i = some d → ∃ d2, doc2.getDict i = some d2 ∧
      lookupDict d2 "Parent" = lookupDict d "Parent") →
    ParentChainUp doc2 p anc := by
  induction h with
  | root i d hd hnp =>
    intro hc
    obtain ⟨d2, hd2, hpar⟩ := hc i (List.mem_singleton.mpr rfl) d hd
    exact ParentChainUp.root i d2 hd2 (fun q => by rw [hpar]; exact hnp q)
  | step i d p2 rest hd hpar hrest ih =>
    intro hc
    obtain ⟨d2, hd2, hpar2⟩ := hc i (List.mem_cons_self _ _) d hd
    refine ParentChainUp.step i d2 p2 rest hd2 (by rw [hpar2]; exact hpar) ?_
    exact ih (fun j hj => hc j (List.mem_cons_of_mem _ hj))

theorem ancestorWalk_succ (doc : Document) (fuel : Nat) (pid : ObjectId) :
    ancestorWalk doc (fuel + 1) pid =
      match doc.getObject pid with
      | some (.dict d) =>
        match lookupDict (decCount d) "Parent" with
        | some (.reference pp) =>
          ancestorWalk (doc.setObject pid (.dict (decCount d))) fuel pp
        | _ => some (doc.setObject pid (.dict (decCount d)))
      | _ => none := rfl

/-- Step 3 of `delete_page`: given a well-formed `Parent` chain and enough
fuel, the walk succeeds, replaces every ancestor dictionary by its
`decCount` image, and touches nothing else. -/
theorem ancestorWalk_spec :
    ∀ (anc : List ObjectId) (doc : Document) (start : ObjectId),
      ParentChainUp doc start anc → anc.Nodup →
      ∀ fuel, anc.length ≤ fuel →
      ∃ doc2, ancestorWalk doc fuel start = some doc2 ∧
        (∀ i ∈ anc, ∀ d, doc.getDict i = some d → doc2.getDict i = some (decCount d)) ∧
        (∀ j, j ∉ anc → doc2.getObject j = doc.getObject j) ∧
        doc2.trailer = doc.trailer ∧ doc2.maxId = doc.maxId ∧
        keysOf doc2 = keysOf doc := by
  intro anc
  induction anc with
  | nil =>
    intro doc start hchain
    cases hchain
  | cons a rest ih =>
    intro doc start hchain hnd fuel hfuel
    cases hchain with
    | root a d hd hnp =>
      cases fuel with
      | zero => exact absurd hfuel (by simp)
      | succ f =>
        have hobj : doc.getObject a = some (.dict d) := getObject_of_getDict doc a d hd
        have hpar : lookupDict (decCount d) "Parent" = lookupDict d "Parent" :=
          lookup_decCount_ne d "Parent" (by decide)
        have hred : ancestorWalk doc (f + 1) a
            = some (doc.setObject a (.dict (decCount d))) := by
          rw [ancestorWalk_succ, hobj]
          show (match lookupDict (decCount d) "Parent" with
              | some (Object.reference pp) =>
                ancestorWalk (doc.setObject a (Object.dict (decCount d))) f pp
              | _ => some (doc.setObject a (Object.dict (decCount d))))
            = some (doc.setObject a (Object.dict (decCount d)))
          rw [hpar]
          cases hpv : lookupDict d "Parent" with
          | none => rfl
          | some o =>
            cases o with
            | reference q => exact absurd hpv (hnp q)
            | null => rfl
            | boolean b => rfl
            | integer n => rfl
            | real r => rfl
            | name s => rfl
            | str s => rfl
            | array xs => rfl
            | dict dd => rfl
            | stream sd ops => rfl
        refine ⟨doc.setObject a (.dict (decCount d)), hred, ?_, ?_, rfl, rfl, ?_⟩
        · intro x hx d0 hd0
          have hxa : x = a := List.mem_singleton.mp hx
          subst hxa
          have hdd : d0 = d := by
            rw [hd0] at hd
            exact Option.some.inj hd
          subst hdd
          rw [Document.getDict, getObject_setObject_same]
        · intro j hj
          have hja : j ≠ a := fun he => hj (by rw [he]; exact List.mem_singleton.mpr rfl)
          exact getObject_setObject_ne doc a j _ hja
        · show (setIdEntry doc.objects a _).map (·.1) = doc.objects.map (·.1)
          exact keys_setIdEntry_mem doc.objects a _ (mem_keys_of_getDict doc a d hd)
    | step a d p2 rest hd hpar hrest =>
      have haNot : a ∉ rest := (List.nodup_cons.mp hnd).1
      have hndr : rest.Nodup := (List.nodup_cons.mp hnd).2
      cases fuel with
      | zero => exact absurd hfuel (by simp)
      | succ f =>
        have hobj : doc.getObject a = some (.dict d) := getObject_of_getDict doc a d hd
        have hpar2 : lookupDict (decCount d) "Parent" = some (.reference p2) := by
          rw [lookup_decCount_ne d "Parent" (by decide)]
          exact hpar
        have hstep2 : ancestorWalk doc (f + 1) a
            = ancestorWalk (doc.setObject a (.dict (decCount d))) f p2 := by
          rw [ancestorWalk_succ, hobj]
          show (match lookupDict (decCount d) "Parent" with
              | some (Object.reference pp) =>
                ancestorWalk (doc.setObject a (Object.dict (decCount d))) f pp
              | _ => some (doc.setObject a (Object.dict (decCount d))))
            = ancestorWalk (doc.setObject a (Object.dict (decCount d))) f p2
          rw [hpar2]
        have hchain2 : ParentChainUp (doc.setObject a (.dict (decCount d))) p2 rest := by
          refine parentChain_congr doc _ p2 rest hrest ?_
          intro j hj d0 hd0
          have hja : j ≠ a := fun he => haNot (by rw [show a = j from he.symm]; exact hj)
          refine ⟨d0, ?_, rfl⟩
          rw [getDict_congr_obj doc _ j (getObject_setObject_ne doc a j _ hja)]
          exact hd0
        have hflen : rest.length ≤ f := by
          rw [List.length_cons] at hfuel
          exact Nat.le_of_succ_le_succ hfuel
        obtain ⟨doc3, hwalk, hdec, hoth, htr, hmax, hkeys⟩ :=
          ih (doc.setObject a (.dict (decCount d))) p2 hchain2 hndr f hflen
        refine ⟨doc3, hstep2.trans hwalk, ?_, ?_, htr, hmax, ?_⟩
        · intro x hx d0 hd0
          rcases List.mem_cons.mp hx with hxa | hxr
          · subst hxa
            have hdd : d0 = d := by
              rw [hd0] at hd
              exact Option.some.inj hd
            subst hdd
            rw [Document.getDict, hoth x haNot, getObject_setObject_same]
          · refine hdec x hxr d0 ?_
            have hja : x ≠ a := fun he => haNot (by rw [show a = x from he.symm]; exact hxr)
            rw [getDict_congr_obj doc _ x (getObject_setObject_ne doc a x _ hja)]
            exact hd0
        · intro j hj
          have hja : j ≠ a := fun he => hj (by rw [he]; exact List.mem_cons_self _ _)
          have hjr : j ∉ rest := fun hm => hj (List.mem_cons_of_mem _ hm)
          rw [hoth j hjr]
          exact getObject_setObject_ne doc a j _ hja
        · refine hkeys.trans ?_
          show (setIdEntry doc.objects a _).map (·.1) = doc.objects.map (·.1)
          exact keys_setIdEntry_mem doc.objects a _ (mem_keys_of_getDict doc a d hd)


/-! ### C4: store removals, chains, node views -/

theorem fold_remove_lookup (cids : List ObjectId) :
    ∀ (objs : List (ObjectId × Object)) (i : ObjectId), i ∉ cids →
      lookupId (cids.foldl removeIdEntry objs) i = lookupId objs i := by
  induction cids with
  | nil =>
    intro objs i h
    rfl
  | cons c cs ih =>
    intro objs i h
    have hic : i ≠ c := fun he => h (by rw [he]; exact List.mem_cons_self _ _)
    have hics : i ∉ cs := fun hm => h (List.mem_cons_of_mem _ hm)
    show lookupId (cs.foldl removeIdEntry (removeIdEntry objs c)) i = lookupId objs i
    rw [ih (removeIdEntry objs c) i hics, lookupId_remove, if_neg hic]

theorem remove_lookup_none (objs : List (ObjectId × Object)) (x c : ObjectId)
    (h : lookupId objs c = none) : lookupId (removeIdEntry objs x) c = none := by
  rw [lookupId_remove]
  by_cases hc : c = x
  · rw [if_pos hc]
  · rw [if_neg hc]
    exact h

theorem fold_remove_none_pres (cids : List ObjectId) :
    ∀ objs c, lookupId objs c = none →
      lookupId (cids.foldl removeIdEntry objs) c = none := by
  induction cids with
  | nil =>
    intro objs c h
    exact h
  | cons x xs ih =>
    intro objs c h
    show lookupId (xs.foldl removeIdEntry (removeIdEntry objs x)) c = none
    exact ih _ c (remove_lookup_none objs x c h)

theorem fold_remove_none (cids : List ObjectId) :
    ∀ objs c, c ∈ cids → lookupId (cids.foldl removeIdEntry objs) c = none := by
  induction cids with
  | nil =>
    intro objs c h
    cases h
  | cons x xs ih =>
    intro objs c h
    show lookupId (xs.foldl removeIdEntry (removeIdEntry objs x)) c = none
    by_cases hcx : c = x
    · refine fold_remove_none_pres xs _ c ?_
      rw [lookupId_remove, if_pos hcx]
    · rcases List.mem_cons.mp h with he | hm
      · exact absurd he hcx
      · exact ih _ c hm

theorem mem_keys_remove (l : List (ObjectId × Object)) (x i : ObjectId)
    (hi : i ∈ l.map (·.1)) (hne : i ≠ x) :
    i ∈ (removeIdEntry l x).map (·.1) := by
  obtain ⟨p, hp, hpi⟩ := List.mem_map.mp hi
  refine List.mem_map.mpr ⟨p, ?_, hpi⟩
  refine List.mem_filter.mpr ⟨hp, ?_⟩
  simp only [decide_eq_true_eq]
  rw [hpi]
  exact hne

theorem mem_keys_fold_remove (cids : List ObjectId) :
    ∀ objs i, i ∈ objs.map (·.1) → i ∉ cids →
      i ∈ (cids.foldl removeIdEntry objs).map (·.1) := by
  induction cids with
  | nil =>
    intro objs i h hn
    exact h
  | cons c cs ih =>
    intro objs i h hn
    have hic : i ≠ c := fun he => hn (by rw [he]; exact List.mem_cons_self _ _)
    have hics : i ∉ cs := fun hm => hn (List.mem_cons_of_mem _ hm)
    show i ∈ (cs.foldl removeIdEntry (removeIdEntry objs c)).map (·.1)
    exact ih _ i (mem_keys_remove objs c i h hic) hics

theorem parentChain_head (doc : Document) (s : ObjectId) (anc : List ObjectId)
    (h : ParentChainUp doc s anc) : anc.head? = some s := by
  cases h with
  | root i d hd hnp => rfl
  | step i d p rest hd hpar hrest => rfl

theorem parentChain_dicts (doc : Document) (s : ObjectId) (anc : List ObjectId)
    (h : ParentChainUp doc s anc) : ∀ i ∈ anc, ∃ d, doc.getDict i = some d := by
  induction h with
  | root i d hd hnp =>
    intro x hx
    have he : x = i := List.mem_singleton.mp hx
    subst he
    exact ⟨d, hd⟩
  | step i d p rest hd hpar hrest ih =>
    intro x hx
    rcases List.mem_cons.mp hx with he | hm
    · subst he
      exact ⟨d, hd⟩
    · exact ih x hm

theorem nodeView_congr_obj (doc doc2 : Document) (i : ObjectId)
    (h : doc2.getObject i = doc.getObject i) : nodeView doc2 i = nodeView doc i := by
  rw [nodeView, nodeView, getDict_congr_obj doc doc2 i h]

theorem nodeView_decCount (doc doc2 : Document) (i : ObjectId) (d : Dict)
    (hd : doc.getDict i = some d) (hd2 : doc2.getDict i = some (decCount d)) :
    nodeView doc2 i = nodeView doc i := by
  rw [nodeView, nodeView, hd, hd2]
  show some (lookupDict (decCount d) "Type", lookupDict (decCount d) "Kids")
    = some (lookupDict d "Type", lookupDict d "Kids")
  rw [lookup_decCount_ne d "Type" (by decide), lookup_decCount_ne d "Kids" (by decide)]

theorem pid_not_idsList_removeLeafList (pid : ObjectId) :
    ∀ ks : List PTree, pid ∉ innerIdsList ks →
      pid ∉ idsList (removeLeafList pid ks)
  | [], _ => fun h => absurd h (List.not_mem_nil pid)
  | PTree.leaf j :: ts, h => by
    have hts : pid ∉ innerIdsList ts := fun hm => h (by
      show pid ∈ PTree.innerIds (.leaf j) ++ innerIdsList ts
      exact List.mem_append_right _ hm)
    rw [removeLeafList_cons]
    by_cases hj : j = pid
    · rw [if_pos (show (PTree.leaf j).rootId = pid from hj)]
      exact pid_not_idsList_removeLeafList pid ts hts
    · rw [if_neg (show ¬ (PTree.leaf j).rootId = pid from hj)]
      intro hm
      rcases List.mem_append.mp hm with h1 | h1
      · exact hj ((List.mem_singleton.mp h1).symm)
      · exact pid_not_idsList_removeLeafList pid ts hts h1
  | PTree.node j ks2 :: ts, h => by
    have hj : ¬ (PTree.node j ks2).rootId = pid := by
      intro he
      exact h (by
        show pid ∈ (j :: innerIdsList ks2) ++ innerIdsList ts
        exact List.mem_append_left _ (he ▸ List.mem_cons_self j _))
    have hks2 : pid ∉ innerIdsList ks2 := fun hm => h (by
      show pid ∈ (j :: innerIdsList ks2) ++ innerIdsList ts
      exact List.mem_append_left _ (List.mem_cons_of_mem _ hm))
    have hts : pid ∉ innerIdsList ts := fun hm => h (by
      show pid ∈ (j :: innerIdsList ks2) ++ innerIdsList ts
      exact List.mem_append_right _ hm)
    rw [removeLeafList_cons, if_neg hj]
    intro hm
    rcases List.mem_append.mp hm with h1 | h1
    · rcases List.mem_cons.mp h1 with h2 | h2
      · exact hj h2.symm
      · exact pid_not_idsList_removeLeafList pid ks2 hks2 h2
    · exact pid_not_idsList_removeLeafList pid ts hts h1
  termination_by ks => sizeOf ks

theorem length_filter_nodup (l : List ObjectId) (a : ObjectId)
    (hnd : l.Nodup) (ha : a ∈ l) :
    (l.filter (fun x => x ≠ a)).length + 1 = l.length := by
  induction l with
  | nil => cases ha
  | cons x xs ih =>
    obtain ⟨hxnot, hnd2⟩ := List.nodup_cons.mp hnd
    rw [List.filter_cons]
    by_cases hxa : x = a
    · subst hxa
      have hc : (decide (x ≠ x)) = false := by simp
      rw [hc]
      simp only [Bool.false_eq_true, if_false]
      have hself : xs.filter (fun y => y ≠ x) = xs :=
        List.filter_eq_self.mpr (fun b hb => by
          simp only [decide_eq_true_eq]
          exact fun hbx => hxnot (by rw [show x = b from hbx.symm]; exact hb))
      rw [hself]
      rfl
    · have hc : (decide (x ≠ a)) = true := by simp [hxa]
      rw [hc]
      simp only [if_true]
      have hm : a ∈ xs := by
        rcases List.mem_cons.mp ha with he | hm
        · exact absurd he.symm hxa
        · exact hm
      have hrec := ih hnd2 hm
      rw [List.length_cons, List.length_cons]
      omega

mutual

theorem represents_inner_dict (doc : Document) (t : PTree) (hrep : Represents doc t) :
    ∀ i ∈ t.innerIds, ∃ d arr, doc.getDict i = some d ∧
      lookupDict d "Type" = some (.name "Pages") ∧
      lookupDict d "Kids" = some (.array arr) := by
  match t, hrep with
  | .leaf i, .leaf _ d hd hty =>
    intro j hj
    exact absurd hj (List.not_mem_nil j)
  | .node i ks, .node _ d _ hd hty hkids hrk =>
    intro j hj
    rcases List.mem_cons.mp hj with he | hm
    · subst he
      exact ⟨d, ks.map (fun t2 => Object.reference t2.rootId), hd, hty, hkids⟩
    · exact repKids_inner_dict doc ks hrk j hm

theorem repKids_inner_dict (doc : Document) (ks : List PTree) (hrk : RepKids doc ks) :
    ∀ i ∈ innerIdsList ks, ∃ d arr, doc.getDict i = some d ∧
      lookupDict d "Type" = some (.name "Pages") ∧
      lookupDict d "Kids" = some (.array arr) := by
  match ks, hrk with
  | [], .nil =>
    intro j hj
    exact absurd hj (List.not_mem_nil j)
  | k :: ks2, .cons _ _ hk hks2 =>
    intro j hj
    rcases List.mem_append.mp hj with hh | hh
    · exact represents_inner_dict doc k hk j hh
    · exact repKids_inner_dict doc ks2 hks2 j hh

end


/-- Evaluation of `delete_page` once the page dictionary, its `Parent`
reference, and the parent object are known. -/
theorem delete_page_eval (doc : Document) (pid p1 : ObjectId) (pd dp : Dict)
    (hpd : doc.getDict pid = some pd)
    (hpar : lookupDict pd "Parent" = some (.reference p1))
    (hdp : doc.getObject p1 = some (.dict dp)) :
    delete_page doc pid =
      (let pdict2 :=
        match lookupDict dp "Kids" with
        | some (.array kids) =>
          setDict dp "Kids" (.array (kids.filter (keepKid pid)))
        | _ => dp
      let doc2 := doc.setObject p1 (.dict pdict2)
      match ancestorWalk doc2 (doc2.objects.length + 1) p1 with
      | none => none
      | some doc3 =>
        match doc3.getDict pid with
        | none => none
        | some pd3 =>
          let objs := (contentIds pd3).foldl removeIdEntry doc3.objects
          some { doc3 with objects := removeIdEntry objs pid }) := by
  unfold delete_page
  rw [hpd]
  show (match lookupDict pd "Parent" with
    | some (Object.reference parent_id) =>
      match doc.getObject parent_id with
      | some (Object.dict pdict) =>
        let pdict2 :=
          match lookupDict pdict "Kids" with
          | some (Object.array kids) =>
            setDict pdict "Kids" (Object.array (kids.filter (keepKid pid)))
          | _ => pdict
        let doc2 := doc.setObject parent_id (Object.dict pdict2)
        match ancestorWalk doc2 (doc2.objects.length + 1) parent_id with
        | none => none
        | some doc3 =>
          match doc3.getDict pid with
          | none => none
          | some pd3 =>
            let objs := (contentIds pd3).foldl removeIdEntry doc3.objects
            some { doc3 with objects := removeIdEntry objs pid }
      | _ => none
    | _ => none) = _
  rw [hpar]
  show (match doc.getObject p1 with
    | some (Object.dict pdict) =>
      let pdict2 :=
        match lookupDict pdict "Kids" with
        | some (Object.array kids) =>
          setDict pdict "Kids" (Object.array (kids.filter (keepKid pid)))
        | _ => pdict
      let doc2 := doc.setObject p1 (Object.dict pdict2)
      match ancestorWalk doc2 (doc2.objects.length + 1) p1 with
      | none => none
      | some doc3 =>
        match doc3.getDict pid with
        | none => none
        | some pd3 =>
          let objs := (contentIds pd3).foldl removeIdEntry doc3.objects
          some { doc3 with objects := removeIdEntry objs pid }
    | _ => none) = _
  rw [hdp]


theorem leafPath_shape (t : PTree) (pid : ObjectId) (anc : List ObjectId)
    (h : LeafPath t pid anc) : ∃ rid ks, t = .node rid ks := by
  cases h with
  | child i ks p hpm => exact ⟨i, ks, rfl⟩
  | deeper i ks k p anc2 hk hlp0 => exact ⟨i, ks, rfl⟩

/-- **C4.** Deleting a page that has a parent from a well-formed page tree:
the parent's `Kids` array loses exactly the reference to the page, every
ancestor's cached integer `Count` (the parent and all ancestors up to the
root) drops by exactly one, the page object and its content streams are
removed from the store, and the page list becomes the old one with the page
dropped — N−1 pages. -/
theorem delete_page_correct (doc : Document) (t : PTree) (pid p1 : ObjectId)
    (anc : List ObjectId) (pd : Dict)
    (hwf : WFDoc doc t)
    (hpd : doc.getDict pid = some pd)
    (hpdParent : lookupDict pd "Parent" = some (.reference p1))
    (hlp : LeafPath t pid anc)
    (hchain : ParentChainUp doc p1 anc)
    (hcids : ∀ c ∈ contentIds pd, c ∉ t.ids)
    (hcidcat : ∀ cid, lookupDict doc.trailer "Root" = some (.reference cid) →
        cid ≠ pid ∧ cid ∉ contentIds pd) :
    ∃ doc4, delete_page doc pid = some doc4 ∧
      (∀ i ∈ anc, ∀ d c, doc.getDict i = some d →
        lookupDict d "Count" = some (.integer c) →
        ∃ d4, doc4.getDict i = some d4 ∧
          lookupDict d4 "Count" = some (.integer (c - 1))) ∧
      (∀ dp0 arr, doc.getDict p1 = some dp0 →
        lookupDict dp0 "Kids" = some (.array arr) →
        ∃ dp4, doc4.getDict p1 = some dp4 ∧
          lookupDict dp4 "Kids" = some (.array (arr.filter (keepKid pid)))) ∧
      doc4.getObject pid = none ∧
      (∀ c ∈ contentIds pd, doc4.getObject c = none) ∧
      doc4.getPages = doc.getPages.filter (fun x => x ≠ pid) ∧
      doc4.getPages.length + 1 = doc.getPages.length := by
  obtain ⟨rid, ks, htEq⟩ := leafPath_shape t pid anc hlp
  subst htEq
  obtain ⟨hrep, hrootEq, hidsNodup, hidsSub, hkeysNodup, hkeysLe⟩ := hwf
  have hanc : anc.head? = some p1 := parentChain_head doc p1 anc hchain
  have hpleaf : pid ∈ (PTree.node rid ks).leaves := leafPath_pid_leaf _ pid anc hlp
  have hpid_ids : pid ∈ (PTree.node rid ks).ids :=
    (leaves_sublist_ids _).subset hpleaf
  have hancNodup : anc.Nodup := leafPath_nodup _ pid anc hlp hidsNodup
  have hancInner : ∀ x ∈ anc, x ∈ (PTree.node rid ks).innerIds :=
    leafPath_anc_inner _ pid anc hlp
  have hancIds : ∀ x ∈ anc, x ∈ (PTree.node rid ks).ids := fun x hx =>
    (ids_perm_inner_leaves _).mem_iff.mpr (List.mem_append_left _ (hancInner x hx))
  have hp1anc : p1 ∈ anc := by
    cases hchain with
    | root i d hd hnp => exact List.mem_singleton.mpr rfl
    | step i d p rest hd hpar hrest => exact List.mem_cons_self _ _
  have hpidNotInner : pid ∉ (PTree.node rid ks).innerIds := fun hm =>
    inner_not_leaf _ hidsNodup pid hm hpleaf
  have hpidNotAnc : pid ∉ anc := fun hm => hpidNotInner (hancInner pid hm)
  have hpid_ne_p1 : pid ≠ p1 := fun he => hpidNotAnc (by rw [he]; exact hp1anc)
  obtain ⟨dp, kidRefs, hdpDict, hdpTy, hdpKids⟩ :=
    represents_inner_dict doc _ hrep p1 (hancInner p1 hp1anc)
  set pdict2 := setDict dp "Kids" (.array (kidRefs.filter (keepKid pid))) with hpdict2
  set doc2 := doc.setObject p1 (.dict pdict2) with hdoc2
  have hobj_p1 : doc.getObject p1 = some (.dict dp) := getObject_of_getDict doc p1 dp hdpDict
  have heval := delete_page_eval doc pid p1 pd dp hpd hpdParent hobj_p1
  rw [hdpKids] at heval
  have hd2_p1 : doc2.getDict p1 = some pdict2 := by
    show (doc.setObject p1 (.dict pdict2)).getDict p1 = some pdict2
    rw [Document.getDict, getObject_setObject_same]
  have hobj2_ne : ∀ j, j ≠ p1 → doc2.getObject j = doc.getObject j := fun j hj =>
    getObject_setObject_ne doc p1 j _ hj
  have hchain2 : ParentChainUp doc2 p1 anc := by
    refine parentChain_congr doc doc2 p1 anc hchain ?_
    intro j hj d0 hd0
    by_cases hjp : j = p1
    · subst hjp
      have hcopy := hdpDict
      rw [hd0] at hcopy
      have hdd : d0 = dp := Option.some.inj hcopy
      refine ⟨pdict2, hd2_p1, ?_⟩
      rw [show d0 = dp from hdd]
      exact lookup_setDict_ne dp "Kids" "Parent" _ (by decide)
    · exact ⟨d0, by rw [getDict_congr_obj doc doc2 j (hobj2_ne j hjp)]; exact hd0, rfl⟩
  have hlen2 : doc2.objects.length = doc.objects.length := by
    show (setIdEntry doc.objects p1 (.dict pdict2)).length = doc.objects.length
    exact length_setIdEntry_mem doc.objects p1 _ (mem_keys_of_getDict doc p1 dp hdpDict)
  have hancSub : ∀ x ∈ anc, x ∈ keysOf doc := fun x hx => hidsSub x (hancIds x hx)
  have hfuel2 : anc.length ≤ doc2.objects.length + 1 := by
    have h1 : anc.length ≤ (keysOf doc).length := (hancNodup.subperm hancSub).length_le
    rw [length_keysOf] at h1
    omega
  obtain ⟨doc3, hwalk, hdec, hoth3, htr3, hmax3, hkeys3⟩ :=
    ancestorWalk_spec anc doc2 p1 hchain2 hancNodup (doc2.objects.length + 1) hfuel2
  have hobj3_pid : doc3.getObject pid = some (.dict pd) := by
    rw [hoth3 pid hpidNotAnc, hobj2_ne pid hpid_ne_p1]
    exact getObject_of_getDict doc pid pd hpd
  have hd3_pid : doc3.getDict pid = some pd := getDict_eq_of_obj doc3 pid pd hobj3_pid
  have heval2 : delete_page doc pid =
      (match ancestorWalk doc2 (doc2.objects.length + 1) p1 with
      | none => none
      | some doc3x =>
        match doc3x.getDict pid with
        | none => none
        | some pd3 =>
          let objs := (contentIds pd3).foldl removeIdEntry doc3x.objects
          some { doc3x with objects := removeIdEntry objs pid }) := heval
  rw [hwalk] at heval2
  have heval3 : delete_page doc pid =
      (match doc3.getDict pid with
      | none => none
      | some pd3 =>
        let objs := (contentIds pd3).foldl removeIdEntry doc3.objects
        some { doc3 with objects := removeIdEntry objs pid }) := heval2
  rw [hd3_pid] at heval3
  set objs4 := (contentIds pd).foldl removeIdEntry doc3.objects with hobjs4
  set doc4 := { doc3 with objects := removeIdEntry objs4 pid } with hdoc4v
  have heval4 : delete_page doc pid = some doc4 := heval3
  have hobj4_keep : ∀ j, j ≠ pid → j ∉ contentIds pd →
      doc4.getObject j = doc3.getObject j := by
    intro j hj hjc
    show lookupId (removeIdEntry objs4 pid) j = lookupId doc3.objects j
    rw [lookupId_remove, if_neg hj]
    show lookupId ((contentIds pd).foldl removeIdEntry doc3.objects) j
      = lookupId doc3.objects j
    exact fold_remove_lookup (contentIds pd) doc3.objects j hjc
  have hd3p1 : doc3.getDict p1 = some (decCount pdict2) := hdec p1 hp1anc pdict2 hd2_p1
  have hp1_ne_pid : p1 ≠ pid := fun he => hpid_ne_p1 he.symm
  have hp1_not_cids : p1 ∉ contentIds pd := fun hm => hcids p1 hm (hancIds p1 hp1anc)
  have hd4p1 : doc4.getDict p1 = some (decCount pdict2) := by
    rw [getDict_congr_obj doc3 doc4 p1 (hobj4_keep p1 hp1_ne_pid hp1_not_cids)]
    exact hd3p1
  have hp1prop : ∀ d0, doc.getDict p1 = some d0 → ∃ d2x, doc4.getDict p1 = some d2x ∧
      lookupDict d2x "Type" = lookupDict d0 "Type" ∧
      (∀ arr0, lookupDict d0 "Kids" = some (.array arr0) →
        lookupDict d2x "Kids" = some (.array (arr0.filter (keepKid pid)))) := by
    intro d0 hd0
    have hcopy := hdpDict
    rw [hd0] at hcopy
    have hdd2 : dp = d0 := (Option.some.inj hcopy).symm
    subst hdd2
    refine ⟨decCount pdict2, hd4p1, ?_, ?_⟩
    · rw [lookup_decCount_ne pdict2 "Type" (by decide)]
      exact lookup_setDict_ne dp "Kids" "Type" _ (by decide)
    · intro arr0 harr0
      have hcopy2 := hdpKids
      rw [harr0] at hcopy2
      have harr2 : arr0 = kidRefs := Object.array.inj (Option.some.inj hcopy2)
      subst harr2
      rw [lookup_decCount_ne pdict2 "Kids" (by decide)]
      exact lookup_setDict_same dp "Kids" _
  have hnv4 : ∀ i ∈ (PTree.node rid ks).ids, i ≠ pid → i ≠ p1 →
      nodeView doc4 i = nodeView doc i := by
    intro i hiids hip hjp1
    have hi_not_cids : i ∉ contentIds pd := fun hm => hcids i hm hiids
    have h43 : doc4.getObject i = doc3.getObject i := hobj4_keep i hip hi_not_cids
    by_cases hia : i ∈ anc
    · obtain ⟨di, hdi⟩ := parentChain_dicts doc p1 anc hchain i hia
      have hd2i : doc2.getDict i = some di := by
        rw [getDict_congr_obj doc doc2 i (hobj2_ne i hjp1)]
        exact hdi
      have hd3i : doc3.getDict i = some (decCount di) := hdec i hia di hd2i
      have hd4i : doc4.getDict i = some (decCount di) := by
        rw [getDict_congr_obj doc3 doc4 i h43]
        exact hd3i
      exact nodeView_decCount doc doc4 i di hdi hd4i
    · have h32 : doc3.getObject i = doc2.getObject i := hoth3 i hia
      have h20 : doc2.getObject i = doc.getObject i := hobj2_ne i hjp1
      exact nodeView_congr_obj doc doc4 i (h43.trans (h32.trans h20))
  have hrep4 : Represents doc4 ((PTree.node rid ks).removeLeaf pid) :=
    represents_removeLeaf doc doc4 p1 pid _ anc hlp hp1prop hanc hidsNodup hnv4 hrep
  have hroot4 : pages_root_id doc4 = some ((PTree.node rid ks).removeLeaf pid).rootId := by
    obtain ⟨cid, cat, hrootT, hcatD, hcatP⟩ :=
      pages_root_id_some doc (PTree.node rid ks).rootId hrootEq
    obtain ⟨hcid_pid, hcid_cids⟩ := hcidcat cid hrootT
    have h2 : ∃ c2, doc2.getDict cid = some c2 ∧
        lookupDict c2 "Pages" = lookupDict cat "Pages" := by
      by_cases hcp : cid = p1
      · subst hcp
        have hcopy := hdpDict
        rw [hcatD] at hcopy
        have hdd : cat = dp := Option.some.inj hcopy
        refine ⟨pdict2, hd2_p1, ?_⟩
        rw [show cat = dp from hdd]
        exact lookup_setDict_ne dp "Kids" "Pages" _ (by decide)
      · exact ⟨cat, by rw [getDict_congr_obj doc doc2 cid (hobj2_ne cid hcp)]; exact hcatD, rfl⟩
    obtain ⟨c2, hc2, hc2P⟩ := h2
    have h3 : ∃ c3, doc3.getDict cid = some c3 ∧
        lookupDict c3 "Pages" = lookupDict c2 "Pages" := by
      by_cases hca : cid ∈ anc
      · exact ⟨decCount c2, hdec cid hca c2 hc2, lookup_decCount_ne c2 "Pages" (by decide)⟩
      · exact ⟨c2, by rw [getDict_congr_obj doc2 doc3 cid (hoth3 cid hca)]; exact hc2, rfl⟩
    obtain ⟨c3, hc3, hc3P⟩ := h3
    have hc4 : doc4.getDict cid = some c3 := by
      rw [getDict_congr_obj doc3 doc4 cid (hobj4_keep cid hcid_pid hcid_cids)]
      exact hc3
    have htrail4 : lookupDict doc4.trailer "Root" = some (.reference cid) := by
      show lookupDict doc3.trailer "Root" = some (.reference cid)
      rw [htr3]
      show lookupDict doc.trailer "Root" = some (.reference cid)
      exact hrootT
    have hPages4 : lookupDict c3 "Pages"
        = some (.reference ((PTree.node rid ks).removeLeaf pid).rootId) := by
      rw [hc3P, hc2P, hcatP, rootId_removeLeaf]
    exact pages_root_id_of_parts doc4 cid _ c3 htrail4 hc4 hPages4
  have hpid_not4 : pid ∉ ((PTree.node rid ks).removeLeaf pid).ids := by
    show pid ∉ rid :: idsList (removeLeafList pid ks)
    intro hm
    rcases List.mem_cons.mp hm with he | hm2
    · exact leafPath_root_ne _ pid anc hlp hidsNodup he.symm
    · refine pid_not_idsList_removeLeafList pid ks ?_ hm2
      exact fun hmm => hpidNotInner (List.mem_cons_of_mem _ hmm)
  have hnd4 : ((PTree.node rid ks).removeLeaf pid).ids.Nodup :=
    hidsNodup.sublist (ids_removeLeaf_sublist pid _)
  have hsub4 : ∀ i ∈ ((PTree.node rid ks).removeLeaf pid).ids, i ∈ keysOf doc4 := by
    intro i hi
    have hit : i ∈ (PTree.node rid ks).ids := (ids_removeLeaf_sublist pid _).subset hi
    have hikeys : i ∈ keysOf doc := hidsSub i hit
    have hip : i ≠ pid := fun he => hpid_not4 (he ▸ hi)
    have hic : i ∉ contentIds pd := fun hm => hcids i hm hit
    show i ∈ (removeIdEntry objs4 pid).map (·.1)
    refine mem_keys_remove objs4 pid i ?_ hip
    show i ∈ ((contentIds pd).foldl removeIdEntry doc3.objects).map (·.1)
    refine mem_keys_fold_remove (contentIds pd) doc3.objects i ?_ hic
    have h1 : keysOf doc3 = keysOf doc := by
      rw [hkeys3]
      show (setIdEntry doc.objects p1 (.dict pdict2)).map (·.1) = doc.objects.map (·.1)
      exact keys_setIdEntry_mem doc.objects p1 _ (mem_keys_of_getDict doc p1 dp hdpDict)
    show i ∈ keysOf doc3
    rw [h1]
    exact hikeys
  have hfuel4 : ((PTree.node rid ks).removeLeaf pid).needFuel ≤ doc4.objects.length + 1 :=
    wf_fuel doc4 _ hnd4 hsub4
  have hleaves4 : ((PTree.node rid ks).removeLeaf pid).leaves
      = (PTree.node rid ks).leaves.filter (fun x => x ≠ pid) := by
    show leavesList (removeLeafList pid ks) = (leavesList ks).filter (fun x => x ≠ pid)
    refine leavesList_removeLeaf pid ks ?_
    exact fun hmm => hpidNotInner (List.mem_cons_of_mem _ hmm)
  have hpagesDoc : doc.getPages = (PTree.node rid ks).leaves :=
    getPages_of_represents doc _ hrep hrootEq (wf_fuel doc _ hidsNodup hidsSub)
  have hpagesEq : doc4.getPages = doc.getPages.filter (fun x => x ≠ pid) := by
    rw [getPages_of_represents doc4 _ hrep4 hroot4 hfuel4, hleaves4, hpagesDoc]
  have hlenEq : doc4.getPages.length + 1 = doc.getPages.length := by
    rw [hpagesEq, hpagesDoc]
    exact length_filter_nodup _ pid (hidsNodup.sublist (leaves_sublist_ids _)) hpleaf
  refine ⟨doc4, heval4, ?_, ?_, ?_, ?_, hpagesEq, hlenEq⟩
  · intro i hi d c hd0 hc0
    have hd2i : ∃ dd, doc2.getDict i = some dd ∧
        lookupDict dd "Count" = lookupDict d "Count" := by
      by_cases hip : i = p1
      · subst hip
        have hcopy := hdpDict
        rw [hd0] at hcopy
        have hdd : d = dp := Option.some.inj hcopy
        refine ⟨pdict2, hd2_p1, ?_⟩
        rw [show d = dp from hdd]
        exact lookup_setDict_ne dp "Kids" "Count" _ (by decide)
      · exact ⟨d, by rw [getDict_congr_obj doc doc2 i (hobj2_ne i hip)]; exact hd0, rfl⟩
    obtain ⟨dd, hd2i, hcnt2⟩ := hd2i
    have hd3i : doc3.getDict i = some (decCount dd) := hdec i hi dd hd2i
    have hi_ne_pid : i ≠ pid := fun he =>
      hpidNotAnc (by rw [show pid = i from he.symm]; exact hi)
    have hi_not_cids : i ∉ contentIds pd := fun hm => hcids i hm (hancIds i hi)
    have hd4i : doc4.getDict i = some (decCount dd) := by
      rw [getDict_congr_obj doc3 doc4 i (hobj4_keep i hi_ne_pid hi_not_cids)]
      exact hd3i
    refine ⟨decCount dd, hd4i, ?_⟩
    refine lookup_decCount_count dd c ?_
    rw [hcnt2]
    exact hc0
  · intro dp0 arr hdp0 harr
    have hcopy := hdpDict
    rw [hdp0] at hcopy
    have hdd2 : dp = dp0 := (Option.some.inj hcopy).symm
    subst hdd2
    have hcopy2 := hdpKids
    rw [harr] at hcopy2
    have harr2 : arr = kidRefs := Object.array.inj (Option.some.inj hcopy2)
    subst harr2
    refine ⟨decCount pdict2, hd4p1, ?_⟩
    rw [lookup_decCount_ne pdict2 "Kids" (by decide)]
    exact lookup_setDict_same dp "Kids" _
  · show lookupId (removeIdEntry objs4 pid) pid = none
    rw [lookupId_remove, if_pos rfl]
  · intro c hc
    have hcpid : c ≠ pid := fun he => hcids c hc (by rw [he]; exact hpid_ids)
    show lookupId (removeIdEntry objs4 pid) c = none
    rw [lookupId_remove, if_neg hcpid]
    show lookupId ((contentIds pd).foldl removeIdEntry doc3.objects) c = none
    exact fold_remove_none (contentIds pd) doc3.objects c hc


/-- Witness for C4: deleting the single page of `blank_page_doc` succeeds,
removes the page object, and leaves zero pages. -/
theorem delete_page_correct_wit :
    ∃ doc4, delete_page (blank_page_doc 612 792) (2, 0) = some doc4 ∧
      doc4.getObject (2, 0) = none ∧
      doc4.getPages.length + 1 = (blank_page_doc 612 792).getPages.length := by
  obtain ⟨doc4, h1, h2, h3, h4, h5, h6, h7⟩ :=
    delete_page_correct (blank_page_doc 612 792) (.node (1, 0) [.leaf (2, 0)])
      (2, 0) (1, 0) [(1, 0)]
      [("Type", Object.name "Page"), ("Parent", Object.reference (1, 0)),
       ("MediaBox", boxArray 612 792), ("CropBox", boxArray 612 792),
       ("Resources", Object.dict []), ("Contents", Object.reference (3, 0))]
      ⟨Represents.node (1, 0) _ [.leaf (2, 0)] rfl rfl rfl
        (RepKids.cons _ _ (Represents.leaf (2, 0) _ rfl rfl) RepKids.nil),
       rfl, by decide, by decide, by decide, by decide⟩
      rfl rfl
      (LeafPath.child (1, 0) [.leaf (2, 0)] (2, 0) (List.mem_singleton.mpr rfl))
      (ParentChainUp.root (1, 0)
        [("Type", Object.name "Pages"), ("Kids", Object.array [Object.reference (2, 0)]),
         ("Count", Object.integer 1)] rfl (fun p h => nomatch h))
      (by decide)
      (fun cid h => by
        have hc2 : some (Object.reference (4, 0)) = some (Object.reference cid) := h
        have hc3 : ((4, 0) : ObjectId) = cid := Object.reference.inj (Option.some.inj hc2)
        rw [← hc3]
        exact ⟨by decide, by decide⟩)
  exact ⟨doc4, h1, h4, h7⟩


/-! ### C10: `apply_inner_margin` skips pages without content streams -/

theorem mem_keys_setIdEntry (l : List (ObjectId × Object)) (id j : ObjectId) (v : Object)
    (h : j ∈ l.map (·.1)) : j ∈ (setIdEntry l id v).map (·.1) := by
  induction l with
  | nil => cases h
  | cons p rest ih =>
    obtain ⟨pk, pv⟩ := p
    by_cases hp : pk = id
    · rw [setIdEntry, if_pos hp, List.map_cons]
      rcases List.mem_cons.mp h with he | hm
      · rw [show j = pk from he, hp]
        exact List.mem_cons_self _ _
      · exact List.mem_cons_of_mem _ hm
    · rw [setIdEntry, if_neg hp, List.map_cons]
      rcases List.mem_cons.mp h with he | hm
      · rw [show j = pk from he]
        exact List.mem_cons_self _ _
      · exact List.mem_cons_of_mem _ (ih hm)

theorem keys_setIdEntry_subset (l : List (ObjectId × Object)) (id j : ObjectId) (v : Object)
    (h : j ∈ (setIdEntry l id v).map (·.1)) : j = id ∨ j ∈ l.map (·.1) := by
  induction l with
  | nil =>
    rcases List.mem_cons.mp h with he | hm
    · exact Or.inl he
    · cases hm
  | cons p rest ih =>
    obtain ⟨pk, pv⟩ := p
    by_cases hp : pk = id
    · rw [setIdEntry, if_pos hp, List.map_cons] at h
      rcases List.mem_cons.mp h with he | hm
      · exact Or.inl he
      · exact Or.inr (List.mem_cons_of_mem _ hm)
    · rw [setIdEntry, if_neg hp, List.map_cons] at h
      rcases List.mem_cons.mp h with he | hm
      · exact Or.inr (by rw [he]; exact List.mem_cons_self _ _)
      · rcases ih hm with h1 | h1
        · exact Or.inl h1
        · exact Or.inr (List.mem_cons_of_mem _ h1)

theorem apply_inner_margin_step_skip (sl sr : BRect) (i : Nat) (doc : Document)
    (pid : ObjectId) (pb : ℚ × ℚ × ℚ × ℚ)
    (hbox : effective_page_box doc pid = some pb)
    (hstr : page_content_streams doc pid = some []) :
    apply_inner_margin_step sl sr i doc pid = some doc := by
  unfold apply_inner_margin_step
  rw [hbox]
  show (match page_content_streams doc pid with
    | none => none
    | some [] => some doc
    | some old_streams => wrapPage doc pid pb
        (inner_fit (((page_ink_bbox doc pid).getD pb).1)
          (((page_ink_bbox doc pid).getD pb).2.1)
          (((page_ink_bbox doc pid).getD pb).2.2.1)
          (((page_ink_bbox doc pid).getD pb).2.2.2)
          ((shrink_safe (select_safe sl sr i)).1)
          ((shrink_safe (select_safe sl sr i)).2.1)
          ((shrink_safe (select_safe sl sr i)).2.2.1)
          ((shrink_safe (select_safe sl sr i)).2.2.2)) old_streams) = some doc
  rw [hstr]

theorem apply_inner_margin_step_wrap (sl sr : BRect) (i : Nat) (doc : Document)
    (pid : ObjectId) (pb : ℚ × ℚ × ℚ × ℚ) (s : Dict × List Op) (ss : List (Dict × List Op))
    (hbox : effective_page_box doc pid = some pb)
    (hstr : page_content_streams doc pid = some (s :: ss)) :
    apply_inner_margin_step sl sr i doc pid = wrapPage doc pid pb
      (inner_fit (((page_ink_bbox doc pid).getD pb).1)
        (((page_ink_bbox doc pid).getD pb).2.1)
        (((page_ink_bbox doc pid).getD pb).2.2.1)
        (((page_ink_bbox doc pid).getD pb).2.2.2)
        ((shrink_safe (select_safe sl sr i)).1)
        ((shrink_safe (select_safe sl sr i)).2.1)
        ((shrink_safe (select_safe sl sr i)).2.2.1)
        ((shrink_safe (select_safe sl sr i)).2.2.2)) (s :: ss) := by
  unfold apply_inner_margin_step
  rw [hbox]
  show (match page_content_streams doc pid with
    | none => none
    | some [] => some doc
    | some old_streams => wrapPage doc pid pb
        (inner_fit (((page_ink_bbox doc pid).getD pb).1)
          (((page_ink_bbox doc pid).getD pb).2.1)
          (((page_ink_bbox doc pid).getD pb).2.2.1)
          (((page_ink_bbox doc pid).getD pb).2.2.2)
          ((shrink_safe (select_safe sl sr i)).1)
          ((shrink_safe (select_safe sl sr i)).2.1)
          ((shrink_safe (select_safe sl sr i)).2.2.1)
          ((shrink_safe (select_safe sl sr i)).2.2.2)) old_streams) = _
  rw [hstr]

theorem apply_inner_margin_step_none (sl sr : BRect) (i : Nat) (doc : Document)
    (pid : ObjectId) (pb : ℚ × ℚ × ℚ × ℚ)
    (hbox : effective_page_box doc pid = some pb)
    (hstr : page_content_streams doc pid = none) :
    apply_inner_margin_step sl sr i doc pid = none := by
  unfold apply_inner_margin_step
  rw [hbox]
  show (match page_content_streams doc pid with
    | none => none
    | some [] => some doc
    | some old_streams => wrapPage doc pid pb
        (inner_fit (((page_ink_bbox doc pid).getD pb).1)
          (((page_ink_bbox doc pid).getD pb).2.1)
          (((page_ink_bbox doc pid).getD pb).2.2.1)
          (((page_ink_bbox doc pid).getD pb).2.2.2)
          ((shrink_safe (select_safe sl sr i)).1)
          ((shrink_safe (select_safe sl sr i)).2.1)
          ((shrink_safe (select_safe sl sr i)).2.2.1)
          ((shrink_safe (select_safe sl sr i)).2.2.2)) old_streams) = none
  rw [hstr]

theorem apply_inner_margin_step_nobox (sl sr : BRect) (i : Nat) (doc : Document)
    (pid : ObjectId) (hbox : effective_page_box doc pid = none) :
    apply_inner_margin_step sl sr i doc pid = none := by
  unfold apply_inner_margin_step
  rw [hbox]

theorem streamsOfArr_nil_congr (doc doc2 : Document) :
    ∀ arr, streamsOfArr doc arr = some [] → streamsOfArr doc2 arr = some [] := by
  intro arr
  induction arr with
  | nil =>
    intro h
    rfl
  | cons o rest ih =>
    intro h
    cases o with
    | reference id =>
      exfalso
      rw [streamsOfArr] at h
      cases hs : doc.getStream id with
      | none =>
        rw [hs] at h
        cases h
      | some s =>
        rw [hs] at h
        cases hr : streamsOfArr doc rest with
        | none =>
          rw [hr] at h
          cases h
        | some l =>
          rw [hr] at h
          cases h
    | null => exact ih h
    | boolean b => exact ih h
    | integer n => exact ih h
    | real r => exact ih h
    | name s => exact ih h
    | str s => exact ih h
    | array xs => exact ih h
    | dict d => exact ih h
    | stream sd ops => exact ih h

theorem page_content_streams_nil_congr (doc doc2 : Document) (pid : ObjectId)
    (hobj : doc2.getObject pid = doc.getObject pid)
    (h : page_content_streams doc pid = some []) :
    page_content_streams doc2 pid = some [] := by
  rw [page_content_streams] at h ⊢
  rw [getDict_congr_obj doc doc2 pid hobj]
  cases hpd : doc.getDict pid with
  | none =>
    rw [hpd] at h
    cases h
  | some page =>
    rw [hpd] at h
    have h2 : (match lookupDict page "Contents" with
      | some (Object.reference cid) => (doc.getStream cid).map (fun s => [s])
      | some (Object.array arr) => streamsOfArr doc arr
      | some (Object.stream sd ops) => some [(sd, ops)]
      | some _ => some []
      | none => some []) = some [] := h
    show (match lookupDict page "Contents" with
      | some (Object.reference cid) => (doc2.getStream cid).map (fun s => [s])
      | some (Object.array arr) => streamsOfArr doc2 arr
      | some (Object.stream sd ops) => some [(sd, ops)]
      | some _ => some []
      | none => some []) = some []
    cases hct : lookupDict page "Contents" with
    | none => rfl
    | some o =>
      rw [hct] at h2
      cases o with
      | reference cid =>
        exfalso
        have h3 : (doc.getStream cid).map (fun s => [s]) = some [] := h2
        cases hs : doc.getStream cid with
        | none =>
          rw [hs] at h3
          cases h3
        | some s =>
          rw [hs] at h3
          exact absurd (Option.some.inj h3) (List.cons_ne_nil s [])
      | array arr =>
        have h3 : streamsOfArr doc arr = some [] := h2
        show streamsOfArr doc2 arr = some []
        exact streamsOfArr_nil_congr doc doc2 arr h3
      | stream sd ops =>
        have h3 : (some [(sd, ops)] : Option (List (Dict × List Op))) = some [] := h2
        exact absurd (Option.some.inj h3) (List.cons_ne_nil (sd, ops) [])
      | null => rfl
      | boolean b => rfl
      | integer n => rfl
      | real r => rfl
      | name s => rfl
      | str s => rfl
      | dict d => rfl

theorem applyInnerMarginLoop_cons (sl sr : BRect) (doc : Document) (i : Nat)
    (pid : ObjectId) (rest : List (Nat × ObjectId)) :
    applyInnerMarginLoop sl sr doc ((i, pid) :: rest) =
      match apply_inner_margin_step sl sr i doc pid with
      | none => none
      | some doc2 => applyInnerMarginLoop sl sr doc2 rest := rfl


/-- Frame of `wrapPage`: wrapping page `q` only rewrites `q`'s dictionary
and stores two fresh objects above `maxId`; every other stored object is
untouched, the stored keys only grow, and the key/maxId bound is kept. -/
theorem wrapPage_frame (doc : Document) (q : ObjectId) (pb : ℚ × ℚ × ℚ × ℚ)
    (fit : ℚ × ℚ × ℚ) (strs : List (Dict × List Op)) (docm : Document)
    (h : wrapPage doc q pb fit strs = some docm)
    (hle : ∀ id ∈ keysOf doc, id.1 ≤ doc.maxId)
    (hq : q ∈ keysOf doc) :
    (∀ j, j ∈ keysOf doc → j ≠ q → docm.getObject j = doc.getObject j) ∧
    (∀ id ∈ keysOf docm, id.1 ≤ docm.maxId) ∧
    (∀ j, j ∈ keysOf doc → j ∈ keysOf docm) := by
  unfold wrapPage at h
  cases hpage : doc.getDict q with
  | none =>
    rw [hpage] at h
    cases h
  | some page_ro =>
    rw [hpage] at h
    set FD0 : Dict :=
      [("Type", Object.name "XObject"), ("Subtype", Object.name "Form"),
       ("FormType", Object.integer 1),
       ("BBox", Object.array [Object.real pb.1, Object.real pb.2.1,
         Object.real pb.2.2.1, Object.real pb.2.2.2])] with hFD0
    set FD : Dict :=
      (match lookupDict page_ro "Resources" with
       | some obj =>
         match obj_as_dict_owned obj doc with
         | some res => setDict FD0 "Resources" (Object.dict res)
         | none => FD0
       | none => FD0) with hFD
    set F1 : ObjectId := (doc.maxId + 1, 0) with hF1
    set F2 : ObjectId := (doc.maxId + 2, 0) with hF2
    set CC : List Op := strs.flatMap (·.2) with hCC
    set DRAW : List Op :=
      [("q", []),
       ("cm", [Object.real fit.1, Object.real 0, Object.real 0, Object.real fit.1,
         Object.real fit.2.1, Object.real fit.2.2]),
       ("Do", [Object.name "CNT"]),
       ("Q", [])] with hDRAW
    set OBJS2 := setIdEntry doc.objects F1 (Object.stream FD CC) with hOBJS2
    set OBJS3 := setIdEntry OBJS2 F2 (Object.stream [] DRAW) with hOBJS3
    set DOC4 : Document :=
      { objects := OBJS3, trailer := doc.trailer, maxId := doc.maxId + 2 } with hDOC4
    have h2 : (match DOC4.getObject q with
      | some (Object.dict pd) =>
        some (DOC4.setObject q (Object.dict
          (setDict (setDict pd "Resources"
            (Object.dict [("XObject", Object.dict [("CNT", Object.reference F1)])]))
            "Contents" (Object.reference F2))))
      | _ => none) = some docm := h
    have hqF1 : q ≠ F1 := by
      intro he
      have h1 := hle q hq
      have h2x := congrArg Prod.fst he
      rw [hF1] at h2x
      omega
    have hqF2 : q ≠ F2 := by
      intro he
      have h1 := hle q hq
      have h2x := congrArg Prod.fst he
      rw [hF2] at h2x
      omega
    have hDOC4q : DOC4.getObject q = some (.dict page_ro) := by
      show lookupId OBJS3 q = some (.dict page_ro)
      rw [hOBJS3, lookupId_set_ne _ _ _ _ hqF2, hOBJS2, lookupId_set_ne _ _ _ _ hqF1]
      exact getObject_of_getDict doc q page_ro hpage
    rw [hDOC4q] at h2
    have hdocm : docm = DOC4.setObject q (Object.dict
        (setDict (setDict page_ro "Resources"
          (Object.dict [("XObject", Object.dict [("CNT", Object.reference F1)])]))
          "Contents" (Object.reference F2))) := (Option.some.inj h2).symm
    refine ⟨?_, ?_, ?_⟩
    · intro j hj hjq
      rw [hdocm]
      have hjF1 : j ≠ F1 := by
        intro he
        have h1 := hle j hj
        have h2x := congrArg Prod.fst he
        rw [hF1] at h2x
        omega
      have hjF2 : j ≠ F2 := by
        intro he
        have h1 := hle j hj
        have h2x := congrArg Prod.fst he
        rw [hF2] at h2x
        omega
      rw [getObject_setObject_ne DOC4 q j _ hjq]
      show lookupId OBJS3 j = lookupId doc.objects j
      rw [hOBJS3, lookupId_set_ne _ _ _ _ hjF2, hOBJS2, lookupId_set_ne _ _ _ _ hjF1]
    · intro id hid
      have hqOBJS3 : q ∈ OBJS3.map (·.1) := by
        rw [hOBJS3, hOBJS2]
        exact mem_keys_setIdEntry _ F2 q _ (mem_keys_setIdEntry _ F1 q _ hq)
      have hkeysm : keysOf docm = OBJS3.map (·.1) := by
        rw [hdocm]
        show (setIdEntry OBJS3 q _).map (·.1) = OBJS3.map (·.1)
        exact keys_setIdEntry_mem OBJS3 q _ hqOBJS3
      rw [hkeysm] at hid
      have hmax : docm.maxId = doc.maxId + 2 := by rw [hdocm]; rfl
      rw [hmax]
      rw [hOBJS3] at hid
      rcases keys_setIdEntry_subset OBJS2 F2 id _ hid with he | hid2
      · rw [he, hF2]
      · rw [hOBJS2] at hid2
        rcases keys_setIdEntry_subset doc.objects F1 id _ hid2 with he | hid3
        · rw [he, hF1]
          omega
        · have := hle id hid3
          omega
    · intro j hj
      have hqOBJS3 : q ∈ OBJS3.map (·.1) := by
        rw [hOBJS3, hOBJS2]
        exact mem_keys_setIdEntry _ F2 q _ (mem_keys_setIdEntry _ F1 q _ hq)
      have hkeysm : keysOf docm = OBJS3.map (·.1) := by
        rw [hdocm]
        show (setIdEntry OBJS3 q _).map (·.1) = OBJS3.map (·.1)
        exact keys_setIdEntry_mem OBJS3 q _ hqOBJS3
      rw [hkeysm, hOBJS3, hOBJS2]
      exact mem_keys_setIdEntry _ F2 j _ (mem_keys_setIdEntry _ F1 j _ hj)


/-- Frame of the page loop of `apply_inner_margin`: a stored page whose
content-stream list is empty is never touched, whatever the loop does to
the other pages. -/
theorem applyInnerMarginLoop_frame (sl sr : BRect) :
    ∀ (pairs : List (Nat × ObjectId)) (doc doc2 : Document) (pid : ObjectId),
      applyInnerMarginLoop sl sr doc pairs = some doc2 →
      (∀ id ∈ keysOf doc, id.1 ≤ doc.maxId) →
      pid ∈ keysOf doc →
      page_content_streams doc pid = some [] →
      doc2.getObject pid = doc.getObject pid := by
  intro pairs
  induction pairs with
  | nil =>
    intro doc doc2 pid h hle hmem hempty
    have he : doc = doc2 := Option.some.inj h
    rw [← he]
  | cons pr rest ih =>
    intro doc doc2 pid h hle hmem hempty
    obtain ⟨i, q⟩ := pr
    rw [applyInnerMarginLoop_cons] at h
    cases hstep : apply_inner_margin_step sl sr i doc q with
    | none =>
      rw [hstep] at h
      cases h
    | some docm =>
      rw [hstep] at h
      have h2 : applyInnerMarginLoop sl sr docm rest = some doc2 := h
      cases hbox : effective_page_box doc q with
      | none =>
        rw [apply_inner_margin_step_nobox sl sr i doc q hbox] at hstep
        cases hstep
      | some pb =>
        cases hstr : page_content_streams doc q with
        | none =>
          rw [apply_inner_margin_step_none sl sr i doc q pb hbox hstr] at hstep
          cases hstep
        | some l =>
          cases l with
          | nil =>
            have hid : apply_inner_margin_step sl sr i doc q = some doc :=
              apply_inner_margin_step_skip sl sr i doc q pb hbox hstr
            have hdm : docm = doc := (Option.some.inj (hid.symm.trans hstep)).symm
            subst hdm
            exact ih docm doc2 pid h2 hle hmem hempty
          | cons s ss =>
            have hwrap := (apply_inner_margin_step_wrap sl sr i doc q pb s ss hbox hstr).symm.trans hstep
            have hqkeys : q ∈ keysOf doc := by
              rw [page_content_streams] at hstr
              cases hq : doc.getDict q with
              | none =>
                rw [hq] at hstr
                cases hstr
              | some pg => exact mem_keys_of_getDict doc q pg hq
            obtain ⟨hframe, hlem, hsupm⟩ :=
              wrapPage_frame doc q pb _ (s :: ss) docm hwrap hle hqkeys
            have hqpid : pid ≠ q := by
              intro he
              rw [he] at hempty
              rw [hempty] at hstr
              exact List.cons_ne_nil s ss (Option.some.inj hstr).symm
            have hobjm : docm.getObject pid = doc.getObject pid := hframe pid hmem hqpid
            have hmemm : pid ∈ keysOf docm := hsupm pid hmem
            have hemptym : page_content_streams docm pid = some [] :=
              page_content_streams_nil_congr doc docm pid hobjm hempty
            have hrest := ih docm doc2 pid h2 hlem hmemm hemptym
            rw [hrest, hobjm]

/-- **C10.** `apply_inner_margin` leaves a page without content streams
completely unchanged: the page's own loop iteration returns the document
untouched (no Form XObject, no transform program, no dictionary rewrite),
and across the whole page loop the page's stored object — hence its
`Contents` and `Resources` entries — is exactly what it was. -/
theorem apply_inner_margin_empty_page_unchanged (sl sr : BRect) (i : Nat)
    (doc : Document) (pid : ObjectId) (pb : ℚ × ℚ × ℚ × ℚ)
    (hbox : effective_page_box doc pid = some pb)
    (hempty : page_content_streams doc pid = some []) :
    apply_inner_margin_step sl sr i doc pid = some doc ∧
    (∀ pairs doc2, applyInnerMarginLoop sl sr doc pairs = some doc2 →
      (∀ id ∈ keysOf doc, id.1 ≤ doc.maxId) →
      pid ∈ keysOf doc →
      doc2.getObject pid = doc.getObject pid) :=
  ⟨apply_inner_margin_step_skip sl sr i doc pid pb hbox hempty,
   fun pairs doc2 h hle hmem =>
     applyInnerMarginLoop_frame sl sr pairs doc doc2 pid h hle hmem hempty⟩

/-- Witness for C10: the page of `trimBoxDoc` has no `Contents` entry and a
resolvable page box; its loop step hands the document back unchanged. -/
theorem apply_inner_margin_empty_page_unchanged_wit :
    effective_page_box trimBoxDoc (2, 0) = some (1, 1, 2, 2) ∧
    page_content_streams trimBoxDoc (2, 0) = some [] ∧
    apply_inner_margin_step ⟨0, 0, 10, 10⟩ ⟨0, 0, 10, 10⟩ 0 trimBoxDoc (2, 0)
      = some trimBoxDoc :=
  ⟨rfl, rfl,
   (apply_inner_margin_empty_page_unchanged ⟨0, 0, 10, 10⟩ ⟨0, 0, 10, 10⟩ 0
     trimBoxDoc (2, 0) (1, 1, 2, 2) rfl rfl).1⟩

end KDPBinder
